import Mathlib

/-!
# Verification of `Synchronizer.py` (one-way folder synchronization)

A shallow embedding of the folder synchronizer:

* `md5hex` is a full executable MD5 (RFC 1321) over byte lists; it models
  `hashlib.md5(...).hexdigest()`.
* `computeMd5` models `compute_md5`: chunked reading (4096-byte blocks) of a
  readable file, and the degraded empty digest (with an error log) when the
  path is missing or unreadable.
* `Entry`/`Listing` model a directory tree (a listing is the ordered sequence
  of named children that `os.scandir` would enumerate).
* `syncFolders` models `sync_folders` with its forward mirror pass
  (`os.walk(source)`, directories created then files copied, depth-first
  top-down) and reverse prune pass (`os.walk(replica)`, files removed then
  directories recursively removed when absent from source), producing the
  final replica tree together with the list of log events.

Paths are lists of components; `os.path.join` is list append, and
`os.path.relpath(root, top)` is the component list of `root` below `top`
(`"."` for `top` itself corresponds to the empty list, which `os.path.join`
normalization collapses).
-/

set_option autoImplicit false
set_option maxRecDepth 40000

namespace Sync

/-- A byte string: each element is a byte value (< 256 whenever it originates
from a file; the MD5 padding and word packing reduce mod 256/2^32 anyway). -/
abbrev Bytes := List Nat

/-- A filesystem path, as its list of components. -/
abbrev Path := List String

/-! ## MD5 (models `hashlib.md5`) -/

/-- Truncation to a 32-bit word. -/
def w32 (x : Nat) : Nat := x % 4294967296

/-- 32-bit left rotation (the high and low parts occupy disjoint bit ranges,
so addition agrees with bitwise or). -/
def rotl (x s : Nat) : Nat := w32 (x * 2 ^ s + x / 2 ^ (32 - s))

/-- The 64 MD5 round constants `K[i] = floor(abs(sin(i+1)) * 2^32)`. -/
def md5K : List Nat := [
  3614090360, 3905402710, 606105819, 3250441966, 4118548399, 1200080426, 2821735955, 4249261313,
  1770035416, 2336552879, 4294925233, 2304563134, 1804603682, 4254626195, 2792965006, 1236535329,
  4129170786, 3225465664, 643717713, 3921069994, 3593408605, 38016083, 3634488961, 3889429448,
  568446438, 3275163606, 4107603335, 1163531501, 2850285829, 4243563512, 1735328473, 2368359562,
  4294588738, 2272392833, 1839030562, 4259657740, 2763975236, 1272893353, 4139469664, 3200236656,
  681279174, 3936430074, 3572445317, 76029189, 3654602809, 3873151461, 530742520, 3299628645,
  4096336452, 1126891415, 2878612391, 4237533241, 1700485571, 2399980690, 4293915773, 2240044497,
  1873313359, 4264355552, 2734768916, 1309151649, 4149444226, 3174756917, 718787259, 3951481745]

/-- The per-round left-rotation amounts. -/
def md5S : List Nat := [
  7, 12, 17, 22, 7, 12, 17, 22, 7, 12, 17, 22, 7, 12, 17, 22,
  5, 9, 14, 20, 5, 9, 14, 20, 5, 9, 14, 20, 5, 9, 14, 20,
  4, 11, 16, 23, 4, 11, 16, 23, 4, 11, 16, 23, 4, 11, 16, 23,
  6, 10, 15, 21, 6, 10, 15, 21, 6, 10, 15, 21, 6, 10, 15, 21]

/-- The nonlinear mixing function of round `i`. -/
def md5F (i b c d : Nat) : Nat :=
  if i < 16 then (b &&& c) ||| ((b ^^^ 4294967295) &&& d)
  else if i < 32 then (d &&& b) ||| ((d ^^^ 4294967295) &&& c)
  else if i < 48 then b ^^^ c ^^^ d
  else c ^^^ (b ||| (d ^^^ 4294967295))

/-- The message-word index consulted by round `i`. -/
def md5G (i : Nat) : Nat :=
  if i < 16 then i
  else if i < 32 then (5 * i + 1) % 16
  else if i < 48 then (3 * i + 5) % 16
  else (7 * i) % 16

/-- The running 128-bit MD5 state as four 32-bit words. -/
structure MD5State where
  a : Nat
  b : Nat
  c : Nat
  d : Nat
deriving DecidableEq

/-- The MD5 initialization vector. -/
def md5Init : MD5State := ⟨1732584193, 4023233417, 2562383102, 271733878⟩

/-- One of the 64 rounds applied to a 16-word message block `M`. -/
def md5Step (M : List Nat) (st : MD5State) (i : Nat) : MD5State :=
  let f := w32 (st.a + md5F i st.b st.c st.d + md5K.getD i 0 + M.getD (md5G i) 0)
  ⟨st.d, w32 (st.b + rotl f (md5S.getD i 0)), st.b, st.c⟩

/-- Compression of one 16-word block into the running state. -/
def md5Block (st : MD5State) (M : List Nat) : MD5State :=
  let r := (List.range 64).foldl (md5Step M) st
  ⟨w32 (st.a + r.a), w32 (st.b + r.b), w32 (st.c + r.c), w32 (st.d + r.d)⟩

/-- Structural worker for `chunksOf`; the fuel argument is an upper bound on
the list length, consumed one unit per chunk. -/
def chunksOfF {α : Type} : Nat → Nat → List α → List (List α)
  | 0, _, _ => []
  | _ + 1, _, [] => []
  | fuel + 1, n, x :: xs => (x :: xs.take (n - 1)) :: chunksOfF fuel n (xs.drop (n - 1))

/-- Split a list into consecutive chunks of `n` elements (the final chunk may
be shorter); for `n = 4096` this is the read loop
`iter(lambda: f.read(4096), b"")` of `compute_md5`. -/
def chunksOf {α : Type} (n : Nat) (l : List α) : List (List α) := chunksOfF l.length n l

/-- Little-endian word value of a byte chunk. -/
def leWord (bs : Bytes) : Nat := bs.foldr (fun b acc => b % 256 + 256 * acc) 0

/-- The `n` little-endian bytes of `x` (truncating). -/
def leBytes (n x : Nat) : Bytes :=
  match n with
  | 0 => []
  | n + 1 => x % 256 :: leBytes n (x / 256)

/-- MD5 padding: a `0x80` byte, zeros to 56 mod 64, then the 8-byte
little-endian bit length. -/
def padMsg (msg : Bytes) : Bytes :=
  msg ++ 128 :: List.replicate ((119 - msg.length % 64) % 64) 0 ++ leBytes 8 (8 * msg.length)

/-- The 16-byte MD5 digest of a byte string. -/
def md5Bytes (msg : Bytes) : Bytes :=
  let st := (chunksOf 64 (padMsg msg)).foldl
    (fun st blk => md5Block st ((chunksOf 4 blk).map leWord)) md5Init
  leBytes 4 st.a ++ leBytes 4 st.b ++ leBytes 4 st.c ++ leBytes 4 st.d

/-- One lowercase hex digit. -/
def hexChar (n : Nat) : Char := if n < 10 then Char.ofNat (48 + n) else Char.ofNat (87 + n)

/-- Two lowercase hex digits of a byte. -/
def byteHex (b : Nat) : List Char := [hexChar (b / 16), hexChar (b % 16)]

/-- The lowercase 32-character hexadecimal MD5 digest:
`hashlib.md5(msg).hexdigest()`. -/
def md5hex (msg : Bytes) : String := String.mk (((md5Bytes msg).map byteHex).flatten)

/-- The digest `compute_md5` produces for a readable file: the 4096-byte read
loop feeds each chunk to `hash_md5.update`, whose net effect is hashing the
concatenation of the chunks. -/
def hashFile (c : Bytes) : String := md5hex ((chunksOf 4096 c).foldl (· ++ ·) [])

/-! ## Directory trees -/

mutual
/-- A filesystem node: a regular file (content bytes plus whether the current
process may read it) or a directory with its ordered child listing. -/
inductive Entry where
  | file (content : Bytes) (readable : Bool)
  | dir (children : Listing)
deriving DecidableEq

/-- A directory listing: named children in the enumeration order the
underlying filesystem yields. Real directories never repeat a name; `wfL`
states that invariant. -/
inductive Listing where
  | nil
  | cons (name : String) (e : Entry) (rest : Listing)
deriving DecidableEq
end

/-- Whether a node is a directory (`os.walk` separates `dirs` from `files`
on this). -/
def Entry.isDir : Entry → Bool
  | .dir _ => true
  | .file _ _ => false

/-- The child of a listing with the given name, if present. -/
def findChild : Listing → String → Option Entry
  | .nil, _ => none
  | .cons m e rest, n => if m = n then some e else findChild rest n

/-- Replace the entry of an existing name (first occurrence). -/
def setChild : Listing → String → Entry → Listing
  | .nil, _, _ => .nil
  | .cons m e rest, n, e' => if m = n then .cons n e' rest else .cons m e (setChild rest n e')

/-- Append a new named entry at the end of a listing (where a newly created
directory entry appears for a subsequent scan). -/
def pushChild : Listing → String → Entry → Listing
  | .nil, n, e' => .cons n e' .nil
  | .cons m e rest, n, e' => .cons m e (pushChild rest n e')

/-- Resolve a path below an entry; `none` when a component is missing or a
non-final component is a regular file. Models path resolution as used by
`os.path.exists` and friends. -/
def lookup : Entry → Path → Option Entry
  | e, [] => some e
  | .file _ _, _ :: _ => none
  | .dir cs, n :: p =>
    match findChild cs n with
    | some e => lookup e p
    | none => none

/-- Path resolution from a root that may itself not exist. -/
def lookupOpt (e : Option Entry) (p : Path) : Option Entry :=
  match e with
  | some e => lookup e p
  | none => none

/-- `os.path.exists` on a path below the (possibly missing) source root. -/
def existsIn (e : Option Entry) (p : Path) : Bool := (lookupOpt e p).isSome

/-- `os.makedirs(path)` below a root entry: creates every missing directory
along `path`; fails (`none`, modelling the raised `OSError`) if a blocking
component is a regular file, or if the final path already exists
(`exist_ok` defaults to `False`). -/
def makedirsAt : Entry → Path → Option Entry
  | _, [] => none
  | .file _ _, _ :: _ => none
  | .dir cs, [n] =>
    match findChild cs n with
    | some _ => none
    | none => some (.dir (pushChild cs n (.dir .nil)))
  | .dir cs, n :: p :: q =>
    match findChild cs n with
    | some e => (makedirsAt e (p :: q)).map fun e' => .dir (setChild cs n e')
    | none => (makedirsAt (.dir .nil) (p :: q)).map fun e' => .dir (pushChild cs n e')

/-- Opening `path` for writing and storing `c` there: every non-final
component must be an existing directory, and the final component must not be
a directory; overwriting or creating a regular file succeeds, and
`copystat` then carries the (readable) source mode over. -/
def writeFileAt : Entry → Path → Bytes → Option Entry
  | _, [], _ => none
  | .file _ _, _ :: _, _ => none
  | .dir cs, [n], c =>
    match findChild cs n with
    | some (.dir _) => none
    | some (.file _ _) => some (.dir (setChild cs n (.file c true)))
    | none => some (.dir (pushChild cs n (.file c true)))
  | .dir cs, n :: p :: q, c =>
    match findChild cs n with
    | some e => (writeFileAt e (p :: q) c).map fun e' => .dir (setChild cs n e')
    | none => none

/-- `shutil.copy2(source_file, dst)` into the replica tree: fails when the
source file is unreadable; when `dst` is an existing directory the copy lands
at `dst/basename(source_file)`; then the write must succeed. -/
def copy2At (rep : Entry) (dst : Path) (base : String) (c : Bytes) (readable : Bool) :
    Option Entry :=
  if readable then
    match lookup rep dst with
    | some (.dir _) => writeFileAt rep (dst ++ [base]) c
    | _ => writeFileAt rep dst c
  else none

/-- Drop every child with the given name from a listing. -/
def dropChild : Listing → String → Listing
  | .nil, _ => .nil
  | .cons m e rest, n => if m = n then dropChild rest n else .cons m e (dropChild rest n)

/-- Remove the entry at a (nonempty) path, together with its whole subtree;
identity when the path is missing. -/
def removeAt : Entry → Path → Entry
  | e, [] => e
  | .file c rd, _ :: _ => .file c rd
  | .dir cs, [n] => .dir (dropChild cs n)
  | .dir cs, n :: p :: q =>
    match findChild cs n with
    | some e => .dir (setChild cs n (removeAt e (p :: q)))
    | none => .dir cs

/-! ## Log events -/

/-- One log line / filesystem operation of a sync pass, carrying the absolute
path(s) the program printed and operated on. -/
inductive Event where
  /-- `Replica directory created: {replica}` after `os.makedirs(replica)`. -/
  | rootCreated (path : Path)
  /-- `Directory created: {replica_dir}` after `os.makedirs(replica_dir)`. -/
  | created (path : Path)
  /-- `Synchronizing {source_file} to {replica_file}` after `shutil.copy2`. -/
  | copied (src dst : Path)
  /-- `File removed: {replica_file}` after `os.remove`. -/
  | removed (path : Path)
  /-- `Directory removed: {replica_dir}` after `shutil.rmtree`. -/
  | removedTree (path : Path)
  /-- `logging.error` from `compute_md5` (file missing or unreadable). -/
  | errMd5 (path : Path)
  /-- `Error creating directory {replica_dir}` on a failed `os.makedirs`. -/
  | errMkdir (path : Path)
  /-- `Error synchronizing file {source_file} to {replica_file}`. -/
  | errCopy (src dst : Path)
deriving DecidableEq

/-- Whether the event is one of the `logging.error` lines. -/
def Event.isError : Event → Bool
  | .errMd5 _ | .errMkdir _ | .errCopy _ _ => true
  | _ => false

/-- A trace with no error lines: the pass "completed without error". -/
def noError (t : List Event) : Bool := t.all fun e => !e.isError

/-- The path an event mutates, when it records a filesystem mutation
(`copied` writes its destination; error lines and the reads they stand for
mutate nothing). -/
def Event.mutPath : Event → Option Path
  | .rootCreated p | .created p | .removed p | .removedTree p => some p
  | .copied _ d => some d
  | _ => none

/-! ## `compute_md5` -/

/-- `compute_md5` at a path resolving to `e`: a readable file is hashed by the
4096-byte read loop; a missing path (`FileNotFoundError`), an unreadable file
(`PermissionError`) or a directory (`IsADirectoryError`) is logged and the
digest of the empty byte string is returned, because `hash_md5` was never
updated. The second component is the emitted log. -/
def computeMd5 (path : Path) (e : Option Entry) : String × List Event :=
  match e with
  | some (.file c true) => (hashFile c, [])
  | some (.file _ false) => (md5hex [], [.errMd5 path])
  | some (.dir _) => (md5hex [], [.errMd5 path])
  | none => (md5hex [], [.errMd5 path])

/-! ## Forward pass (`os.walk(source)`) -/

/-- The body of the `for file_name in files` loop (lines 79–87): copy when the
replica counterpart is absent or the digests differ, with all failures caught
and logged per file. `rel` is the path of the directory being walked, relative
to both roots. -/
def syncOneFile (srcRoot repRoot rel : Path) (name : String) (c : Bytes) (readable : Bool)
    (rep : Entry) : Entry × List Event :=
  let sourceFile := srcRoot ++ rel ++ [name]
  let replicaFile := repRoot ++ rel ++ [name]
  let target := rel ++ [name]
  if (lookup rep target).isSome then
    let s := computeMd5 sourceFile (some (.file c readable))
    let r := computeMd5 replicaFile (lookup rep target)
    if s.1 = r.1 then (rep, s.2 ++ r.2)
    else
      match copy2At rep target name c readable with
      | some rep' => (rep', s.2 ++ r.2 ++ [.copied sourceFile replicaFile])
      | none => (rep, s.2 ++ r.2 ++ [.errCopy sourceFile replicaFile])
  else
    match copy2At rep target name c readable with
    | some rep' => (rep', [.copied sourceFile replicaFile])
    | none => (rep, [.errCopy sourceFile replicaFile])

/-- The body of the `for dir_name in dirs` loop (lines 70–78): create the
replica counterpart when absent, logging a failed creation. -/
def syncOneDir (repRoot rel : Path) (name : String) (rep : Entry) : Entry × List Event :=
  let replicaDir := repRoot ++ rel ++ [name]
  if (lookup rep (rel ++ [name])).isSome then (rep, [])
  else
    match makedirsAt rep (rel ++ [name]) with
    | some rep' => (rep', [.created replicaDir])
    | none => (rep, [.errMkdir replicaDir])

/-- The `for dir_name in dirs` loop over one walked directory. -/
def dirsLevel (repRoot rel : Path) : Listing → Entry → Entry × List Event
  | .nil, rep => (rep, [])
  | .cons _ (.file _ _) rest, rep => dirsLevel repRoot rel rest rep
  | .cons n (.dir _) rest, rep =>
    let s := syncOneDir repRoot rel n rep
    let t := dirsLevel repRoot rel rest s.1
    (t.1, s.2 ++ t.2)

/-- The `for file_name in files` loop over one walked directory. -/
def filesLevel (srcRoot repRoot rel : Path) : Listing → Entry → Entry × List Event
  | .nil, rep => (rep, [])
  | .cons n (.file c rd) rest, rep =>
    let s := syncOneFile srcRoot repRoot rel n c rd rep
    let t := filesLevel srcRoot repRoot rel rest s.1
    (t.1, s.2 ++ t.2)
  | .cons _ (.dir _) rest, rep => filesLevel srcRoot repRoot rel rest rep

/-- One `os.walk` yield for the source directory at `rel` with children `cs`:
directories are created, then files are compared and copied. -/
def levelOps (srcRoot repRoot rel : Path) (cs : Listing) (rep : Entry) :
    Entry × List Event :=
  let d := dirsLevel repRoot rel cs rep
  let f := filesLevel srcRoot repRoot rel cs d.1
  (f.1, d.2 ++ f.2)

/-- The recursive descent of `os.walk(source)` below an already-processed
directory: each child directory is yielded (its `levelOps` run) and then
descended into, depth-first, in listing order. -/
def fwdInto (srcRoot repRoot : Path) (rel : Path) : Listing → Entry → Entry × List Event
  | .nil, rep => (rep, [])
  | .cons _ (.file _ _) rest, rep => fwdInto srcRoot repRoot rel rest rep
  | .cons n (.dir cs') rest, rep =>
    let l := levelOps srcRoot repRoot (rel ++ [n]) cs' rep
    let d := fwdInto srcRoot repRoot (rel ++ [n]) cs' l.1
    let s := fwdInto srcRoot repRoot rel rest d.1
    (s.1, l.2 ++ d.2 ++ s.2)

/-- Phase A, lines 66–87: walk the source top-down and mirror it into the
replica. `os.walk` of a missing path or of a regular file yields nothing. -/
def fwdPass (srcRoot repRoot : Path) (src : Option Entry) (rep : Entry) :
    Entry × List Event :=
  match src with
  | some (.dir cs) =>
    let l := levelOps srcRoot repRoot [] cs rep
    let d := fwdInto srcRoot repRoot [] cs l.1
    (d.1, l.2 ++ d.2)
  | _ => (rep, [])

/-! ## Reverse pass (`os.walk(replica)`) -/

/-- The replica tree left after the prune pass: a file survives iff its
relative path exists under the source; a directory survives iff its path
exists under the source (else `shutil.rmtree`), and its listing is pruned
recursively by the deeper walk yields. -/
def pruneTree (src : Option Entry) (rel : Path) : Listing → Listing
  | .nil => .nil
  | .cons n (.file c rd) rest =>
    if existsIn src (rel ++ [n]) then .cons n (.file c rd) (pruneTree src rel rest)
    else pruneTree src rel rest
  | .cons n (.dir cs') rest =>
    if existsIn src (rel ++ [n]) then
      .cons n (.dir (pruneTree src (rel ++ [n]) cs')) (pruneTree src rel rest)
    else pruneTree src rel rest

/-- The `for file_name in files` loop of the prune pass (lines 93–101):
one `File removed` line per replica file missing from the source. -/
def pruneFilesEv (repRoot : Path) (src : Option Entry) (rel : Path) : Listing → List Event
  | .nil => []
  | .cons n (.file _ _) rest =>
    if existsIn src (rel ++ [n]) then pruneFilesEv repRoot src rel rest
    else .removed (repRoot ++ rel ++ [n]) :: pruneFilesEv repRoot src rel rest
  | .cons _ (.dir _) rest => pruneFilesEv repRoot src rel rest

/-- The `for dir_name in dirs` loop of the prune pass (lines 103–111):
one `Directory removed` line per replica directory missing from the source. -/
def pruneDirsEv (repRoot : Path) (src : Option Entry) (rel : Path) : Listing → List Event
  | .nil => []
  | .cons _ (.file _ _) rest => pruneDirsEv repRoot src rel rest
  | .cons n (.dir _) rest =>
    if existsIn src (rel ++ [n]) then pruneDirsEv repRoot src rel rest
    else .removedTree (repRoot ++ rel ++ [n]) :: pruneDirsEv repRoot src rel rest

/-- The deeper walk yields of the prune pass: the walk descends, in listing
order, into each subdirectory; a directory just removed by `shutil.rmtree`
yields nothing, and a surviving one contributes its own level's removal lines
followed by its deeper yields. -/
def pruneInto (repRoot : Path) (src : Option Entry) (rel : Path) : Listing → List Event
  | .nil => []
  | .cons _ (.file _ _) rest => pruneInto repRoot src rel rest
  | .cons n (.dir cs') rest =>
    (if existsIn src (rel ++ [n]) then
      pruneFilesEv repRoot src (rel ++ [n]) cs' ++ pruneDirsEv repRoot src (rel ++ [n]) cs' ++
        pruneInto repRoot src (rel ++ [n]) cs'
    else []) ++ pruneInto repRoot src rel rest

/-- Phase B, lines 89–111: walk the replica and delete whatever the source
does not have. Walking a file root yields nothing. -/
def prunePass (repRoot : Path) (src : Option Entry) (rep : Entry) : Entry × List Event :=
  match rep with
  | .dir cs =>
    (.dir (pruneTree src [] cs),
      pruneFilesEv repRoot src [] cs ++ pruneDirsEv repRoot src [] cs ++
        pruneInto repRoot src [] cs)
  | e => (e, [])

/-! ## `sync_folders` -/

/-- `sync_folders(source, replica)`. `src`/`rep` are the trees the two root
paths resolve to (`none` when the path does not exist). `perm` says whether
the process may create the missing replica root: a failing `os.makedirs`
there is logged and re-raised, modelled by the `none` result (the
propagated exception aborts the pass); every other failure is caught inside
the passes. The `some` value is the final replica tree and the emitted log. -/
def syncFolders (perm : Bool) (srcRoot repRoot : Path) (src : Option Entry)
    (rep : Option Entry) : Option (Entry × List Event) :=
  match rep with
  | some r =>
    let f := fwdPass srcRoot repRoot src r
    let p := prunePass repRoot src f.1
    some (p.1, f.2 ++ p.2)
  | none =>
    if perm then
      let f := fwdPass srcRoot repRoot src (.dir .nil)
      let p := prunePass repRoot src f.1
      some (p.1, .rootCreated repRoot :: (f.2 ++ p.2))
    else none

/-! ## Digest lemmas -/

theorem chunksOfF_foldl {α : Type} :
    ∀ (fuel : Nat) (n : Nat) (l : List α) (acc : List α), l.length ≤ fuel →
      (chunksOfF fuel n l).foldl (· ++ ·) acc = acc ++ l := by
  intro fuel
  induction fuel with
  | zero =>
    intro n l acc h
    obtain rfl : l = [] := List.eq_nil_of_length_eq_zero (Nat.le_zero.mp h)
    simp [chunksOfF]
  | succ f ih =>
    intro n l acc h
    cases l with
    | nil => simp [chunksOfF]
    | cons x xs =>
      simp only [chunksOfF, List.foldl]
      rw [ih]
      · simp [List.append_assoc, List.take_append_drop]
      · simp only [List.length_drop]
        simp only [List.length_cons] at h
        omega

/-- The chunked read loop of `compute_md5` hashes exactly the file's full
byte content. -/
theorem hashFile_eq (c : Bytes) : hashFile c = md5hex c := by
  unfold hashFile chunksOf
  rw [chunksOfF_foldl _ _ _ _ le_rfl]
  simp

theorem leBytes_length : ∀ n x, (leBytes n x).length = n := by
  intro n
  induction n with
  | zero => intro x; rfl
  | succ m ih => intro x; simp [leBytes, ih]

theorem md5Bytes_length (msg : Bytes) : (md5Bytes msg).length = 16 := by
  simp [md5Bytes, leBytes_length]

theorem flatten_byteHex_length :
    ∀ l : Bytes, ((l.map byteHex).flatten).length = 2 * l.length := by
  intro l
  induction l with
  | nil => rfl
  | cons b bs ih => simp [byteHex, ih]; omega

/-- MD5 hex digests have the fixed length 32. -/
theorem md5hex_length (msg : Bytes) : (md5hex msg).length = 32 := by
  have hmk : ∀ l : List Char, (String.mk l).length = l.length := fun l => rfl
  rw [md5hex, hmk, flatten_byteHex_length, md5Bytes_length]

/-- A path the fingerprinter degrades on: missing, an unreadable file, or a
directory (whose `open` also raises). -/
def degraded : Option Entry → Bool
  | some (.file _ true) => false
  | _ => true

/-- What the claims call the "(path, content) pair" at a path: `none` when the
path is absent, `some none` for a directory, `some (some c)` for a regular
file with content `c`. -/
def shape (e : Option Entry) : Option (Option Bytes) :=
  match e with
  | none => none
  | some (.dir _) => some none
  | some (.file c _) => some (some c)

/-! ## Claim theorems: the fingerprinter (C8, C4) -/

/-- C8. Fingerprint definition: for every readable file, `compute_md5` reads
the file in 4096-byte chunks until end-of-stream (the read loop inside
`computeMd5`'s readable branch, `hashFile`), folds the chunks into the
running hash, emits no log, and the result equals the MD5 hex digest of the
file's full byte content — a deterministic fixed-length (32-character)
hexadecimal string. -/
theorem C8_fingerprint_definition (path : Path) (c : Bytes) :
    computeMd5 path (some (.file c true)) = (md5hex c, []) ∧ (md5hex c).length = 32 :=
  ⟨by simp [computeMd5, hashFile_eq], md5hex_length c⟩

/-- C4. Degraded fingerprint: on every missing or unreadable path,
`compute_md5` returns normally (no exception is modelled to escape: the
function is total on those inputs) with the digest of zero bytes — the MD5
hex digest `d41d8cd98f00b204e9800998ecf8427e` of the empty byte string —
after logging the condition; hence any two such paths receive equal degraded
digests and the comparison in `sync_folders` cannot distinguish them. -/
theorem computeMd5_degraded (path : Path) (e : Option Entry) (h : degraded e = true) :
    computeMd5 path e = (md5hex [], [.errMd5 path]) := by
  cases e with
  | none => rfl
  | some e =>
    cases e with
    | file c r =>
      cases r with
      | false => rfl
      | true => simp [degraded] at h
    | dir cs => rfl

theorem C4_degraded_fingerprint :
    (∀ (path : Path) (e : Option Entry), degraded e = true →
      computeMd5 path e = (md5hex [], [.errMd5 path])) ∧
    md5hex [] = "d41d8cd98f00b204e9800998ecf8427e" ∧
    (∀ (p₁ p₂ : Path) (e₁ e₂ : Option Entry), degraded e₁ = true → degraded e₂ = true →
      (computeMd5 p₁ e₁).1 = (computeMd5 p₂ e₂).1) := by
  refine ⟨computeMd5_degraded, by decide, ?_⟩
  intro p₁ p₂ e₁ e₂ h₁ h₂
  rw [computeMd5_degraded p₁ e₁ h₁, computeMd5_degraded p₂ e₂ h₂]

/-- Witness for C4 at a concrete unreadable file and a concrete missing path. -/
theorem C4_degraded_fingerprint_witness :
    degraded (some (.file [7] false)) = true ∧ degraded none = true ∧
    computeMd5 ["s", "f"] (some (.file [7] false)) = (md5hex [], [.errMd5 ["s", "f"]]) ∧
    (computeMd5 ["s", "f"] (some (.file [7] false))).1 = (computeMd5 ["s", "g"] none).1 :=
  ⟨by decide, by decide,
    C4_degraded_fingerprint.1 ["s", "f"] _ (by decide),
    C4_degraded_fingerprint.2.2 ["s", "f"] ["s", "g"] _ _ (by decide) (by decide)⟩

/-! ## Claim theorems: replica root setup (C6) -/

/-- C6. Setup-fatal replica root: when the replica root is missing,
`sync_folders` calls `os.makedirs(replica)` (which creates all missing
parents; in the two-tree model the root's parents collapse into the root
creation itself). A failing creation is propagated out of `sync_folders` —
the pass aborts with no result and no further processing — whereas a
successful creation is logged first and the pass then proceeds. -/
theorem C6_setup_fatal_replica_root (srcRoot repRoot : Path) (src : Option Entry) :
    syncFolders false srcRoot repRoot src none = none ∧
    (∃ rep' tr, syncFolders true srcRoot repRoot src none =
      some (rep', .rootCreated repRoot :: tr)) := by
  exact ⟨rfl, _, _, rfl⟩

/-! ## Claim theorems: convergence (C1) -/

/-- Counterexample to C1 as stated. Source holds one empty directory `d`;
the replica holds a regular file `d`. The pass completes with an empty log
(no error), yet the replica still holds the file `d` afterwards: the
forward pass skips the directory because `os.path.exists(replica/d)` is
true, and the prune pass keeps the file because `os.path.exists(source/d)`
is true. The relative path `d` is a directory under source and a file under
replica, so no identical (path, content) pair exists for it. -/
theorem C1_convergence_counterexample :
    syncFolders true ["s"] ["r"]
        (some (.dir (.cons "d" (.dir .nil) .nil)))
        (some (.dir (.cons "d" (.file [72] true) .nil)))
      = some (.dir (.cons "d" (.file [72] true) .nil), []) ∧
    noError [] = true ∧
    shape (lookup (.dir (.cons "d" (.dir .nil) .nil)) ["d"]) ≠
      shape (lookup (.dir (.cons "d" (.file [72] true) .nil)) ["d"]) := by
  refine ⟨by decide, by decide, by decide⟩

/-! ## Claim theorems: per-file copy decision (C3) and per-entry recovery (C7) -/

/-- Whether a trace records a copy attempt: either the `Synchronizing` line of
a completed `shutil.copy2`, or the error line of a failed one. -/
def copyAttempt (evs : List Event) : Bool :=
  evs.any fun e =>
    match e with
    | .copied _ _ => true
    | .errCopy _ _ => true
    | _ => false

theorem copyAttempt_computeMd5 (p : Path) (e : Option Entry) :
    copyAttempt (computeMd5 p e).2 = false := by
  rcases e with _ | (⟨c, (_ | _)⟩ | cs) <;> rfl

theorem copyAttempt_append (a b : List Event) :
    copyAttempt (a ++ b) = (copyAttempt a || copyAttempt b) :=
  List.any_append

theorem copyAttempt_copied (a b : Path) : copyAttempt [.copied a b] = true := rfl

theorem copyAttempt_errCopy (a b : Path) : copyAttempt [.errCopy a b] = true := rfl

/-! Branch-by-branch evaluation lemmas for the per-file and per-directory
steps of the forward pass. -/

theorem syncOneFile_skip (sR rR rel : Path) (name : String) (c : Bytes) (rd : Bool)
    (rep : Entry)
    (h1 : (lookup rep (rel ++ [name])).isSome = true)
    (h2 : (computeMd5 (sR ++ rel ++ [name]) (some (.file c rd))).1 =
      (computeMd5 (rR ++ rel ++ [name]) (lookup rep (rel ++ [name]))).1) :
    syncOneFile sR rR rel name c rd rep =
      (rep, (computeMd5 (sR ++ rel ++ [name]) (some (.file c rd))).2 ++
        (computeMd5 (rR ++ rel ++ [name]) (lookup rep (rel ++ [name]))).2) := by
  simp only [syncOneFile]
  rw [if_pos h1, if_pos h2]

theorem syncOneFile_copy (sR rR rel : Path) (name : String) (c : Bytes) (rd : Bool)
    (rep rep' : Entry)
    (h1 : (lookup rep (rel ++ [name])).isSome = true)
    (h2 : ¬ (computeMd5 (sR ++ rel ++ [name]) (some (.file c rd))).1 =
      (computeMd5 (rR ++ rel ++ [name]) (lookup rep (rel ++ [name]))).1)
    (hc : copy2At rep (rel ++ [name]) name c rd = some rep') :
    syncOneFile sR rR rel name c rd rep =
      (rep', (computeMd5 (sR ++ rel ++ [name]) (some (.file c rd))).2 ++
        (computeMd5 (rR ++ rel ++ [name]) (lookup rep (rel ++ [name]))).2 ++
        [.copied (sR ++ rel ++ [name]) (rR ++ rel ++ [name])]) := by
  simp only [syncOneFile]
  rw [if_pos h1, if_neg h2, hc]

theorem syncOneFile_copyErr (sR rR rel : Path) (name : String) (c : Bytes) (rd : Bool)
    (rep : Entry)
    (h1 : (lookup rep (rel ++ [name])).isSome = true)
    (h2 : ¬ (computeMd5 (sR ++ rel ++ [name]) (some (.file c rd))).1 =
      (computeMd5 (rR ++ rel ++ [name]) (lookup rep (rel ++ [name]))).1)
    (hc : copy2At rep (rel ++ [name]) name c rd = none) :
    syncOneFile sR rR rel name c rd rep =
      (rep, (computeMd5 (sR ++ rel ++ [name]) (some (.file c rd))).2 ++
        (computeMd5 (rR ++ rel ++ [name]) (lookup rep (rel ++ [name]))).2 ++
        [.errCopy (sR ++ rel ++ [name]) (rR ++ rel ++ [name])]) := by
  simp only [syncOneFile]
  rw [if_pos h1, if_neg h2, hc]

theorem syncOneFile_new (sR rR rel : Path) (name : String) (c : Bytes) (rd : Bool)
    (rep rep' : Entry)
    (h1 : ¬ (lookup rep (rel ++ [name])).isSome = true)
    (hc : copy2At rep (rel ++ [name]) name c rd = some rep') :
    syncOneFile sR rR rel name c rd rep =
      (rep', [.copied (sR ++ rel ++ [name]) (rR ++ rel ++ [name])]) := by
  simp only [syncOneFile]
  rw [if_neg h1, hc]

theorem syncOneFile_newErr (sR rR rel : Path) (name : String) (c : Bytes) (rd : Bool)
    (rep : Entry)
    (h1 : ¬ (lookup rep (rel ++ [name])).isSome = true)
    (hc : copy2At rep (rel ++ [name]) name c rd = none) :
    syncOneFile sR rR rel name c rd rep =
      (rep, [.errCopy (sR ++ rel ++ [name]) (rR ++ rel ++ [name])]) := by
  simp only [syncOneFile]
  rw [if_neg h1, hc]

theorem syncOneDir_exists (rR rel : Path) (name : String) (rep : Entry)
    (h : (lookup rep (rel ++ [name])).isSome = true) :
    syncOneDir rR rel name rep = (rep, []) := by
  simp only [syncOneDir]
  rw [if_pos h]

theorem syncOneDir_create (rR rel : Path) (name : String) (rep rep' : Entry)
    (h : ¬ (lookup rep (rel ++ [name])).isSome = true)
    (hm : makedirsAt rep (rel ++ [name]) = some rep') :
    syncOneDir rR rel name rep = (rep', [.created (rR ++ rel ++ [name])]) := by
  simp only [syncOneDir]
  rw [if_neg h, hm]

theorem syncOneDir_createErr (rR rel : Path) (name : String) (rep : Entry)
    (h : ¬ (lookup rep (rel ++ [name])).isSome = true)
    (hm : makedirsAt rep (rel ++ [name]) = none) :
    syncOneDir rR rel name rep = (rep, [.errMkdir (rR ++ rel ++ [name])]) := by
  simp only [syncOneDir]
  rw [if_neg h, hm]

/-- Counterexample to C3 as stated. The source file `f` is unreadable with
content `[0]`; the replica holds an empty readable file `f`. Both digests
degrade/evaluate to the digest of zero bytes, so they match and no copy
happens — but the claim's "emits no log for that file" fails: `compute_md5`
logs an error line for the source file. -/
theorem C3_copy_decision_counterexample :
    (computeMd5 ["s", "f"] (some (.file [0] false))).1 =
      (computeMd5 ["r", "f"] (lookup (.dir (.cons "f" (.file [] true) .nil)) ["f"])).1 ∧
    syncOneFile ["s"] ["r"] [] "f" [0] false (.dir (.cons "f" (.file [] true) .nil)) =
      (.dir (.cons "f" (.file [] true) .nil), [.errMd5 ["s", "f"]]) ∧
    ([.errMd5 ["s", "f"]] : List Event) ≠ [] := by
  refine ⟨by decide, by decide, by decide⟩

/-- C3 as amended: during the forward pass each source file triggers a copy
attempt (`shutil.copy2`, which overwrites) exactly when its replica
counterpart is absent or the two digests differ; and when the counterpart
exists with a matching digest the replica is left untouched and nothing is
logged beyond whatever error lines the two digest computations themselves
emitted (none at all for readable regular files). -/
theorem C3_amended_copy_decision (sR rR rel : Path) (name : String) (c : Bytes) (rd : Bool)
    (rep : Entry) :
    (copyAttempt (syncOneFile sR rR rel name c rd rep).2 = true ↔
      ((lookup rep (rel ++ [name])).isSome = false ∨
        (computeMd5 (sR ++ rel ++ [name]) (some (.file c rd))).1 ≠
          (computeMd5 (rR ++ rel ++ [name]) (lookup rep (rel ++ [name]))).1)) ∧
    ((lookup rep (rel ++ [name])).isSome = true →
      (computeMd5 (sR ++ rel ++ [name]) (some (.file c rd))).1 =
        (computeMd5 (rR ++ rel ++ [name]) (lookup rep (rel ++ [name]))).1 →
      syncOneFile sR rR rel name c rd rep =
        (rep, (computeMd5 (sR ++ rel ++ [name]) (some (.file c rd))).2 ++
          (computeMd5 (rR ++ rel ++ [name]) (lookup rep (rel ++ [name]))).2)) := by
  refine ⟨?_, fun hp he => syncOneFile_skip sR rR rel name c rd rep hp he⟩
  by_cases hp : (lookup rep (rel ++ [name])).isSome = true
  · by_cases he : (computeMd5 (sR ++ rel ++ [name]) (some (.file c rd))).1 =
        (computeMd5 (rR ++ rel ++ [name]) (lookup rep (rel ++ [name]))).1
    · rw [syncOneFile_skip sR rR rel name c rd rep hp he, copyAttempt_append,
        copyAttempt_computeMd5, copyAttempt_computeMd5]
      constructor
      · intro h; exact absurd h (by decide)
      · rintro (h | h)
        · rw [hp] at h; exact absurd h (by decide)
        · exact absurd he h
    · cases hc : copy2At rep (rel ++ [name]) name c rd with
      | some rep' =>
        rw [syncOneFile_copy sR rR rel name c rd rep rep' hp he hc, copyAttempt_append,
          copyAttempt_append, copyAttempt_computeMd5, copyAttempt_computeMd5,
          copyAttempt_copied]
        exact ⟨fun _ => Or.inr he, fun _ => rfl⟩
      | none =>
        rw [syncOneFile_copyErr sR rR rel name c rd rep hp he hc, copyAttempt_append,
          copyAttempt_append, copyAttempt_computeMd5, copyAttempt_computeMd5,
          copyAttempt_errCopy]
        exact ⟨fun _ => Or.inr he, fun _ => rfl⟩
  · simp only [Bool.not_eq_true] at hp
    cases hc : copy2At rep (rel ++ [name]) name c rd with
    | some rep' =>
      rw [syncOneFile_new sR rR rel name c rd rep rep' (by rw [hp]; decide) hc,
        copyAttempt_copied]
      exact ⟨fun _ => Or.inl hp, fun _ => rfl⟩
    | none =>
      rw [syncOneFile_newErr sR rR rel name c rd rep (by rw [hp]; decide) hc,
        copyAttempt_errCopy]
      exact ⟨fun _ => Or.inl hp, fun _ => rfl⟩

/-- Witness for C3's amended skip clause: identical readable files on both
sides, where the digests match and the step leaves the replica untouched. -/
theorem C3_amended_copy_decision_witness :
    (lookup (.dir (.cons "f" (.file [5] true) .nil)) ([] ++ ["f"])).isSome = true ∧
    syncOneFile ["s"] ["r"] [] "f" [5] true (.dir (.cons "f" (.file [5] true) .nil)) =
      (.dir (.cons "f" (.file [5] true) .nil),
        (computeMd5 (["s"] ++ [] ++ ["f"]) (some (.file [5] true))).2 ++
          (computeMd5 (["r"] ++ [] ++ ["f"])
            (lookup (.dir (.cons "f" (.file [5] true) .nil)) ([] ++ ["f"]))).2) :=
  ⟨by decide,
    (C3_amended_copy_decision ["s"] ["r"] [] "f" [5] true
      (.dir (.cons "f" (.file [5] true) .nil))).2 (by decide) (by decide)⟩

/-- C7. Per-entry recoverability. First conjunct: once the replica root
exists, `sync_folders` always returns normally (every per-entry failure is
caught inside the passes). Second conjunct: a file whose source is
unreadable and whose replica counterpart is absent produces exactly one
error line and leaves the replica untouched. Third conjunct, the spec's
scenario: an unreadable source file next to a readable one — the error is
logged, the replica does not gain the bad file, and the pass continues and
copies the good one. -/
theorem C7_per_entry_recoverability :
    (∀ (perm : Bool) (sR rR : Path) (src : Option Entry) (r : Entry),
      ∃ out, syncFolders perm sR rR src (some r) = some out) ∧
    (∀ (sR rR rel : Path) (name : String) (c : Bytes) (rep : Entry),
      (lookup rep (rel ++ [name])).isSome = false →
      syncOneFile sR rR rel name c false rep =
        (rep, [.errCopy (sR ++ rel ++ [name]) (rR ++ rel ++ [name])])) ∧
    syncFolders true ["s"] ["r"]
        (some (.dir (.cons "bad" (.file [1] false) (.cons "good" (.file [2] true) .nil))))
        (some (.dir .nil)) =
      some (.dir (.cons "good" (.file [2] true) .nil),
        [.errCopy ["s", "bad"] ["r", "bad"], .copied ["s", "good"] ["r", "good"]]) := by
  refine ⟨fun perm sR rR src r => ⟨_, rfl⟩, ?_, by decide⟩
  intro sR rR rel name c rep hp
  unfold syncOneFile
  simp [hp, copy2At]

/-- Witness for C7's hypothesis-bearing clause at a concrete tree. -/
theorem C7_per_entry_recoverability_witness :
    (lookup (.dir .nil) ([] ++ ["f"])).isSome = false ∧
    syncOneFile ["s"] ["r"] [] "f" [9] false (.dir .nil) =
      (.dir .nil, [.errCopy (["s"] ++ [] ++ ["f"]) (["r"] ++ [] ++ ["f"])]) :=
  ⟨by decide, C7_per_entry_recoverability.2.1 ["s"] ["r"] [] "f" [9] (.dir .nil) (by decide)⟩

/-! ## Claim theorems: missing source (C10) -/

theorem pruneTree_none : ∀ (rel : Path) (cs : Listing), pruneTree none rel cs = .nil := by
  intro rel cs
  cases cs with
  | nil => rfl
  | cons n e rest =>
    cases e with
    | file c r => simpa [pruneTree, existsIn, lookupOpt] using pruneTree_none rel rest
    | dir cs' => simpa [pruneTree, existsIn, lookupOpt] using pruneTree_none rel rest

theorem pruneInto_none (rR : Path) : ∀ (rel : Path) (cs : Listing),
    pruneInto rR none rel cs = [] := by
  intro rel cs
  cases cs with
  | nil => rfl
  | cons n e rest =>
    cases e with
    | file c r => simpa [pruneInto] using pruneInto_none rR rel rest
    | dir cs' => simpa [pruneInto, existsIn, lookupOpt] using pruneInto_none rR rel rest

theorem pruneFilesEv_shape (rR : Path) (src : Option Entry) :
    ∀ (rel : Path) (cs : Listing) (e : Event), e ∈ pruneFilesEv rR src rel cs →
      ∃ p, e = .removed p := by
  intro rel cs
  cases cs with
  | nil => intro e h; cases h
  | cons n ent rest =>
    intro e h
    cases ent with
    | file c r =>
      by_cases hx : existsIn src (rel ++ [n]) = true
      · rw [pruneFilesEv, if_pos hx] at h
        exact pruneFilesEv_shape rR src rel rest e h
      · rw [pruneFilesEv, if_neg hx] at h
        rcases List.mem_cons.mp h with rfl | h
        · exact ⟨_, rfl⟩
        · exact pruneFilesEv_shape rR src rel rest e h
    | dir cs' => exact pruneFilesEv_shape rR src rel rest e h

theorem pruneDirsEv_shape (rR : Path) (src : Option Entry) :
    ∀ (rel : Path) (cs : Listing) (e : Event), e ∈ pruneDirsEv rR src rel cs →
      ∃ p, e = .removedTree p := by
  intro rel cs
  cases cs with
  | nil => intro e h; cases h
  | cons n ent rest =>
    intro e h
    cases ent with
    | file c r => exact pruneDirsEv_shape rR src rel rest e h
    | dir cs' =>
      by_cases hx : existsIn src (rel ++ [n]) = true
      · rw [pruneDirsEv, if_pos hx] at h
        exact pruneDirsEv_shape rR src rel rest e h
      · rw [pruneDirsEv, if_neg hx] at h
        rcases List.mem_cons.mp h with rfl | h
        · exact ⟨_, rfl⟩
        · exact pruneDirsEv_shape rR src rel rest e h

theorem pruneFilesEv_none_mem (rR : Path) :
    ∀ (rel : Path) (cs : Listing) (n : String) (c : Bytes) (rd : Bool),
      findChild cs n = some (.file c rd) →
      Event.removed (rR ++ rel ++ [n]) ∈ pruneFilesEv rR none rel cs := by
  intro rel cs
  cases cs with
  | nil => intro n c rd h; cases h
  | cons m ent rest =>
    intro n c rd h
    rw [findChild] at h
    by_cases hmn : m = n
    · rw [if_pos hmn] at h
      subst hmn
      cases ent with
      | file c' r' =>
        simp [pruneFilesEv, existsIn, lookupOpt]
      | dir cs' => cases h
    · rw [if_neg hmn] at h
      cases ent with
      | file c' r' =>
        simp only [pruneFilesEv, existsIn, lookupOpt, Option.isSome_none, Bool.false_eq_true,
          if_false]
        exact List.mem_cons_of_mem _ (pruneFilesEv_none_mem rR rel rest n c rd h)
      | dir cs' => exact pruneFilesEv_none_mem rR rel rest n c rd h

theorem pruneDirsEv_none_mem (rR : Path) :
    ∀ (rel : Path) (cs : Listing) (n : String) (cs' : Listing),
      findChild cs n = some (.dir cs') →
      Event.removedTree (rR ++ rel ++ [n]) ∈ pruneDirsEv rR none rel cs := by
  intro rel cs
  cases cs with
  | nil => intro n cs' h; cases h
  | cons m ent rest =>
    intro n cs' h
    rw [findChild] at h
    by_cases hmn : m = n
    · rw [if_pos hmn] at h
      subst hmn
      cases ent with
      | file c' r' => cases h
      | dir cs'' =>
        simp [pruneDirsEv, existsIn, lookupOpt]
    · rw [if_neg hmn] at h
      cases ent with
      | file c' r' => exact pruneDirsEv_none_mem rR rel rest n cs' h
      | dir cs'' =>
        simp only [pruneDirsEv, existsIn, lookupOpt, Option.isSome_none, Bool.false_eq_true,
          if_false]
        exact List.mem_cons_of_mem _ (pruneDirsEv_none_mem rR rel rest n cs' h)

/-- C10. Missing source: when the source path does not exist, `os.walk`
yields nothing so the forward pass performs no operation at all, and the
reverse pass removes every file and every subdirectory of the replica root
(each top-level entry gets its removal line; deeper entries disappear with
their subtree), leaving the replica root present but empty. -/
theorem C10_missing_source (perm : Bool) (sR rR : Path) (cs : Listing) :
    fwdPass sR rR none (.dir cs) = (.dir cs, []) ∧
    ∃ tr, syncFolders perm sR rR none (some (.dir cs)) = some (.dir .nil, tr) ∧
      (∀ e ∈ tr, (∃ p, e = .removed p) ∨ (∃ p, e = .removedTree p)) ∧
      (∀ (n : String) (ent : Entry), findChild cs n = some ent →
        (ent.isDir = false → Event.removed (rR ++ [n]) ∈ tr) ∧
        (ent.isDir = true → Event.removedTree (rR ++ [n]) ∈ tr)) := by
  refine ⟨rfl, pruneFilesEv rR none [] cs ++ pruneDirsEv rR none [] cs, ?_, ?_, ?_⟩
  · have hbase : syncFolders perm sR rR none (some (.dir cs)) =
        some (.dir (pruneTree none [] cs),
          pruneFilesEv rR none [] cs ++ pruneDirsEv rR none [] cs ++
            pruneInto rR none [] cs) := rfl
    rw [hbase, pruneTree_none, pruneInto_none, List.append_nil]
  · intro e h
    rcases List.mem_append.mp h with h | h
    · exact Or.inl (pruneFilesEv_shape rR none [] cs e h)
    · exact Or.inr (pruneDirsEv_shape rR none [] cs e h)
  · intro n ent h
    constructor
    · intro hd
      cases ent with
      | dir cs' => cases hd
      | file c rd =>
        have := pruneFilesEv_none_mem rR [] cs n c rd h
        rw [List.append_nil] at this
        exact List.mem_append.mpr (Or.inl this)
    · intro hd
      cases ent with
      | file c rd => cases hd
      | dir cs' =>
        have := pruneDirsEv_none_mem rR [] cs n cs' h
        rw [List.append_nil] at this
        exact List.mem_append.mpr (Or.inr this)

/-- Witness for C10 at a one-file, one-directory replica. -/
theorem C10_missing_source_witness :
    ∃ tr, syncFolders true ["s"] ["r"] none
        (some (.dir (.cons "f" (.file [3] true) (.cons "d" (.dir .nil) .nil)))) =
      some (.dir .nil, tr) ∧
      Event.removed (["r"] ++ ["f"]) ∈ tr ∧ Event.removedTree (["r"] ++ ["d"]) ∈ tr := by
  obtain ⟨-, tr, h1, -, h3⟩ := C10_missing_source true ["s"] ["r"]
    (.cons "f" (.file [3] true) (.cons "d" (.dir .nil) .nil))
  exact ⟨tr, h1, (h3 "f" (.file [3] true) (by decide)).1 rfl,
    (h3 "d" (.dir .nil) (by decide)).2 rfl⟩

/-! ## Claim theorems: the source tree is read-only (C9) -/

theorem computeMd5_mut (pth : Path) (e : Option Entry) :
    ∀ ev ∈ (computeMd5 pth e).2, ev.mutPath = none := by
  rcases e with _ | (⟨c, (_ | _)⟩ | cs) <;> intro ev hev <;>
    first
      | (rcases List.mem_singleton.mp hev with rfl; rfl)
      | cases hev

theorem prefix_append2 (rR rel : Path) (n : String) : rR <+: rR ++ rel ++ [n] :=
  ⟨rel ++ [n], by rw [List.append_assoc]⟩

theorem syncOneFile_mut (sR rR rel : Path) (name : String) (c : Bytes) (rd : Bool)
    (rep : Entry) :
    ∀ ev ∈ (syncOneFile sR rR rel name c rd rep).2, ∀ p, ev.mutPath = some p →
      rR <+: p := by
  intro ev hev p hp
  by_cases h1 : (lookup rep (rel ++ [name])).isSome = true
  · by_cases h2 : (computeMd5 (sR ++ rel ++ [name]) (some (.file c rd))).1 =
        (computeMd5 (rR ++ rel ++ [name]) (lookup rep (rel ++ [name]))).1
    · rw [syncOneFile_skip sR rR rel name c rd rep h1 h2] at hev
      rcases List.mem_append.mp hev with h | h <;>
        · rw [computeMd5_mut _ _ ev h] at hp; cases hp
    · cases hc : copy2At rep (rel ++ [name]) name c rd with
      | some rep' =>
        rw [syncOneFile_copy sR rR rel name c rd rep rep' h1 h2 hc] at hev
        rcases List.mem_append.mp hev with h | h
        · rcases List.mem_append.mp h with h | h <;>
            · rw [computeMd5_mut _ _ ev h] at hp; cases hp
        · rcases List.mem_singleton.mp h with rfl
          cases hp
          exact prefix_append2 rR rel name
      | none =>
        rw [syncOneFile_copyErr sR rR rel name c rd rep h1 h2 hc] at hev
        rcases List.mem_append.mp hev with h | h
        · rcases List.mem_append.mp h with h | h <;>
            · rw [computeMd5_mut _ _ ev h] at hp; cases hp
        · rcases List.mem_singleton.mp h with rfl
          cases hp
  · cases hc : copy2At rep (rel ++ [name]) name c rd with
    | some rep' =>
      rw [syncOneFile_new sR rR rel name c rd rep rep' h1 hc] at hev
      rcases List.mem_singleton.mp hev with rfl
      cases hp
      exact prefix_append2 rR rel name
    | none =>
      rw [syncOneFile_newErr sR rR rel name c rd rep h1 hc] at hev
      rcases List.mem_singleton.mp hev with rfl
      cases hp

theorem syncOneDir_mut (rR rel : Path) (name : String) (rep : Entry) :
    ∀ ev ∈ (syncOneDir rR rel name rep).2, ∀ p, ev.mutPath = some p → rR <+: p := by
  intro ev hev p hp
  by_cases h1 : (lookup rep (rel ++ [name])).isSome = true
  · rw [syncOneDir_exists rR rel name rep h1] at hev
    cases hev
  · cases hm : makedirsAt rep (rel ++ [name]) with
    | some rep' =>
      rw [syncOneDir_create rR rel name rep rep' h1 hm] at hev
      rcases List.mem_singleton.mp hev with rfl
      cases hp
      exact prefix_append2 rR rel name
    | none =>
      rw [syncOneDir_createErr rR rel name rep h1 hm] at hev
      rcases List.mem_singleton.mp hev with rfl
      cases hp

theorem dirsLevel_mut (rR rel : Path) :
    ∀ (cs : Listing) (rep : Entry) (ev : Event), ev ∈ (dirsLevel rR rel cs rep).2 →
      ∀ p, ev.mutPath = some p → rR <+: p := by
  intro cs
  cases cs with
  | nil => intro rep ev hev; cases hev
  | cons n e rest =>
    intro rep ev hev p hp
    cases e with
    | file c r => exact dirsLevel_mut rR rel rest rep ev hev p hp
    | dir cs' =>
      rw [dirsLevel] at hev
      rcases List.mem_append.mp hev with h | h
      · exact syncOneDir_mut rR rel n rep ev h p hp
      · exact dirsLevel_mut rR rel rest _ ev h p hp

theorem filesLevel_mut (sR rR rel : Path) :
    ∀ (cs : Listing) (rep : Entry) (ev : Event), ev ∈ (filesLevel sR rR rel cs rep).2 →
      ∀ p, ev.mutPath = some p → rR <+: p := by
  intro cs
  cases cs with
  | nil => intro rep ev hev; cases hev
  | cons n e rest =>
    intro rep ev hev p hp
    cases e with
    | dir cs' => exact filesLevel_mut sR rR rel rest rep ev hev p hp
    | file c rd =>
      rw [filesLevel] at hev
      rcases List.mem_append.mp hev with h | h
      · exact syncOneFile_mut sR rR rel n c rd rep ev h p hp
      · exact filesLevel_mut sR rR rel rest _ ev h p hp

theorem levelOps_mut (sR rR rel : Path) (cs : Listing) (rep : Entry) :
    ∀ ev ∈ (levelOps sR rR rel cs rep).2, ∀ p, ev.mutPath = some p → rR <+: p := by
  intro ev hev p hp
  rw [levelOps] at hev
  rcases List.mem_append.mp hev with h | h
  · exact dirsLevel_mut rR rel cs rep ev h p hp
  · exact filesLevel_mut sR rR rel cs _ ev h p hp

theorem fwdInto_mut (sR rR : Path) :
    ∀ (cs : Listing) (rel : Path) (rep : Entry) (ev : Event),
      ev ∈ (fwdInto sR rR rel cs rep).2 → ∀ p, ev.mutPath = some p → rR <+: p := by
  intro cs
  cases cs with
  | nil => intro rel rep ev hev; cases hev
  | cons n e rest =>
    intro rel rep ev hev p hp
    cases e with
    | file c r => exact fwdInto_mut sR rR rest rel rep ev hev p hp
    | dir cs' =>
      rw [fwdInto] at hev
      rcases List.mem_append.mp hev with h | h
      · rcases List.mem_append.mp h with h | h
        · exact levelOps_mut sR rR (rel ++ [n]) cs' rep ev h p hp
        · exact fwdInto_mut sR rR cs' (rel ++ [n]) _ ev h p hp
      · exact fwdInto_mut sR rR rest rel _ ev h p hp

theorem fwdPass_mut (sR rR : Path) (src : Option Entry) (rep : Entry) :
    ∀ ev ∈ (fwdPass sR rR src rep).2, ∀ p, ev.mutPath = some p → rR <+: p := by
  intro ev hev p hp
  rcases src with _ | (⟨c, r⟩ | cs)
  · cases hev
  · cases hev
  · rw [fwdPass] at hev
    rcases List.mem_append.mp hev with h | h
    · exact levelOps_mut sR rR [] cs rep ev h p hp
    · exact fwdInto_mut sR rR cs [] _ ev h p hp

theorem pruneFilesEv_mut (rR : Path) (src : Option Entry) :
    ∀ (cs : Listing) (rel : Path) (ev : Event), ev ∈ pruneFilesEv rR src rel cs →
      ∀ p, ev.mutPath = some p → rR <+: p := by
  intro cs
  cases cs with
  | nil => intro rel ev hev; cases hev
  | cons n e rest =>
    intro rel ev hev p hp
    cases e with
    | dir cs' => exact pruneFilesEv_mut rR src rest rel ev hev p hp
    | file c rd =>
      by_cases hx : existsIn src (rel ++ [n]) = true
      · rw [pruneFilesEv, if_pos hx] at hev
        exact pruneFilesEv_mut rR src rest rel ev hev p hp
      · rw [pruneFilesEv, if_neg hx] at hev
        rcases List.mem_cons.mp hev with rfl | h
        · cases hp
          exact prefix_append2 rR rel n
        · exact pruneFilesEv_mut rR src rest rel ev h p hp

theorem pruneDirsEv_mut (rR : Path) (src : Option Entry) :
    ∀ (cs : Listing) (rel : Path) (ev : Event), ev ∈ pruneDirsEv rR src rel cs →
      ∀ p, ev.mutPath = some p → rR <+: p := by
  intro cs
  cases cs with
  | nil => intro rel ev hev; cases hev
  | cons n e rest =>
    intro rel ev hev p hp
    cases e with
    | file c rd => exact pruneDirsEv_mut rR src rest rel ev hev p hp
    | dir cs' =>
      by_cases hx : existsIn src (rel ++ [n]) = true
      · rw [pruneDirsEv, if_pos hx] at hev
        exact pruneDirsEv_mut rR src rest rel ev hev p hp
      · rw [pruneDirsEv, if_neg hx] at hev
        rcases List.mem_cons.mp hev with rfl | h
        · cases hp
          exact prefix_append2 rR rel n
        · exact pruneDirsEv_mut rR src rest rel ev h p hp

theorem pruneInto_mut (rR : Path) (src : Option Entry) :
    ∀ (cs : Listing) (rel : Path) (ev : Event), ev ∈ pruneInto rR src rel cs →
      ∀ p, ev.mutPath = some p → rR <+: p := by
  intro cs
  cases cs with
  | nil => intro rel ev hev; cases hev
  | cons n e rest =>
    intro rel ev hev p hp
    cases e with
    | file c rd => exact pruneInto_mut rR src rest rel ev hev p hp
    | dir cs' =>
      rw [pruneInto] at hev
      rcases List.mem_append.mp hev with h | h
      · by_cases hx : existsIn src (rel ++ [n]) = true
        · rw [if_pos hx] at h
          rcases List.mem_append.mp h with h | h
          · rcases List.mem_append.mp h with h | h
            · exact pruneFilesEv_mut rR src cs' (rel ++ [n]) ev h p hp
            · exact pruneDirsEv_mut rR src cs' (rel ++ [n]) ev h p hp
          · exact pruneInto_mut rR src cs' (rel ++ [n]) ev h p hp
        · rw [if_neg hx] at h
          cases h
      · exact pruneInto_mut rR src rest rel ev h p hp

theorem prunePass_mut (rR : Path) (src : Option Entry) (rep : Entry) :
    ∀ ev ∈ (prunePass rR src rep).2, ∀ p, ev.mutPath = some p → rR <+: p := by
  intro ev hev p hp
  cases rep with
  | file c rd => cases hev
  | dir cs =>
    rw [prunePass] at hev
    rcases List.mem_append.mp hev with h | h
    · rcases List.mem_append.mp h with h | h
      · exact pruneFilesEv_mut rR src cs [] ev h p hp
      · exact pruneDirsEv_mut rR src cs [] ev h p hp
    · exact pruneInto_mut rR src cs [] ev h p hp

/-- C9. Source is read-only: every filesystem mutation `sync_folders` performs
(directory creations, copy destinations, file and subtree removals, including
creating the replica root itself) targets a path under the replica root; and
whenever neither root lies under the other, no mutation path lies under the
source root. The source is only ever read. -/
theorem C9_source_read_only (perm : Bool) (sR rR : Path) (src rep : Option Entry)
    (out : Entry × List Event) (hout : syncFolders perm sR rR src rep = some out) :
    ∀ ev ∈ out.2, ∀ p, ev.mutPath = some p →
      rR <+: p ∧ (¬ sR <+: rR → ¬ rR <+: sR → ¬ sR <+: p) := by
  have main : ∀ ev ∈ out.2, ∀ p, ev.mutPath = some p → rR <+: p := by
    intro ev hev p hp
    cases rep with
    | some r =>
      have : out = ((prunePass rR src (fwdPass sR rR src r).1).1,
          (fwdPass sR rR src r).2 ++ (prunePass rR src (fwdPass sR rR src r).1).2) := by
        have := hout.symm
        rwa [syncFolders, Option.some_inj] at this
      subst this
      rcases List.mem_append.mp hev with h | h
      · exact fwdPass_mut sR rR src r ev h p hp
      · exact prunePass_mut rR src _ ev h p hp
    | none =>
      cases perm with
      | false => cases hout
      | true =>
        have : out = ((prunePass rR src (fwdPass sR rR src (.dir .nil)).1).1,
            .rootCreated rR :: ((fwdPass sR rR src (.dir .nil)).2 ++
              (prunePass rR src (fwdPass sR rR src (.dir .nil)).1).2)) := by
          have := hout.symm
          rwa [syncFolders, if_pos rfl, Option.some_inj] at this
        subst this
        rcases List.mem_cons.mp hev with rfl | h
        · cases hp
          exact List.prefix_rfl
        · rcases List.mem_append.mp h with h | h
          · exact fwdPass_mut sR rR src _ ev h p hp
          · exact prunePass_mut rR src _ ev h p hp
  intro ev hev p hp
  refine ⟨main ev hev p hp, fun hsr hrs hsp => ?_⟩
  rcases List.prefix_or_prefix_of_prefix hsp (main ev hev p hp) with h | h
  · exact hsr h
  · exact hrs h

/-- Witness for C9 on a concrete run (one copy into an empty replica). -/
theorem C9_source_read_only_witness :
    syncFolders true ["s"] ["r"]
        (some (.dir (.cons "f" (.file [1] true) .nil))) (some (.dir .nil)) =
      some (.dir (.cons "f" (.file [1] true) .nil), [.copied ["s", "f"] ["r", "f"]]) ∧
    Event.copied ["s", "f"] ["r", "f"] ∈ [Event.copied ["s", "f"] ["r", "f"]] ∧
    (Event.copied ["s", "f"] ["r", "f"]).mutPath = some ["r", "f"] ∧
    (["r"] <+: ["r", "f"] ∧
      (¬ ["s"] <+: ["r"] → ¬ ["r"] <+: ["s"] → ¬ ["s"] <+: ["r", "f"])) := by
  refine ⟨by decide, by decide, by decide, ?_⟩
  exact C9_source_read_only true ["s"] ["r"]
    (some (.dir (.cons "f" (.file [1] true) .nil))) (some (.dir .nil))
    (.dir (.cons "f" (.file [1] true) .nil), [.copied ["s", "f"] ["r", "f"]])
    (by decide) (.copied ["s", "f"] ["r", "f"]) (by decide) ["r", "f"] (by decide)

/-! ## Tree predicates for the convergence development -/

/-- Whether a listing contains the given name. -/
def hasName (cs : Listing) (n : String) : Bool := (findChild cs n).isSome

/-- The named child of an optional entry (`none` when the entry is missing,
a file, or lacks the name). -/
def childOf (old : Option Entry) (n : String) : Option Entry :=
  match old with
  | some (.dir cs) => findChild cs n
  | _ => none

mutual
/-- Well-formedness of a tree: no directory listing repeats a name (real
directories cannot). -/
def wfE : Entry → Bool
  | .file _ _ => true
  | .dir cs => wfL cs
def wfL : Listing → Bool
  | .nil => true
  | .cons n e rest => !hasName rest n && wfE e && wfL rest
end

mutual
/-- No kind conflict of the silent sort: nowhere is a source directory faced
with a replica regular file at the same relative path (the configuration the
forward pass silently skips and the prune pass silently keeps). -/
def compat : Entry → Option Entry → Bool
  | .file _ _, _ => true
  | .dir cs, old =>
    match old with
    | some (.file _ _) => false
    | some (.dir rcs) => compatL cs rcs
    | none => compatL cs .nil
def compatL : Listing → Listing → Bool
  | .nil, _ => true
  | .cons n e rest, rcs => compat e (findChild rcs n) && compatL rest rcs
end

mutual
/-- The replica-side value mirrors a source entry: a (readable) source file
is faced with a readable replica file of equal digest, and a source
directory with a replica directory all of whose source-named children
recursively mirror. -/
def FwdOk : Entry → Option Entry → Prop
  | .file c rd, new =>
    rd = true ∧ ∃ c', new = some (.file c' true) ∧ md5hex c' = md5hex c
  | .dir cs, new => ∃ rcs, new = some (.dir rcs) ∧ FwdOkL cs rcs
def FwdOkL : Listing → Listing → Prop
  | .nil, _ => True
  | .cons n e rest, rcs => FwdOk e (findChild rcs n) ∧ FwdOkL rest rcs
end

/-- Digest-level agreement of the values at one path: both absent, both
directories, or both readable files with equal digests. -/
def DMatch : Option Entry → Option Entry → Prop
  | none, none => True
  | some (.dir _), some (.dir _) => True
  | some (.file c rd), some (.file c' rd') => rd = true ∧ rd' = true ∧ md5hex c' = md5hex c
  | _, _ => False

/-- Every path of the listing (placed at `rel`) exists under the source root
`S` — the configuration in which the prune pass deletes nothing. -/
def SubPaths (S : Entry) : Path → Listing → Prop
  | _, .nil => True
  | rel, .cons n e rest =>
    existsIn (some S) (rel ++ [n]) = true ∧
      (match e with
        | .dir cs' => SubPaths S (rel ++ [n]) cs'
        | .file _ _ => True) ∧
      SubPaths S rel rest

mutual
/-- All file contents stored anywhere in a tree. -/
def filesOf : Entry → List Bytes
  | .file c _ => [c]
  | .dir cs => filesOfL cs
def filesOfL : Listing → List Bytes
  | .nil => []
  | .cons _ e rest => filesOf e ++ filesOfL rest
end

/-! ## Basic lookup lemmas -/

theorem lookup_nil (e : Entry) : lookup e [] = some e := by
  cases e <;> rfl

theorem lookupOpt_nil (o : Option Entry) : lookupOpt o [] = o := by
  rcases o with _ | e
  · rfl
  · show lookup e [] = some e
    exact lookup_nil e

theorem lookup_cons_dir (cs : Listing) (n : String) (p : Path) :
    lookup (.dir cs) (n :: p) = lookupOpt (findChild cs n) p := by
  rw [lookup]
  cases h : findChild cs n with
  | none => rfl
  | some e => rfl

theorem lookup_append (e : Entry) : ∀ (p q : Path),
    lookup e (p ++ q) = lookupOpt (lookup e p) q := by
  intro p
  induction p generalizing e with
  | nil => intro q; rw [List.nil_append, lookup_nil, lookupOpt]
  | cons n p' ih =>
    intro q
    cases e with
    | file c rd =>
      show none = lookupOpt (lookup (.file c rd) (n :: p')) q
      rw [lookup]
      rfl
    | dir cs =>
      show lookup (.dir cs) (n :: (p' ++ q)) = _
      rw [lookup_cons_dir, lookup_cons_dir]
      cases h : findChild cs n with
      | none => rfl
      | some e' => exact ih e' q

theorem childOf_eq_lookupOpt (old : Option Entry) (n : String) :
    childOf old n = lookupOpt old [n] := by
  rcases old with _ | (⟨c, rd⟩ | cs)
  · rfl
  · rfl
  · show findChild cs n = lookup (.dir cs) [n]
    rw [lookup_cons_dir, lookupOpt_nil]

theorem noError_append (a b : List Event) :
    noError (a ++ b) = (noError a && noError b) :=
  List.all_append

theorem hasName_iff (cs : Listing) (n : String) :
    hasName cs n = true ↔ ∃ e, findChild cs n = some e := by
  rw [hasName, Option.isSome_iff_exists]

theorem prefix_snoc_iff (p rel : Path) (n : String) :
    p <+: rel ++ [n] ↔ p <+: rel ∨ p = rel ++ [n] := by
  constructor
  · intro h
    rcases h with ⟨t, ht⟩
    cases t using List.reverseRecOn with
    | nil => exact Or.inr (by simpa using ht)
    | append_singleton t' x ih =>
      left
      rw [← List.append_assoc] at ht
      have := List.append_inj_left' ht rfl
      exact ⟨t', this⟩
  · rintro (⟨t, ht⟩ | rfl)
    · exact ⟨t ++ [n], by rw [← List.append_assoc, ht]⟩
    · exact List.prefix_rfl

/-! ## Listing update lemmas -/

theorem findChild_pushChild_self (cs : Listing) (n : String) (v : Entry)
    (h : findChild cs n = none) : findChild (pushChild cs n v) n = some v := by
  cases cs with
  | nil => simp [pushChild, findChild]
  | cons m e rest =>
    rw [findChild] at h
    by_cases hmn : m = n
    · rw [if_pos hmn] at h; cases h
    · rw [if_neg hmn] at h
      rw [pushChild, findChild, if_neg hmn]
      exact findChild_pushChild_self rest n v h

theorem findChild_pushChild_other (cs : Listing) (n m : String) (v : Entry)
    (h : m ≠ n) : findChild (pushChild cs n v) m = findChild cs m := by
  cases cs with
  | nil =>
    show findChild (.cons n v .nil) m = none
    rw [findChild, if_neg (fun hh => h hh.symm)]
    rfl
  | cons k e rest =>
    rw [pushChild, findChild, findChild]
    by_cases hkm : k = m
    · rw [if_pos hkm, if_pos hkm]
    · rw [if_neg hkm, if_neg hkm]
      exact findChild_pushChild_other rest n m v h

theorem findChild_setChild_self (cs : Listing) (n : String) (e v : Entry)
    (h : findChild cs n = some e) : findChild (setChild cs n v) n = some v := by
  cases cs with
  | nil => cases h
  | cons m e₀ rest =>
    rw [findChild] at h
    by_cases hmn : m = n
    · rw [setChild, if_pos hmn, findChild, if_pos rfl]
    · rw [if_neg hmn] at h
      rw [setChild, if_neg hmn, findChild, if_neg hmn]
      exact findChild_setChild_self rest n e v h

theorem findChild_setChild_other (cs : Listing) (n m : String) (v : Entry)
    (h : m ≠ n) : findChild (setChild cs n v) m = findChild cs m := by
  cases cs with
  | nil => rfl
  | cons k e₀ rest =>
    rw [setChild, findChild]
    by_cases hkn : k = n
    · rw [if_pos hkn, findChild]
      subst hkn
      rw [if_neg (fun hh => h hh.symm), if_neg (fun hh => h hh.symm)]
    · rw [if_neg hkn, findChild]
      by_cases hkm : k = m
      · rw [if_pos hkm, if_pos hkm]
      · rw [if_neg hkm, if_neg hkm]
        exact findChild_setChild_other rest n m v h

/-! ## Graft specifications for the two mutating primitives -/

/-- `os.makedirs(replica ++ rel ++ [n])` when the parent directory exists and
the target is absent: it succeeds, grafts an empty directory at the target,
changes nothing outside the target and its ancestor chain, and keeps every
ancestor a directory. -/
theorem makedirsAt_spec : ∀ (rel : Path) (R : Entry) (n : String) (rcs : Listing),
    lookup R rel = some (.dir rcs) → findChild rcs n = none →
    ∃ R', makedirsAt R (rel ++ [n]) = some R' ∧
      lookup R' (rel ++ [n]) = some (.dir .nil) ∧
      (∀ p, ¬ (rel ++ [n]) <+: p → ¬ p <+: rel → lookup R' p = lookup R p) ∧
      (∀ p, p <+: rel →
        ∃ cs₁ cs₂, lookup R p = some (.dir cs₁) ∧ lookup R' p = some (.dir cs₂)) ∧
      (∀ t, t ≠ [] → lookup R' (rel ++ [n] ++ t) = none) := by
  intro rel
  induction rel with
  | nil =>
    intro R n rcs hR hfc
    rw [lookup_nil, Option.some_inj] at hR
    subst hR
    refine ⟨.dir (pushChild rcs n (.dir .nil)), ?_, ?_, ?_, ?_, ?_⟩
    · show makedirsAt (.dir rcs) [n] = _
      simp only [makedirsAt, hfc]
    · show lookup _ ([] ++ [n]) = _
      rw [List.nil_append, lookup_cons_dir, findChild_pushChild_self rcs n _ hfc, lookupOpt_nil]
    · intro p hp1 hp2
      cases p with
      | nil => exact absurd List.prefix_rfl hp2
      | cons m t =>
        have hmn : m ≠ n := by
          intro hEq
          subst hEq
          exact hp1 ⟨t, rfl⟩
        rw [lookup_cons_dir, lookup_cons_dir, findChild_pushChild_other rcs n m _ hmn]
    · intro p hp
      obtain rfl : p = [] := List.prefix_nil.mp hp
      exact ⟨rcs, pushChild rcs n (.dir .nil), by rw [lookup_nil], by rw [lookup_nil]⟩
    · intro t ht
      show lookup _ ([] ++ [n] ++ t) = none
      rw [List.nil_append]
      cases t with
      | nil => exact absurd rfl ht
      | cons a t' =>
        show lookup _ (n :: (a :: t')) = none
        rw [lookup_cons_dir, findChild_pushChild_self rcs n _ hfc]
        show lookup (.dir .nil) (a :: t') = none
        rw [lookup_cons_dir]
        rfl
  | cons m rel' ih =>
    intro R n rcs hR hfc
    cases R with
    | file c rd => rw [lookup] at hR; cases hR
    | dir cs₀ =>
      rw [lookup_cons_dir] at hR
      cases hfc₀ : findChild cs₀ m with
      | none => rw [hfc₀] at hR; cases hR
      | some e₀ =>
        rw [hfc₀] at hR
        have hR' : lookup e₀ rel' = some (.dir rcs) := hR
        obtain ⟨e₀', hmk, hlook, hframe, hanc, hdeep⟩ := ih e₀ n rcs hR' hfc
        refine ⟨.dir (setChild cs₀ m e₀'), ?_, ?_, ?_, ?_, ?_⟩
        · obtain ⟨p₁, q₁, hpq⟩ : ∃ p₁ q₁, rel' ++ [n] = p₁ :: q₁ := by
            cases rel' with
            | nil => exact ⟨n, [], rfl⟩
            | cons a b => exact ⟨a, b ++ [n], rfl⟩
          show makedirsAt (.dir cs₀) (m :: (rel' ++ [n])) = _
          rw [hpq]
          simp only [makedirsAt, hfc₀]
          rw [← hpq, hmk]
          rfl
        · show lookup _ (m :: (rel' ++ [n])) = _
          rw [lookup_cons_dir, findChild_setChild_self cs₀ m e₀ e₀' hfc₀]
          exact hlook
        · intro p hp1 hp2
          cases p with
          | nil => exact absurd List.nil_prefix hp2
          | cons k t =>
            by_cases hkm : k = m
            · subst hkm
              have h1' : ¬ (rel' ++ [n]) <+: t := fun hh =>
                hp1 (List.cons_prefix_cons.mpr ⟨rfl, hh⟩)
              have h2' : ¬ t <+: rel' := fun hh =>
                hp2 (List.cons_prefix_cons.mpr ⟨rfl, hh⟩)
              rw [lookup_cons_dir, lookup_cons_dir,
                findChild_setChild_self cs₀ k e₀ e₀' hfc₀, hfc₀]
              exact hframe t h1' h2'
            · rw [lookup_cons_dir, lookup_cons_dir,
                findChild_setChild_other cs₀ m k e₀' hkm]
        · intro p hp
          cases p with
          | nil =>
            exact ⟨cs₀, setChild cs₀ m e₀', by rw [lookup_nil], by rw [lookup_nil]⟩
          | cons k t =>
            obtain ⟨hk, ht⟩ := List.cons_prefix_cons.mp hp
            subst hk
            rw [lookup_cons_dir, lookup_cons_dir,
              findChild_setChild_self cs₀ k e₀ e₀' hfc₀, hfc₀]
            exact hanc t ht
        · intro t ht
          have hsh : (m :: rel') ++ [n] ++ t = m :: (rel' ++ [n] ++ t) := by simp
          rw [hsh, lookup_cons_dir, findChild_setChild_self cs₀ m e₀ e₀' hfc₀]
          exact hdeep t ht

/-- Writing the copied bytes at `replica ++ rel ++ [n]` when the parent
directory exists and the target is absent or a regular file: the write
succeeds, grafts the new readable file at the target, changes nothing outside
the target and its ancestor chain, and keeps every ancestor a directory. -/
theorem writeFileAt_spec : ∀ (rel : Path) (R : Entry) (n : String) (rcs : Listing)
    (c : Bytes),
    lookup R rel = some (.dir rcs) →
    (findChild rcs n = none ∨ ∃ c₀ rd₀, findChild rcs n = some (.file c₀ rd₀)) →
    ∃ R', writeFileAt R (rel ++ [n]) c = some R' ∧
      lookup R' (rel ++ [n]) = some (.file c true) ∧
      (∀ p, ¬ (rel ++ [n]) <+: p → ¬ p <+: rel → lookup R' p = lookup R p) ∧
      (∀ p, p <+: rel →
        ∃ cs₁ cs₂, lookup R p = some (.dir cs₁) ∧ lookup R' p = some (.dir cs₂)) ∧
      (∀ t, t ≠ [] → lookup R' (rel ++ [n] ++ t) = none) := by
  intro rel
  induction rel with
  | nil =>
    intro R n rcs c hR htgt
    rw [lookup_nil, Option.some_inj] at hR
    subst hR
    have hbuild : ∃ rcs', writeFileAt (.dir rcs) [n] c = some (.dir rcs') ∧
        findChild rcs' n = some (.file c true) ∧
        (∀ m, m ≠ n → findChild rcs' m = findChild rcs m) := by
      rcases htgt with hnone | ⟨c₀, rd₀, hfile⟩
      · refine ⟨pushChild rcs n (.file c true), ?_, ?_, ?_⟩
        · simp only [writeFileAt, hnone]
        · exact findChild_pushChild_self rcs n _ hnone
        · intro m hm
          exact findChild_pushChild_other rcs n m _ hm
      · refine ⟨setChild rcs n (.file c true), ?_, ?_, ?_⟩
        · simp only [writeFileAt, hfile]
        · exact findChild_setChild_self rcs n _ _ hfile
        · intro m hm
          exact findChild_setChild_other rcs n m _ hm
    obtain ⟨rcs', hw, hself, hother⟩ := hbuild
    refine ⟨.dir rcs', hw, ?_, ?_, ?_, ?_⟩
    · show lookup _ ([] ++ [n]) = _
      rw [List.nil_append, lookup_cons_dir, hself, lookupOpt_nil]
    · intro p hp1 hp2
      cases p with
      | nil => exact absurd List.prefix_rfl hp2
      | cons m t =>
        have hmn : m ≠ n := by
          intro hEq
          subst hEq
          exact hp1 ⟨t, rfl⟩
        rw [lookup_cons_dir, lookup_cons_dir, hother m hmn]
    · intro p hp
      obtain rfl : p = [] := List.prefix_nil.mp hp
      exact ⟨rcs, rcs', by rw [lookup_nil], by rw [lookup_nil]⟩
    · intro t ht
      show lookup _ ([] ++ [n] ++ t) = none
      rw [List.nil_append]
      cases t with
      | nil => exact absurd rfl ht
      | cons a t' =>
        show lookup _ (n :: (a :: t')) = none
        rw [lookup_cons_dir, hself]
        rfl
  | cons m rel' ih =>
    intro R n rcs c hR htgt
    cases R with
    | file c₁ rd => rw [lookup] at hR; cases hR
    | dir cs₀ =>
      rw [lookup_cons_dir] at hR
      cases hfc₀ : findChild cs₀ m with
      | none => rw [hfc₀] at hR; cases hR
      | some e₀ =>
        rw [hfc₀] at hR
        have hR' : lookup e₀ rel' = some (.dir rcs) := hR
        obtain ⟨e₀', hmk, hlook, hframe, hanc, hdeep⟩ := ih e₀ n rcs c hR' htgt
        refine ⟨.dir (setChild cs₀ m e₀'), ?_, ?_, ?_, ?_, ?_⟩
        · obtain ⟨p₁, q₁, hpq⟩ : ∃ p₁ q₁, rel' ++ [n] = p₁ :: q₁ := by
            cases rel' with
            | nil => exact ⟨n, [], rfl⟩
            | cons a b => exact ⟨a, b ++ [n], rfl⟩
          show writeFileAt (.dir cs₀) (m :: (rel' ++ [n])) c = _
          rw [hpq]
          simp only [writeFileAt, hfc₀]
          rw [← hpq, hmk]
          rfl
        · show lookup _ (m :: (rel' ++ [n])) = _
          rw [lookup_cons_dir, findChild_setChild_self cs₀ m e₀ e₀' hfc₀]
          exact hlook
        · intro p hp1 hp2
          cases p with
          | nil => exact absurd List.nil_prefix hp2
          | cons k t =>
            by_cases hkm : k = m
            · subst hkm
              have h1' : ¬ (rel' ++ [n]) <+: t := fun hh =>
                hp1 (List.cons_prefix_cons.mpr ⟨rfl, hh⟩)
              have h2' : ¬ t <+: rel' := fun hh =>
                hp2 (List.cons_prefix_cons.mpr ⟨rfl, hh⟩)
              rw [lookup_cons_dir, lookup_cons_dir,
                findChild_setChild_self cs₀ k e₀ e₀' hfc₀, hfc₀]
              exact hframe t h1' h2'
            · rw [lookup_cons_dir, lookup_cons_dir,
                findChild_setChild_other cs₀ m k e₀' hkm]
        · intro p hp
          cases p with
          | nil =>
            exact ⟨cs₀, setChild cs₀ m e₀', by rw [lookup_nil], by rw [lookup_nil]⟩
          | cons k t =>
            obtain ⟨hk, ht⟩ := List.cons_prefix_cons.mp hp
            subst hk
            rw [lookup_cons_dir, lookup_cons_dir,
              findChild_setChild_self cs₀ k e₀ e₀' hfc₀, hfc₀]
            exact hanc t ht
        · intro t ht
          have hsh : (m :: rel') ++ [n] ++ t = m :: (rel' ++ [n] ++ t) := by simp
          rw [hsh, lookup_cons_dir, findChild_setChild_self cs₀ m e₀ e₀' hfc₀]
          exact hdeep t ht


theorem lookup_child (R : Entry) (rel : Path) (rcs : Listing) (n : String)
    (hR : lookup R rel = some (.dir rcs)) :
    lookup R (rel ++ [n]) = findChild rcs n := by
  rw [lookup_append, hR]
  show lookup (.dir rcs) [n] = _
  rw [lookup_cons_dir, lookupOpt_nil]

theorem lookup_prefix_dir (R : Entry) (p : Path) (k : String) (t : Path) (e : Entry)
    (h : lookup R (p ++ k :: t) = some e) : ∃ cs, lookup R p = some (.dir cs) := by
  rw [lookup_append] at h
  cases hp : lookup R p with
  | none => rw [hp] at h; cases h
  | some ep =>
    rw [hp] at h
    cases ep with
    | file c rd =>
      have : lookup (.file c rd) (k :: t) = some e := h
      rw [lookup] at this
      cases this
    | dir cs => exact ⟨cs, rfl⟩

theorem ancestors_dirs (R : Entry) (rel : Path) (rcs : Listing)
    (hR : lookup R rel = some (.dir rcs)) :
    ∀ p, p <+: rel → ∃ cs₁, lookup R p = some (.dir cs₁) := by
  intro p hp
  rcases hp with ⟨t, ht⟩
  cases t with
  | nil =>
    rw [List.append_nil] at ht
    subst ht
    exact ⟨rcs, hR⟩
  | cons k t' =>
    subst ht
    exact lookup_prefix_dir R p k t' _ hR

theorem noError_mem {t : List Event} (h : noError t = true) {ev : Event} (hm : ev ∈ t) :
    ev.isError = false := by
  have := List.all_eq_true.mp h ev hm
  rwa [Bool.not_eq_true'] at this

/-! ## Per-step lemmas of the forward pass under the master invariant -/

/-- One `dirs`-loop step in a healthy context (the parent replica directory
exists and the target is not a replica file): it never logs an error, leaves
a directory at the target (the existing one or a fresh empty one), touches
nothing else, and keeps ancestors directories. -/
theorem syncOneDir_step (rR rel : Path) (n : String) (R : Entry) (rcs : Listing)
    (hR : lookup R rel = some (.dir rcs))
    (hnf : ∀ c rd, findChild rcs n ≠ some (.file c rd)) :
    noError (syncOneDir rR rel n R).2 = true ∧
    (∃ rcs₁, lookup (syncOneDir rR rel n R).1 (rel ++ [n]) = some (.dir rcs₁) ∧
      (findChild rcs n = some (.dir rcs₁) ∨ (findChild rcs n = none ∧ rcs₁ = .nil))) ∧
    (∀ p, ¬ (rel ++ [n]) <+: p → ¬ p <+: rel →
      lookup (syncOneDir rR rel n R).1 p = lookup R p) ∧
    (∀ p, p <+: rel → ∃ cs₂, lookup (syncOneDir rR rel n R).1 p = some (.dir cs₂)) := by
  have hch := lookup_child R rel rcs n hR
  cases hfc : findChild rcs n with
  | some e =>
    have hex : (lookup R (rel ++ [n])).isSome = true := by rw [hch, hfc]; rfl
    rw [syncOneDir_exists rR rel n R hex]
    cases e with
    | file c rd => exact absurd hfc (hnf c rd)
    | dir d =>
      refine ⟨rfl, ⟨d, by rw [hch, hfc], Or.inl rfl⟩, fun p _ _ => rfl, ?_⟩
      intro p hp
      obtain ⟨cs₁, h₁⟩ := ancestors_dirs R rel rcs hR p hp
      exact ⟨cs₁, h₁⟩
  | none =>
    have hex : ¬ (lookup R (rel ++ [n])).isSome = true := by rw [hch, hfc]; simp
    obtain ⟨R', hmk, hlook, hframe, hanc, _⟩ := makedirsAt_spec rel R n rcs hR hfc
    rw [syncOneDir_create rR rel n R R' hex hmk]
    refine ⟨rfl, ⟨.nil, hlook, Or.inr ⟨rfl, rfl⟩⟩, hframe, ?_⟩
    intro p hp
    obtain ⟨cs₁, cs₂, _, h₂⟩ := hanc p hp
    exact ⟨cs₂, h₂⟩

/-- One `files`-loop step in a healthy context, given that it logs no error:
the target ends up a readable replica file whose digest equals the source
digest (by copying, or because an equal-digest readable file was already
there), nothing else changes, and ancestors stay directories. -/
theorem syncOneFile_step (sR rR rel : Path) (n : String) (c : Bytes) (rd : Bool)
    (R : Entry) (rcs : Listing)
    (hR : lookup R rel = some (.dir rcs))
    (hne : noError (syncOneFile sR rR rel n c rd R).2 = true) :
    FwdOk (.file c rd) (lookup (syncOneFile sR rR rel n c rd R).1 (rel ++ [n])) ∧
    (∀ p, ¬ (rel ++ [n]) <+: p → ¬ p <+: rel →
      lookup (syncOneFile sR rR rel n c rd R).1 p = lookup R p) ∧
    (∀ p, p <+: rel → ∃ cs₂, lookup (syncOneFile sR rR rel n c rd R).1 p = some (.dir cs₂)) := by
  have hch := lookup_child R rel rcs n hR
  cases hfc : findChild rcs n with
  | none =>
    have hex : ¬ (lookup R (rel ++ [n])).isSome = true := by rw [hch, hfc]; simp
    cases rd with
    | false =>
      have hc : copy2At R (rel ++ [n]) n c false = none := by rw [copy2At]; rfl
      rw [syncOneFile_newErr sR rR rel n c false R hex hc] at hne
      exact Bool.noConfusion (noError_mem hne (List.mem_singleton.mpr rfl))
    | true =>
      obtain ⟨R', hw, hlook, hframe, hanc, _⟩ :=
        writeFileAt_spec rel R n rcs c hR (Or.inl hfc)
      have hc : copy2At R (rel ++ [n]) n c true = some R' := by
        rw [copy2At, if_pos rfl]
        rw [hch, hfc]
        exact hw
      rw [syncOneFile_new sR rR rel n c true R R' hex hc]
      refine ⟨⟨rfl, c, hlook, rfl⟩, hframe, ?_⟩
      intro p hp
      obtain ⟨cs₁, cs₂, _, h₂⟩ := hanc p hp
      exact ⟨cs₂, h₂⟩
  | some e =>
    have hex : (lookup R (rel ++ [n])).isSome = true := by rw [hch, hfc]; rfl
    cases e with
    | dir d =>
      -- the digest of a directory degrades with an error line, contradicting hne
      exfalso
      by_cases heq : (computeMd5 (sR ++ rel ++ [n]) (some (.file c rd))).1 =
          (computeMd5 (rR ++ rel ++ [n]) (lookup R (rel ++ [n]))).1
      · rw [syncOneFile_skip sR rR rel n c rd R hex heq] at hne
        have hmem : Event.errMd5 (rR ++ rel ++ [n]) ∈
            (computeMd5 (sR ++ rel ++ [n]) (some (.file c rd))).2 ++
              (computeMd5 (rR ++ rel ++ [n]) (lookup R (rel ++ [n]))).2 := by
          apply List.mem_append_right
          rw [hch, hfc]
          exact List.mem_singleton.mpr rfl
        exact Bool.noConfusion (noError_mem hne hmem)
      · cases hc : copy2At R (rel ++ [n]) n c rd with
        | some R' =>
          rw [syncOneFile_copy sR rR rel n c rd R R' hex heq hc] at hne
          have hmem : Event.errMd5 (rR ++ rel ++ [n]) ∈
              (computeMd5 (sR ++ rel ++ [n]) (some (.file c rd))).2 ++
                (computeMd5 (rR ++ rel ++ [n]) (lookup R (rel ++ [n]))).2 ++
                [.copied (sR ++ rel ++ [n]) (rR ++ rel ++ [n])] := by
            apply List.mem_append_left
            apply List.mem_append_right
            rw [hch, hfc]
            exact List.mem_singleton.mpr rfl
          exact Bool.noConfusion (noError_mem hne hmem)
        | none =>
          rw [syncOneFile_copyErr sR rR rel n c rd R hex heq hc] at hne
          have hmem : Event.errMd5 (rR ++ rel ++ [n]) ∈
              (computeMd5 (sR ++ rel ++ [n]) (some (.file c rd))).2 ++
                (computeMd5 (rR ++ rel ++ [n]) (lookup R (rel ++ [n]))).2 ++
                [.errCopy (sR ++ rel ++ [n]) (rR ++ rel ++ [n])] := by
            apply List.mem_append_left
            apply List.mem_append_right
            rw [hch, hfc]
            exact List.mem_singleton.mpr rfl
          exact Bool.noConfusion (noError_mem hne hmem)
    | file c₀ rd₀ =>
      -- source and replica files must both be readable, else an error is logged
      cases rd with
      | false =>
        exfalso
        have hs2 : (computeMd5 (sR ++ rel ++ [n]) (some (.file c false))).2 =
            [.errMd5 (sR ++ rel ++ [n])] := rfl
        by_cases heq : (computeMd5 (sR ++ rel ++ [n]) (some (.file c false))).1 =
            (computeMd5 (rR ++ rel ++ [n]) (lookup R (rel ++ [n]))).1
        · rw [syncOneFile_skip sR rR rel n c false R hex heq] at hne
          have hmem : Event.errMd5 (sR ++ rel ++ [n]) ∈
              (computeMd5 (sR ++ rel ++ [n]) (some (.file c false))).2 ++
                (computeMd5 (rR ++ rel ++ [n]) (lookup R (rel ++ [n]))).2 := by
            apply List.mem_append_left
            rw [hs2]
            exact List.mem_singleton.mpr rfl
          exact Bool.noConfusion (noError_mem hne hmem)
        · cases hc : copy2At R (rel ++ [n]) n c false with
          | some R' =>
            rw [copy2At] at hc
            cases hc
          | none =>
            rw [syncOneFile_copyErr sR rR rel n c false R hex heq hc] at hne
            have hmem : Event.errMd5 (sR ++ rel ++ [n]) ∈
                (computeMd5 (sR ++ rel ++ [n]) (some (.file c false))).2 ++
                  (computeMd5 (rR ++ rel ++ [n]) (lookup R (rel ++ [n]))).2 ++
                  [.errCopy (sR ++ rel ++ [n]) (rR ++ rel ++ [n])] := by
              apply List.mem_append_left
              apply List.mem_append_left
              rw [hs2]
              exact List.mem_singleton.mpr rfl
            exact Bool.noConfusion (noError_mem hne hmem)
      | true =>
        cases rd₀ with
        | false =>
          exfalso
          have hr2 : (computeMd5 (rR ++ rel ++ [n]) (lookup R (rel ++ [n]))).2 =
              [.errMd5 (rR ++ rel ++ [n])] := by rw [hch, hfc]; rfl
          by_cases heq : (computeMd5 (sR ++ rel ++ [n]) (some (.file c true))).1 =
              (computeMd5 (rR ++ rel ++ [n]) (lookup R (rel ++ [n]))).1
          · rw [syncOneFile_skip sR rR rel n c true R hex heq] at hne
            have hmem : Event.errMd5 (rR ++ rel ++ [n]) ∈
                (computeMd5 (sR ++ rel ++ [n]) (some (.file c true))).2 ++
                  (computeMd5 (rR ++ rel ++ [n]) (lookup R (rel ++ [n]))).2 := by
              apply List.mem_append_right
              rw [hr2]
              exact List.mem_singleton.mpr rfl
            exact Bool.noConfusion (noError_mem hne hmem)
          · cases hc : copy2At R (rel ++ [n]) n c true with
            | some R' =>
              rw [syncOneFile_copy sR rR rel n c true R R' hex heq hc] at hne
              have hmem : Event.errMd5 (rR ++ rel ++ [n]) ∈
                  (computeMd5 (sR ++ rel ++ [n]) (some (.file c true))).2 ++
                    (computeMd5 (rR ++ rel ++ [n]) (lookup R (rel ++ [n]))).2 ++
                    [.copied (sR ++ rel ++ [n]) (rR ++ rel ++ [n])] := by
                apply List.mem_append_left
                apply List.mem_append_right
                rw [hr2]
                exact List.mem_singleton.mpr rfl
              exact Bool.noConfusion (noError_mem hne hmem)
            | none =>
              rw [syncOneFile_copyErr sR rR rel n c true R hex heq hc] at hne
              have hmem : Event.errMd5 (rR ++ rel ++ [n]) ∈
                  (computeMd5 (sR ++ rel ++ [n]) (some (.file c true))).2 ++
                    (computeMd5 (rR ++ rel ++ [n]) (lookup R (rel ++ [n]))).2 ++
                    [.errCopy (sR ++ rel ++ [n]) (rR ++ rel ++ [n])] := by
                apply List.mem_append_left
                apply List.mem_append_right
                rw [hr2]
                exact List.mem_singleton.mpr rfl
              exact Bool.noConfusion (noError_mem hne hmem)
        | true =>
          by_cases heq : (computeMd5 (sR ++ rel ++ [n]) (some (.file c true))).1 =
              (computeMd5 (rR ++ rel ++ [n]) (lookup R (rel ++ [n]))).1
          · -- digests match: skip, the existing readable file already mirrors
            rw [syncOneFile_skip sR rR rel n c true R hex heq]
            have hdig : md5hex c₀ = md5hex c := by
              have h1 : (computeMd5 (sR ++ rel ++ [n]) (some (.file c true))).1 =
                  hashFile c := rfl
              have h2 : (computeMd5 (rR ++ rel ++ [n]) (lookup R (rel ++ [n]))).1 =
                  hashFile c₀ := by rw [hch, hfc]; rfl
              rw [h1, h2, hashFile_eq, hashFile_eq] at heq
              exact heq.symm
            refine ⟨⟨rfl, c₀, by rw [hch, hfc], hdig⟩, fun p _ _ => rfl, ?_⟩
            intro p hp
            obtain ⟨cs₁, h₁⟩ := ancestors_dirs R rel rcs hR p hp
            exact ⟨cs₁, h₁⟩
          · -- digests differ: overwrite with the source content
            obtain ⟨R', hw, hlook, hframe, hanc, _⟩ :=
              writeFileAt_spec rel R n rcs c hR (Or.inr ⟨c₀, true, hfc⟩)
            have hc : copy2At R (rel ++ [n]) n c true = some R' := by
              rw [copy2At, if_pos rfl]
              rw [hch, hfc]
              exact hw
            rw [syncOneFile_copy sR rR rel n c true R R' hex heq hc]
            refine ⟨⟨rfl, c, hlook, rfl⟩, hframe, ?_⟩
            intro p hp
            obtain ⟨cs₁, cs₂, _, h₂⟩ := hanc p hp
            exact ⟨cs₂, h₂⟩

/-! ## Level lemmas of the forward pass -/

theorem snoc_prefix_ext (rel : Path) (m n : String) (t : Path)
    (h : rel ++ [m] <+: rel ++ [n] ++ t) : m = n := by
  rw [List.append_assoc] at h
  have h2 : [m] <+: [n] ++ t := (List.prefix_append_right_inj rel).mp h
  rcases h2 with ⟨u, hu⟩
  have h3 : m :: u = n :: t := hu
  simpa using congrArg List.head? h3

theorem snoc_prefix_snoc (rel : Path) (m n : String)
    (h : rel ++ [m] <+: rel ++ [n]) : m = n := by
  have h2 : [m] <+: [n] := (List.prefix_append_right_inj rel).mp h
  rcases h2 with ⟨u, hu⟩
  have h3 : m :: u = [n] := hu
  simpa using congrArg List.head? h3

theorem not_snoc_prefix_rel (rel : Path) (n : String) (h : rel ++ [n] <+: rel) : False := by
  have := h.length_le
  simp at this

/-- The per-directory-child hypotheses of the `dirs` loop, read against the
current replica state. -/
def DirHyps (R : Entry) (rel : Path) : Listing → Prop
  | .nil => True
  | .cons n e rest =>
    (∀ cs₀, e = .dir cs₀ → compat (.dir cs₀) (lookup R (rel ++ [n])) = true) ∧
      DirHyps R rel rest

theorem DirHyps_of_compatL (R : Entry) (rel : Path) :
    ∀ (cs rcs : Listing), lookup R rel = some (.dir rcs) → compatL cs rcs = true →
      DirHyps R rel cs := by
  intro cs
  cases cs with
  | nil => intro rcs _ _; trivial
  | cons n e rest =>
    intro rcs hR hc
    rw [compatL, Bool.and_eq_true] at hc
    refine ⟨?_, DirHyps_of_compatL R rel rest rcs hR hc.2⟩
    intro cs₀ he
    subst he
    rw [lookup_child R rel rcs n hR]
    exact hc.1

/-- `DirHyps` only reads the replica at the listed names; any state change
that leaves those lookups intact preserves it. -/
theorem DirHyps_preserve (R R' : Entry) (rel : Path) :
    ∀ cs : Listing,
      (∀ m, hasName cs m = true → lookup R' (rel ++ [m]) = lookup R (rel ++ [m])) →
      DirHyps R rel cs → DirHyps R' rel cs := by
  intro cs
  cases cs with
  | nil => intro _ _; trivial
  | cons n e rest =>
    intro hkeep hdh
    obtain ⟨h1, hrest⟩ := hdh
    constructor
    · intro cs₀ he
      have hn : hasName (.cons n e rest) n = true := by
        rw [hasName, findChild, if_pos rfl]
        rfl
      rw [hkeep n hn]
      exact h1 cs₀ he
    · refine DirHyps_preserve R R' rel rest ?_ hrest
      intro m hm
      refine hkeep m ?_
      rw [hasName, findChild]
      by_cases hnm : n = m
      · rw [if_pos hnm]
        rfl
      · rw [if_neg hnm]
        exact hm

/-- The whole `dirs` loop over one walked source directory: no errors, every
source subdirectory name ends up an existing replica directory compatible
with its source listing, nothing outside those targets changes, and the
walked directory itself stays a directory. -/
theorem dirsLevel_spec (rR rel : Path) :
    ∀ (cs : Listing) (R : Entry) (rcs : Listing),
      wfL cs = true → lookup R rel = some (.dir rcs) → DirHyps R rel cs →
      noError (dirsLevel rR rel cs R).2 = true ∧
      (∀ n cs₀, findChild cs n = some (.dir cs₀) →
        ∃ rcs₁, lookup (dirsLevel rR rel cs R).1 (rel ++ [n]) = some (.dir rcs₁) ∧
          compatL cs₀ rcs₁ = true) ∧
      (∀ p, (∀ n cs₀, findChild cs n = some (.dir cs₀) → ¬ (rel ++ [n]) <+: p) →
        ¬ p <+: rel → lookup (dirsLevel rR rel cs R).1 p = lookup R p) ∧
      (∀ p, p <+: rel → ∃ rcs₂, lookup (dirsLevel rR rel cs R).1 p = some (.dir rcs₂)) := by
  intro cs
  cases cs with
  | nil =>
    intro R rcs hwf hR _
    refine ⟨rfl, ?_, fun p _ _ => rfl, fun p hp => ancestors_dirs R rel rcs hR p hp⟩
    intro n cs₀ h
    simp [findChild] at h
  | cons n e rest =>
    intro R rcs hwf hR hdh
    rw [wfL, Bool.and_eq_true, Bool.and_eq_true] at hwf
    obtain ⟨⟨hnodup, hwfe⟩, hwfrest⟩ := hwf
    rw [Bool.not_eq_true'] at hnodup
    obtain ⟨hdh1, hdhrest⟩ := hdh
    have hname_ne : ∀ m, hasName rest m = true → m ≠ n := by
      intro m hm hEq
      subst hEq
      rw [hnodup] at hm
      cases hm
    cases e with
    | file c rd =>
      show noError (dirsLevel rR rel rest R).2 = true ∧ _
      obtain ⟨hne, hdirs, hframe, hrel⟩ := dirsLevel_spec rR rel rest R rcs hwfrest hR hdhrest
      refine ⟨hne, ?_, ?_, hrel⟩
      · intro m cs₀ hm
        rw [findChild] at hm
        by_cases hnm : n = m
        · rw [if_pos hnm] at hm; cases hm
        · rw [if_neg hnm] at hm
          exact hdirs m cs₀ hm
      · intro p hp1 hp2
        refine hframe p ?_ hp2
        intro m cs₀ hm
        refine hp1 m cs₀ ?_
        rw [findChild]
        by_cases hnm : n = m
        · subst hnm
          rw [hasName, hm] at hnodup
          cases hnodup
        · rw [if_neg hnm]
          exact hm
    | dir cs₀ =>
      have hcompat : compat (.dir cs₀) (lookup R (rel ++ [n])) = true := hdh1 cs₀ rfl
      have hnf : ∀ c' rd', findChild rcs n ≠ some (.file c' rd') := by
        intro c' rd' hcontra
        rw [lookup_child R rel rcs n hR, hcontra] at hcompat
        rw [compat] at hcompat
        cases hcompat
      obtain ⟨hne1, ⟨rcs₁, hlook1, hkind⟩, hframe1, hanc1⟩ :=
        syncOneDir_step rR rel n R rcs hR hnf
      obtain ⟨rcs', hR'⟩ := hanc1 rel List.prefix_rfl
      have hcomp₀ : compatL cs₀ rcs₁ = true := by
        rcases hkind with hk | ⟨hk, hnil⟩
        · rw [lookup_child R rel rcs n hR, hk] at hcompat
          rwa [compat] at hcompat
        · subst hnil
          rw [lookup_child R rel rcs n hR, hk] at hcompat
          rw [compat] at hcompat
          exact hcompat
      have hkeep : ∀ m, hasName rest m = true →
          lookup (syncOneDir rR rel n R).1 (rel ++ [m]) = lookup R (rel ++ [m]) := by
        intro m hm
        refine hframe1 (rel ++ [m]) ?_ ?_
        · intro hpre
          exact hname_ne m hm (snoc_prefix_snoc rel n m hpre).symm
        · intro hpre
          exact not_snoc_prefix_rel rel m hpre
      have hdh' : DirHyps (syncOneDir rR rel n R).1 rel rest :=
        DirHyps_preserve R _ rel rest hkeep hdhrest
      obtain ⟨hne2, hdirs2, hframe2, hrel2⟩ :=
        dirsLevel_spec rR rel rest (syncOneDir rR rel n R).1 rcs' hwfrest hR' hdh'
      have hshow : dirsLevel rR rel (.cons n (.dir cs₀) rest) R =
          ((dirsLevel rR rel rest (syncOneDir rR rel n R).1).1,
            (syncOneDir rR rel n R).2 ++
              (dirsLevel rR rel rest (syncOneDir rR rel n R).1).2) := rfl
      rw [hshow]
      refine ⟨?_, ?_, ?_, hrel2⟩
      · rw [noError_append, hne1, hne2]
        rfl
      · intro m cs₁ hm
        rw [findChild] at hm
        by_cases hnm : n = m
        · rw [if_pos hnm] at hm
          subst hnm
          injection hm with hm'
          have hcs : cs₁ = cs₀ := by injection hm'.symm
          subst hcs
          have hpres : lookup (dirsLevel rR rel rest (syncOneDir rR rel n R).1).1
              (rel ++ [n]) = lookup (syncOneDir rR rel n R).1 (rel ++ [n]) := by
            refine hframe2 (rel ++ [n]) ?_ ?_
            · intro k csk hk hpre
              have hkn : n = k := snoc_prefix_snoc rel k n hpre |>.symm
              subst hkn
              rw [hasName, hk] at hnodup
              cases hnodup
            · intro hpre
              exact not_snoc_prefix_rel rel n hpre
          exact ⟨rcs₁, by rw [hpres]; exact hlook1, hcomp₀⟩
        · rw [if_neg hnm] at hm
          exact hdirs2 m cs₁ hm
      · intro p hp1 hp2
        have hstep1 : lookup (dirsLevel rR rel rest (syncOneDir rR rel n R).1).1 p =
            lookup (syncOneDir rR rel n R).1 p := by
          refine hframe2 p ?_ hp2
          intro m csm hm
          refine hp1 m csm ?_
          rw [findChild]
          by_cases hnm : n = m
          · subst hnm
            rw [hasName, hm] at hnodup
            cases hnodup
          · rw [if_neg hnm]
            exact hm
        rw [hstep1]
        refine hframe1 p ?_ hp2
        refine hp1 n cs₀ ?_
        rw [findChild, if_pos rfl]

/-- The whole `files` loop over one walked source directory, given that it
logs no error: every source file name ends up a readable replica file of
matching digest, nothing outside those targets changes, and the walked
directory stays a directory. -/
theorem filesLevel_spec (sR rR rel : Path) :
    ∀ (cs : Listing) (R : Entry) (rcs : Listing),
      wfL cs = true → lookup R rel = some (.dir rcs) →
      noError (filesLevel sR rR rel cs R).2 = true →
      (∀ n c rd, findChild cs n = some (.file c rd) →
        FwdOk (.file c rd) (lookup (filesLevel sR rR rel cs R).1 (rel ++ [n]))) ∧
      (∀ p, (∀ n c rd, findChild cs n = some (.file c rd) → ¬ (rel ++ [n]) <+: p) →
        ¬ p <+: rel → lookup (filesLevel sR rR rel cs R).1 p = lookup R p) ∧
      (∀ p, p <+: rel → ∃ rcs₂, lookup (filesLevel sR rR rel cs R).1 p = some (.dir rcs₂)) := by
  intro cs
  cases cs with
  | nil =>
    intro R rcs hwf hR _
    refine ⟨?_, fun p _ _ => rfl, fun p hp => ancestors_dirs R rel rcs hR p hp⟩
    intro n c rd h
    simp [findChild] at h
  | cons n e rest =>
    intro R rcs hwf hR hne
    rw [wfL, Bool.and_eq_true, Bool.and_eq_true] at hwf
    obtain ⟨⟨hnodup, hwfe⟩, hwfrest⟩ := hwf
    rw [Bool.not_eq_true'] at hnodup
    cases e with
    | dir cs₀ =>
      have hne' : noError (filesLevel sR rR rel rest R).2 = true := hne
      obtain ⟨hfiles, hframe, hrel⟩ :=
        filesLevel_spec sR rR rel rest R rcs hwfrest hR hne'
      refine ⟨?_, ?_, hrel⟩
      · intro m c rd hm
        rw [findChild] at hm
        by_cases hnm : n = m
        · rw [if_pos hnm] at hm; cases hm
        · rw [if_neg hnm] at hm
          exact hfiles m c rd hm
      · intro p hp1 hp2
        refine hframe p ?_ hp2
        intro m c rd hm
        refine hp1 m c rd ?_
        rw [findChild]
        by_cases hnm : n = m
        · subst hnm
          rw [hasName, hm] at hnodup
          cases hnodup
        · rw [if_neg hnm]
          exact hm
    | file c rd =>
      have hshow : filesLevel sR rR rel (.cons n (.file c rd) rest) R =
          ((filesLevel sR rR rel rest (syncOneFile sR rR rel n c rd R).1).1,
            (syncOneFile sR rR rel n c rd R).2 ++
              (filesLevel sR rR rel rest (syncOneFile sR rR rel n c rd R).1).2) := rfl
      rw [hshow] at hne ⊢
      rw [noError_append, Bool.and_eq_true] at hne
      obtain ⟨hne1, hne2⟩ := hne
      obtain ⟨hok1, hframe1, hanc1⟩ := syncOneFile_step sR rR rel n c rd R rcs hR hne1
      obtain ⟨rcs', hR'⟩ := hanc1 rel List.prefix_rfl
      obtain ⟨hfiles2, hframe2, hrel2⟩ :=
        filesLevel_spec sR rR rel rest (syncOneFile sR rR rel n c rd R).1 rcs'
          hwfrest hR' hne2
      refine ⟨?_, ?_, hrel2⟩
      · intro m c₁ rd₁ hm
        rw [findChild] at hm
        by_cases hnm : n = m
        · rw [if_pos hnm] at hm
          subst hnm
          injection hm with hm'
          have hc : c₁ = c ∧ rd₁ = rd := by
            constructor <;> injection hm'.symm
          rw [hc.1, hc.2]
          have hpres : lookup (filesLevel sR rR rel rest
              (syncOneFile sR rR rel n c rd R).1).1 (rel ++ [n]) =
              lookup (syncOneFile sR rR rel n c rd R).1 (rel ++ [n]) := by
            refine hframe2 (rel ++ [n]) ?_ ?_
            · intro k ck rdk hk hpre
              have hkn : n = k := (snoc_prefix_snoc rel k n hpre).symm
              subst hkn
              rw [hasName, hk] at hnodup
              cases hnodup
            · intro hpre
              exact not_snoc_prefix_rel rel n hpre
          rw [hpres]
          exact hok1
        · rw [if_neg hnm] at hm
          exact hfiles2 m c₁ rd₁ hm
      · intro p hp1 hp2
        have hstep1 : lookup (filesLevel sR rR rel rest
            (syncOneFile sR rR rel n c rd R).1).1 p =
            lookup (syncOneFile sR rR rel n c rd R).1 p := by
          refine hframe2 p ?_ hp2
          intro m cm rdm hm
          refine hp1 m cm rdm ?_
          rw [findChild]
          by_cases hnm : n = m
          · subst hnm
            rw [hasName, hm] at hnodup
            cases hnodup
          · rw [if_neg hnm]
            exact hm
        rw [hstep1]
        refine hframe1 p ?_ hp2
        refine hp1 n c rd ?_
        rw [findChild, if_pos rfl]

/-! ## The forward-pass master theorem -/

theorem findChild_cons_of_rest (n : String) (e : Entry) (rest : Listing)
    (hnodup : hasName rest n = false) :
    ∀ m (x : Entry), findChild rest m = some x → findChild (.cons n e rest) m = some x := by
  intro m x hm
  rw [findChild]
  by_cases hnm : n = m
  · subst hnm
    rw [hasName, hm] at hnodup
    cases hnodup
  · rw [if_neg hnm]
    exact hm

theorem not_prefix_of_longer (p q : Path) (h : q.length < p.length) : ¬ p <+: q :=
  fun hp => absurd hp.length_le (by omega)

theorem FwdOkL_of_forall : ∀ (cs rcs : Listing), wfL cs = true →
    (∀ m e, findChild cs m = some e → FwdOk e (findChild rcs m)) →
    FwdOkL cs rcs := by
  intro cs
  cases cs with
  | nil => intro rcs _ _; trivial
  | cons n e rest =>
    intro rcs hwf hall
    rw [wfL, Bool.and_eq_true, Bool.and_eq_true] at hwf
    obtain ⟨⟨hnodup, _⟩, hwfrest⟩ := hwf
    rw [Bool.not_eq_true'] at hnodup
    show FwdOk e (findChild rcs n) ∧ FwdOkL rest rcs
    constructor
    · exact hall n e (by rw [findChild, if_pos rfl])
    · exact FwdOkL_of_forall rest rcs hwfrest fun m e' hm =>
        hall m e' (findChild_cons_of_rest n e rest hnodup m e' hm)

/-- The master theorem of the forward descent: under distinct source names,
existing compatible replica directories for every source subdirectory, a
directory chain above, and an error-free trace, the descent leaves every
source subdirectory mirrored (`FwdOk`), touches nothing outside those
subtrees and the ancestor chain, and keeps ancestors directories. -/
theorem fwdInto_master (sR rR : Path) :
    ∀ (cs : Listing) (rel : Path) (R : Entry),
      wfL cs = true →
      (∀ n cs₀, findChild cs n = some (.dir cs₀) →
        ∃ rcs₀, lookup R (rel ++ [n]) = some (.dir rcs₀) ∧ compatL cs₀ rcs₀ = true) →
      (∀ p, p <+: rel → ∃ csA, lookup R p = some (.dir csA)) →
      noError (fwdInto sR rR rel cs R).2 = true →
      (∀ p, (∀ n cs₀, findChild cs n = some (.dir cs₀) → ¬ (rel ++ [n]) <+: p) →
        ¬ p <+: rel → lookup (fwdInto sR rR rel cs R).1 p = lookup R p) ∧
      (∀ n cs₀, findChild cs n = some (.dir cs₀) →
        FwdOk (.dir cs₀) (lookup (fwdInto sR rR rel cs R).1 (rel ++ [n]))) ∧
      (∀ p, p <+: rel → ∃ csB, lookup (fwdInto sR rR rel cs R).1 p = some (.dir csB)) := by
  intro cs
  cases cs with
  | nil =>
    intro rel R hwf hdirs hanc hne
    refine ⟨fun p _ _ => rfl, ?_, hanc⟩
    intro n cs₀ h
    simp [findChild] at h
  | cons n e rest =>
    intro rel R hwf hdirs hanc hne
    rw [wfL, Bool.and_eq_true, Bool.and_eq_true] at hwf
    obtain ⟨⟨hnodup, hwfe⟩, hwfrest⟩ := hwf
    rw [Bool.not_eq_true'] at hnodup
    cases e with
    | file c rd =>
      have hshow : fwdInto sR rR rel (.cons n (.file c rd) rest) R =
          fwdInto sR rR rel rest R := rfl
      rw [hshow] at hne ⊢
      have hdirs' : ∀ m cs₀, findChild rest m = some (.dir cs₀) →
          ∃ rcs₀, lookup R (rel ++ [m]) = some (.dir rcs₀) ∧ compatL cs₀ rcs₀ = true :=
        fun m cs₀ hm => hdirs m cs₀ (findChild_cons_of_rest n _ rest hnodup m _ hm)
      obtain ⟨hf, hok, ha⟩ := fwdInto_master sR rR rest rel R hwfrest hdirs' hanc hne
      refine ⟨?_, ?_, ha⟩
      · intro p hp1 hp2
        exact hf p (fun m cs₀ hm =>
          hp1 m cs₀ (findChild_cons_of_rest n _ rest hnodup m _ hm)) hp2
      · intro m cs₀ hm
        rw [findChild] at hm
        by_cases hnm : n = m
        · rw [if_pos hnm] at hm; cases hm
        · rw [if_neg hnm] at hm
          exact hok m cs₀ hm
    | dir cs₀ =>
      have hfc_head : findChild (.cons n (.dir cs₀) rest) n = some (.dir cs₀) := by
        rw [findChild, if_pos rfl]
      obtain ⟨rcs₀, hlk₀, hcompat₀⟩ := hdirs n cs₀ hfc_head
      have hwfcs₀ : wfL cs₀ = true := hwfe
      have hshow1 : (fwdInto sR rR rel (.cons n (.dir cs₀) rest) R).1 =
          (fwdInto sR rR rel rest
            (fwdInto sR rR (rel ++ [n]) cs₀ (levelOps sR rR (rel ++ [n]) cs₀ R).1).1).1 := rfl
      have hshow2 : (fwdInto sR rR rel (.cons n (.dir cs₀) rest) R).2 =
          (levelOps sR rR (rel ++ [n]) cs₀ R).2 ++
            (fwdInto sR rR (rel ++ [n]) cs₀ (levelOps sR rR (rel ++ [n]) cs₀ R).1).2 ++
            (fwdInto sR rR rel rest
              (fwdInto sR rR (rel ++ [n]) cs₀
                (levelOps sR rR (rel ++ [n]) cs₀ R).1).1).2 := rfl
      rw [hshow2] at hne
      rw [noError_append, Bool.and_eq_true, noError_append, Bool.and_eq_true] at hne
      obtain ⟨⟨hneL, hneD⟩, hneS⟩ := hne
      have hL2 : (levelOps sR rR (rel ++ [n]) cs₀ R).2 =
          (dirsLevel rR (rel ++ [n]) cs₀ R).2 ++
            (filesLevel sR rR (rel ++ [n]) cs₀ (dirsLevel rR (rel ++ [n]) cs₀ R).1).2 := rfl
      rw [hL2, noError_append, Bool.and_eq_true] at hneL
      obtain ⟨hneDirs, hneFiles⟩ := hneL
      have hL1 : (levelOps sR rR (rel ++ [n]) cs₀ R).1 =
          (filesLevel sR rR (rel ++ [n]) cs₀ (dirsLevel rR (rel ++ [n]) cs₀ R).1).1 := rfl
      -- run the directory-creation loop of the child level
      have hDH := DirHyps_of_compatL R (rel ++ [n]) cs₀ rcs₀ hlk₀ hcompat₀
      obtain ⟨-, hdirs1, hframe1, hanc1⟩ :=
        dirsLevel_spec rR (rel ++ [n]) cs₀ R rcs₀ hwfcs₀ hlk₀ hDH
      obtain ⟨rcs₁, hR₁rel⟩ := hanc1 (rel ++ [n]) List.prefix_rfl
      -- run the file loop of the child level
      obtain ⟨hfiles2, hframe2, hanc2⟩ :=
        filesLevel_spec sR rR (rel ++ [n]) cs₀ (dirsLevel rR (rel ++ [n]) cs₀ R).1 rcs₁
          hwfcs₀ hR₁rel hneFiles
      -- descend into the child
      have hdirsD : ∀ m d₀, findChild cs₀ m = some (.dir d₀) →
          ∃ r', lookup (levelOps sR rR (rel ++ [n]) cs₀ R).1 ((rel ++ [n]) ++ [m]) =
            some (.dir r') ∧ compatL d₀ r' = true := by
        intro m d₀ hm
        obtain ⟨r', hlk, hcomp⟩ := hdirs1 m d₀ hm
        have hkeep : lookup (filesLevel sR rR (rel ++ [n]) cs₀
            (dirsLevel rR (rel ++ [n]) cs₀ R).1).1 ((rel ++ [n]) ++ [m]) =
            lookup (dirsLevel rR (rel ++ [n]) cs₀ R).1 ((rel ++ [n]) ++ [m]) := by
          refine hframe2 _ ?_ ?_
          · intro k ck rdk hk hpre
            have hkm : k = m := snoc_prefix_snoc _ k m hpre
            subst hkm
            rw [hk] at hm
            cases hm
          · exact not_snoc_prefix_rel _ m
        rw [hL1, hkeep]
        exact ⟨r', hlk, hcomp⟩
      obtain ⟨hframeD, hokD, hancD⟩ :=
        fwdInto_master sR rR cs₀ (rel ++ [n]) (levelOps sR rR (rel ++ [n]) cs₀ R).1
          hwfcs₀ hdirsD (by rw [hL1]; exact hanc2) hneD
      -- the fully processed child directory
      obtain ⟨rcsF, hDrel⟩ := hancD (rel ++ [n]) List.prefix_rfl
      have hOkHead : FwdOk (.dir cs₀)
          (lookup (fwdInto sR rR (rel ++ [n]) cs₀
            (levelOps sR rR (rel ++ [n]) cs₀ R).1).1 (rel ++ [n])) := by
        rw [hDrel]
        refine ⟨rcsF, rfl, ?_⟩
        refine FwdOkL_of_forall cs₀ rcsF hwfcs₀ ?_
        intro m x hm
        have hChild : findChild rcsF m =
            lookup (fwdInto sR rR (rel ++ [n]) cs₀
              (levelOps sR rR (rel ++ [n]) cs₀ R).1).1 ((rel ++ [n]) ++ [m]) :=
          (lookup_child _ _ rcsF m hDrel).symm
        rw [hChild]
        cases x with
        | file cx rdx =>
          have hkeepD : lookup (fwdInto sR rR (rel ++ [n]) cs₀
              (levelOps sR rR (rel ++ [n]) cs₀ R).1).1 ((rel ++ [n]) ++ [m]) =
              lookup (levelOps sR rR (rel ++ [n]) cs₀ R).1 ((rel ++ [n]) ++ [m]) := by
            refine hframeD _ ?_ ?_
            · intro k dk hk hpre
              have hkm : k = m := snoc_prefix_snoc _ k m hpre
              subst hkm
              rw [hk] at hm
              cases hm
            · exact not_snoc_prefix_rel _ m
          rw [hkeepD, hL1]
          exact hfiles2 m cx rdx hm
        | dir dx => exact hokD m dx hm
      -- process the remaining siblings
      have hrelpref : rel <+: rel ++ [n] := ⟨[n], rfl⟩
      have hdirsS : ∀ m d₀, findChild rest m = some (.dir d₀) →
          ∃ r', lookup (fwdInto sR rR (rel ++ [n]) cs₀
            (levelOps sR rR (rel ++ [n]) cs₀ R).1).1 (rel ++ [m]) = some (.dir r') ∧
            compatL d₀ r' = true := by
        intro m d₀ hm
        have hmn : ¬ n = m := by
          intro hEq
          subst hEq
          rw [hasName, hm] at hnodup
          cases hnodup
        obtain ⟨r', hlk, hcomp⟩ := hdirs m d₀ (findChild_cons_of_rest n _ rest hnodup m _ hm)
        have hlen : ∀ k : String, ¬ ((rel ++ [n]) ++ [k]) <+: rel ++ [m] := by
          intro k
          refine not_prefix_of_longer _ _ ?_
          simp
        have hnm' : ¬ (rel ++ [m]) <+: rel ++ [n] := by
          intro hpre
          exact hmn (snoc_prefix_snoc rel m n hpre).symm
        have hkeep1 : lookup (dirsLevel rR (rel ++ [n]) cs₀ R).1 (rel ++ [m]) =
            lookup R (rel ++ [m]) :=
          hframe1 _ (fun k dk _ => hlen k) hnm'
        have hkeep2 : lookup (filesLevel sR rR (rel ++ [n]) cs₀
            (dirsLevel rR (rel ++ [n]) cs₀ R).1).1 (rel ++ [m]) =
            lookup (dirsLevel rR (rel ++ [n]) cs₀ R).1 (rel ++ [m]) :=
          hframe2 _ (fun k ck rdk _ => hlen k) hnm'
        have hkeepD : lookup (fwdInto sR rR (rel ++ [n]) cs₀
            (levelOps sR rR (rel ++ [n]) cs₀ R).1).1 (rel ++ [m]) =
            lookup (levelOps sR rR (rel ++ [n]) cs₀ R).1 (rel ++ [m]) :=
          hframeD _ (fun k dk _ => hlen k) hnm'
        rw [hkeepD, hL1, hkeep2, hkeep1]
        exact ⟨r', hlk, hcomp⟩
      have hancS : ∀ p, p <+: rel → ∃ csA,
          lookup (fwdInto sR rR (rel ++ [n]) cs₀
            (levelOps sR rR (rel ++ [n]) cs₀ R).1).1 p = some (.dir csA) :=
        fun p hp => hancD p (hp.trans hrelpref)
      obtain ⟨hframeS, hokS, hancS'⟩ :=
        fwdInto_master sR rR rest rel
          (fwdInto sR rR (rel ++ [n]) cs₀ (levelOps sR rR (rel ++ [n]) cs₀ R).1).1
          hwfrest hdirsS hancS hneS
      rw [hshow1] at *
      refine ⟨?_, ?_, hancS'⟩
      · -- frame
        intro p hp1 hp2
        have hnp : ¬ (rel ++ [n]) <+: p := hp1 n cs₀ hfc_head
        have hstepS : lookup (fwdInto sR rR rel rest
            (fwdInto sR rR (rel ++ [n]) cs₀ (levelOps sR rR (rel ++ [n]) cs₀ R).1).1).1 p =
            lookup (fwdInto sR rR (rel ++ [n]) cs₀
              (levelOps sR rR (rel ++ [n]) cs₀ R).1).1 p :=
          hframeS p (fun m dm hm =>
            hp1 m dm (findChild_cons_of_rest n _ rest hnodup m _ hm)) hp2
        have hzoneD : ∀ k (dk : Listing), findChild cs₀ k = some (.dir dk) →
            ¬ ((rel ++ [n]) ++ [k]) <+: p := by
          intro k dk _ hpre
          exact hnp ((List.prefix_append (rel ++ [n]) [k]).trans hpre)
        have hnrel' : ¬ p <+: rel ++ [n] := by
          intro hpre
          rcases (prefix_snoc_iff p rel n).mp hpre with h | h
          · exact hp2 h
          · subst h
            exact hnp List.prefix_rfl
        have hstepD : lookup (fwdInto sR rR (rel ++ [n]) cs₀
            (levelOps sR rR (rel ++ [n]) cs₀ R).1).1 p =
            lookup (levelOps sR rR (rel ++ [n]) cs₀ R).1 p :=
          hframeD p hzoneD hnrel'
        have hstep2 : lookup (filesLevel sR rR (rel ++ [n]) cs₀
            (dirsLevel rR (rel ++ [n]) cs₀ R).1).1 p =
            lookup (dirsLevel rR (rel ++ [n]) cs₀ R).1 p :=
          hframe2 p (fun k ck rdk _ hpre =>
            hnp ((List.prefix_append (rel ++ [n]) [k]).trans hpre)) hnrel'
        have hstep1 : lookup (dirsLevel rR (rel ++ [n]) cs₀ R).1 p = lookup R p :=
          hframe1 p (fun k dk _ hpre =>
            hnp ((List.prefix_append (rel ++ [n]) [k]).trans hpre)) hnrel'
        rw [hstepS, hstepD, hL1, hstep2, hstep1]
      · -- every source subdirectory is mirrored
        intro m dm hm
        rw [findChild] at hm
        by_cases hnm : n = m
        · rw [if_pos hnm] at hm
          subst hnm
          injection hm with hm'
          have hcs : dm = cs₀ := by injection hm'.symm
          rw [hcs]
          have hkeepS : lookup (fwdInto sR rR rel rest
              (fwdInto sR rR (rel ++ [n]) cs₀
                (levelOps sR rR (rel ++ [n]) cs₀ R).1).1).1 (rel ++ [n]) =
              lookup (fwdInto sR rR (rel ++ [n]) cs₀
                (levelOps sR rR (rel ++ [n]) cs₀ R).1).1 (rel ++ [n]) := by
            refine hframeS _ ?_ ?_
            · intro k dk hk hpre
              have hkn : k = n := snoc_prefix_snoc rel k n hpre
              subst hkn
              rw [hasName, hk] at hnodup
              cases hnodup
            · exact not_snoc_prefix_rel rel n
          rw [hkeepS]
          exact hOkHead
        · rw [if_neg hnm] at hm
          exact hokS m dm hm

/-- The forward pass on a source directory tree: with distinct source names,
no silent kind conflict, and an error-free trace, the resulting replica root
is a directory whose listing mirrors every source child. -/
theorem fwdPass_master (sR rR : Path) (scs : Listing) (rep : Entry)
    (hwf : wfL scs = true) (hcompat : compat (.dir scs) (some rep) = true)
    (hne : noError (fwdPass sR rR (some (.dir scs)) rep).2 = true) :
    ∃ rcs', (fwdPass sR rR (some (.dir scs)) rep).1 = .dir rcs' ∧ FwdOkL scs rcs' := by
  cases rep with
  | file c rd => rw [compat] at hcompat; cases hcompat
  | dir rcs₀ =>
    have hcompatL : compatL scs rcs₀ = true := by rwa [compat] at hcompat
    have hlk₀ : lookup (Entry.dir rcs₀) [] = some (.dir rcs₀) := lookup_nil _
    have hshow1 : (fwdPass sR rR (some (.dir scs)) (.dir rcs₀)).1 =
        (fwdInto sR rR [] scs (levelOps sR rR [] scs (.dir rcs₀)).1).1 := rfl
    have hshow2 : (fwdPass sR rR (some (.dir scs)) (.dir rcs₀)).2 =
        (levelOps sR rR [] scs (.dir rcs₀)).2 ++
          (fwdInto sR rR [] scs (levelOps sR rR [] scs (.dir rcs₀)).1).2 := rfl
    rw [hshow2] at hne
    rw [noError_append, Bool.and_eq_true] at hne
    obtain ⟨hneL, hneD⟩ := hne
    have hL2 : (levelOps sR rR [] scs (.dir rcs₀)).2 =
        (dirsLevel rR [] scs (.dir rcs₀)).2 ++
          (filesLevel sR rR [] scs (dirsLevel rR [] scs (.dir rcs₀)).1).2 := rfl
    rw [hL2, noError_append, Bool.and_eq_true] at hneL
    obtain ⟨hneDirs, hneFiles⟩ := hneL
    have hL1 : (levelOps sR rR [] scs (.dir rcs₀)).1 =
        (filesLevel sR rR [] scs (dirsLevel rR [] scs (.dir rcs₀)).1).1 := rfl
    have hDH := DirHyps_of_compatL (.dir rcs₀) [] scs rcs₀ hlk₀ hcompatL
    obtain ⟨-, hdirs1, hframe1, hanc1⟩ :=
      dirsLevel_spec rR [] scs (.dir rcs₀) rcs₀ hwf hlk₀ hDH
    obtain ⟨rcs₁, hR₁rel⟩ := hanc1 [] List.prefix_rfl
    obtain ⟨hfiles2, hframe2, hanc2⟩ :=
      filesLevel_spec sR rR [] scs (dirsLevel rR [] scs (.dir rcs₀)).1 rcs₁
        hwf hR₁rel hneFiles
    have hdirsD : ∀ m d₀, findChild scs m = some (.dir d₀) →
        ∃ r', lookup (levelOps sR rR [] scs (.dir rcs₀)).1 ([] ++ [m]) =
          some (.dir r') ∧ compatL d₀ r' = true := by
      intro m d₀ hm
      obtain ⟨r', hlk, hcomp⟩ := hdirs1 m d₀ hm
      have hkeep : lookup (filesLevel sR rR [] scs
          (dirsLevel rR [] scs (.dir rcs₀)).1).1 ([] ++ [m]) =
          lookup (dirsLevel rR [] scs (.dir rcs₀)).1 ([] ++ [m]) := by
        refine hframe2 _ ?_ ?_
        · intro k ck rdk hk hpre
          have hkm : k = m := snoc_prefix_snoc _ k m hpre
          subst hkm
          rw [hk] at hm
          cases hm
        · exact not_snoc_prefix_rel _ m
      rw [hL1, hkeep]
      exact ⟨r', hlk, hcomp⟩
    obtain ⟨hframeD, hokD, hancD⟩ :=
      fwdInto_master sR rR scs [] (levelOps sR rR [] scs (.dir rcs₀)).1
        hwf hdirsD (by rw [hL1]; exact hanc2) hneD
    obtain ⟨rcsF, hDrel⟩ := hancD [] List.prefix_rfl
    rw [lookup_nil, Option.some_inj] at hDrel
    refine ⟨rcsF, by rw [hshow1, hDrel], ?_⟩
    refine FwdOkL_of_forall scs rcsF hwf ?_
    intro m x hm
    have hDrel' : lookup (fwdInto sR rR [] scs
        (levelOps sR rR [] scs (.dir rcs₀)).1).1 [] = some (.dir rcsF) := by
      rw [lookup_nil, hDrel]
    have hChild : findChild rcsF m =
        lookup (fwdInto sR rR [] scs (levelOps sR rR [] scs (.dir rcs₀)).1).1 ([] ++ [m]) :=
      (lookup_child _ _ rcsF m hDrel').symm
    rw [hChild]
    cases x with
    | file cx rdx =>
      have hkeepD : lookup (fwdInto sR rR [] scs
          (levelOps sR rR [] scs (.dir rcs₀)).1).1 ([] ++ [m]) =
          lookup (levelOps sR rR [] scs (.dir rcs₀)).1 ([] ++ [m]) := by
        refine hframeD _ ?_ ?_
        · intro k dk hk hpre
          have hkm : k = m := snoc_prefix_snoc _ k m hpre
          subst hkm
          rw [hk] at hm
          cases hm
        · exact not_snoc_prefix_rel _ m
      rw [hkeepD, hL1]
      exact hfiles2 m cx rdx hm
    | dir dx => exact hokD m dx hm

/-! ## Prune-pass characterization and the convergence lemma -/

theorem prune_absent (src : Option Entry) (rel : Path) :
    ∀ (cs : Listing) (m : String), existsIn src (rel ++ [m]) = false →
      findChild (pruneTree src rel cs) m = none := by
  intro cs
  cases cs with
  | nil => intro m _; rfl
  | cons k e rest =>
    intro m hx
    cases e with
    | file c rd =>
      by_cases hk : existsIn src (rel ++ [k]) = true
      · rw [pruneTree, if_pos hk, findChild]
        by_cases hkm : k = m
        · subst hkm
          rw [hk] at hx
          cases hx
        · rw [if_neg hkm]
          exact prune_absent src rel rest m hx
      · rw [pruneTree, if_neg hk]
        exact prune_absent src rel rest m hx
    | dir cs' =>
      by_cases hk : existsIn src (rel ++ [k]) = true
      · rw [pruneTree, if_pos hk, findChild]
        by_cases hkm : k = m
        · subst hkm
          rw [hk] at hx
          cases hx
        · rw [if_neg hkm]
          exact prune_absent src rel rest m hx
      · rw [pruneTree, if_neg hk]
        exact prune_absent src rel rest m hx

theorem findChild_pruneTree (src : Option Entry) (rel : Path) :
    ∀ (cs : Listing) (m : String), existsIn src (rel ++ [m]) = true →
      findChild (pruneTree src rel cs) m =
        (match findChild cs m with
          | some (.file c rd) => some (Entry.file c rd)
          | some (.dir cs') => some (Entry.dir (pruneTree src (rel ++ [m]) cs'))
          | none => none) := by
  intro cs
  cases cs with
  | nil => intro m _; rfl
  | cons k e rest =>
    intro m hx
    cases e with
    | file c rd =>
      by_cases hkm : k = m
      · subst hkm
        rw [pruneTree, if_pos hx, findChild, if_pos rfl, findChild, if_pos rfl]
      · have hfc : findChild (.cons k (Entry.file c rd) rest) m = findChild rest m := by
          rw [findChild, if_neg hkm]
        rw [hfc]
        by_cases hk : existsIn src (rel ++ [k]) = true
        · rw [pruneTree, if_pos hk, findChild, if_neg hkm]
          exact findChild_pruneTree src rel rest m hx
        · rw [pruneTree, if_neg hk]
          exact findChild_pruneTree src rel rest m hx
    | dir cs' =>
      by_cases hkm : k = m
      · subst hkm
        rw [pruneTree, if_pos hx, findChild, if_pos rfl, findChild, if_pos rfl]
      · have hfc : findChild (.cons k (Entry.dir cs') rest) m = findChild rest m := by
          rw [findChild, if_neg hkm]
        rw [hfc]
        by_cases hk : existsIn src (rel ++ [k]) = true
        · rw [pruneTree, if_pos hk, findChild, if_neg hkm]
          exact findChild_pruneTree src rel rest m hx
        · rw [pruneTree, if_neg hk]
          exact findChild_pruneTree src rel rest m hx

theorem FwdOkL_find : ∀ (cs rcs : Listing) (m : String) (e : Entry),
    FwdOkL cs rcs → findChild cs m = some e → FwdOk e (findChild rcs m) := by
  intro cs
  cases cs with
  | nil => intro rcs m e _ hm; cases hm
  | cons k e₀ rest =>
    intro rcs m e hok hm
    obtain ⟨h1, h2⟩ := hok
    rw [findChild] at hm
    by_cases hkm : k = m
    · rw [if_pos hkm] at hm
      injection hm with hm'
      subst hm'
      subst hkm
      exact h1
    · rw [if_neg hkm] at hm
      exact FwdOkL_find rest rcs m e h2 hm

/-- The convergence lemma: if the replica listing mirrors the source listing
placed at `rel` under the source root `S`, then after the prune pass the two
trees agree (digest-level) at every relative path below. -/
theorem conv_master (S : Entry) :
    ∀ (p : Path) (cs rcs : Listing) (rel : Path),
      lookup S rel = some (.dir cs) → FwdOkL cs rcs →
      DMatch (lookup (.dir cs) p) (lookup (.dir (pruneTree (some S) rel rcs)) p) := by
  intro p
  induction p with
  | nil =>
    intro cs rcs rel _ _
    rw [lookup_nil, lookup_nil]
    trivial
  | cons m p' ih =>
    intro cs rcs rel hS hok
    rw [lookup_cons_dir, lookup_cons_dir]
    have hex : existsIn (some S) (rel ++ [m]) = (findChild cs m).isSome := by
      rw [existsIn]
      show (lookup S (rel ++ [m])).isSome = _
      rw [lookup_child S rel cs m hS]
    cases hfc : findChild cs m with
    | none =>
      have hx : existsIn (some S) (rel ++ [m]) = false := by rw [hex, hfc]; rfl
      rw [prune_absent (some S) rel rcs m hx]
      show DMatch (lookupOpt none p') (lookupOpt none p')
      rw [lookupOpt]
      trivial
    | some e =>
      have hx : existsIn (some S) (rel ++ [m]) = true := by rw [hex, hfc]; rfl
      have hok_e := FwdOkL_find cs rcs m e hok hfc
      rw [findChild_pruneTree (some S) rel rcs m hx]
      cases e with
      | file c rd =>
        obtain ⟨hrd, c', hnew, hdig⟩ := hok_e
        rw [hnew]
        cases p' with
        | nil =>
          rw [lookupOpt_nil, lookupOpt_nil]
          exact ⟨hrd, rfl, hdig⟩
        | cons a p'' =>
          show DMatch (lookup (.file c rd) (a :: p'')) (lookup (.file c' true) (a :: p''))
          rw [lookup, lookup]
          trivial
      | dir cs₀ =>
        obtain ⟨rcs₀, hnew, hokL⟩ := hok_e
        rw [hnew]
        have hS' : lookup S (rel ++ [m]) = some (.dir cs₀) := by
          rw [lookup_child S rel cs m hS, hfc]
        exact ih cs₀ rcs₀ (rel ++ [m]) hS' hokL

/-! ## Content provenance: every byte string in the final replica came from
the source tree or the initial replica -/

theorem findChild_filesOf : ∀ (cs : Listing) (m : String) (e : Entry),
    findChild cs m = some e → ∀ x, x ∈ filesOf e → x ∈ filesOfL cs := by
  intro cs
  cases cs with
  | nil => intro m e h; cases h
  | cons k e₀ rest =>
    intro m e h x hx
    rw [findChild] at h
    show x ∈ filesOf e₀ ++ filesOfL rest
    by_cases hkm : k = m
    · rw [if_pos hkm] at h
      injection h with h'
      subst h'
      exact List.mem_append_left _ hx
    · rw [if_neg hkm] at h
      exact List.mem_append_right _ (findChild_filesOf rest m e h x hx)

theorem lookup_filesOf : ∀ (p : Path) (e : Entry) (c : Bytes) (rd : Bool),
    lookup e p = some (.file c rd) → c ∈ filesOf e := by
  intro p
  induction p with
  | nil =>
    intro e c rd h
    rw [lookup_nil] at h
    injection h with h'
    subst h'
    show c ∈ [c]
    exact List.mem_singleton.2 rfl
  | cons n p' ih =>
    intro e c rd h
    cases e with
    | file c₀ rd₀ => rw [lookup] at h; cases h
    | dir cs =>
      rw [lookup_cons_dir] at h
      cases hfc : findChild cs n with
      | none => rw [hfc] at h; cases h
      | some e' =>
        rw [hfc] at h
        exact findChild_filesOf cs n e' hfc c (ih e' c rd h)

theorem filesOfL_pushChild : ∀ (cs : Listing) (n : String) (v : Entry) (x : Bytes),
    x ∈ filesOfL (pushChild cs n v) → x ∈ filesOfL cs ∨ x ∈ filesOf v := by
  intro cs
  cases cs with
  | nil =>
    intro n v x hx
    have : x ∈ filesOf v ++ filesOfL .nil := hx
    rw [List.mem_append] at this
    rcases this with h | h
    · exact Or.inr h
    · cases h
  | cons m e rest =>
    intro n v x hx
    have : x ∈ filesOf e ++ filesOfL (pushChild rest n v) := hx
    rw [List.mem_append] at this
    rcases this with h | h
    · exact Or.inl (List.mem_append_left _ h)
    · rcases filesOfL_pushChild rest n v x h with h' | h'
      · exact Or.inl (List.mem_append_right _ h')
      · exact Or.inr h'

theorem filesOfL_setChild : ∀ (cs : Listing) (n : String) (v : Entry) (x : Bytes),
    x ∈ filesOfL (setChild cs n v) → x ∈ filesOfL cs ∨ x ∈ filesOf v := by
  intro cs
  cases cs with
  | nil => intro n v x hx; cases hx
  | cons m e rest =>
    intro n v x hx
    rw [setChild] at hx
    by_cases hmn : m = n
    · rw [if_pos hmn] at hx
      have : x ∈ filesOf v ++ filesOfL rest := hx
      rw [List.mem_append] at this
      rcases this with h | h
      · exact Or.inr h
      · exact Or.inl (List.mem_append_right _ h)
    · rw [if_neg hmn] at hx
      have : x ∈ filesOf e ++ filesOfL (setChild rest n v) := hx
      rw [List.mem_append] at this
      rcases this with h | h
      · exact Or.inl (List.mem_append_left _ h)
      · rcases filesOfL_setChild rest n v x h with h' | h'
        · exact Or.inl (List.mem_append_right _ h')
        · exact Or.inr h'

theorem makedirsAt_files : ∀ (q : Path) (R R' : Entry), makedirsAt R q = some R' →
    ∀ x, x ∈ filesOf R' → x ∈ filesOf R := by
  intro q
  cases q with
  | nil => intro R R' h; cases R <;> cases h
  | cons n rest =>
    intro R R' h x hx
    cases R with
    | file c rd => cases rest <;> cases h
    | dir cs =>
      cases rest with
      | nil =>
        cases hfc : findChild cs n with
        | some e =>
          have hdef : makedirsAt (.dir cs) [n] = none := by rw [makedirsAt, hfc]
          rw [hdef] at h
          cases h
        | none =>
          have hdef : makedirsAt (.dir cs) [n] =
              some (.dir (pushChild cs n (.dir .nil))) := by rw [makedirsAt, hfc]
          rw [hdef] at h
          injection h with h'
          subst h'
          rcases filesOfL_pushChild cs n (.dir .nil) x hx with h' | h'
          · exact h'
          · cases h'
      | cons p q' =>
        cases hfc : findChild cs n with
        | some e =>
          have hdef : makedirsAt (.dir cs) (n :: p :: q') =
              Option.map (fun e' => Entry.dir (setChild cs n e'))
                (makedirsAt e (p :: q')) := by rw [makedirsAt, hfc]
          rw [hdef] at h
          cases hmk : makedirsAt e (p :: q') with
          | none => rw [hmk] at h; cases h
          | some e' =>
            rw [hmk] at h
            injection h with h'
            subst h'
            rcases filesOfL_setChild cs n e' x hx with h' | h'
            · exact h'
            · exact findChild_filesOf cs n e hfc x
                (makedirsAt_files (p :: q') e e' hmk x h')
        | none =>
          have hdef : makedirsAt (.dir cs) (n :: p :: q') =
              Option.map (fun e' => Entry.dir (pushChild cs n e'))
                (makedirsAt (.dir .nil) (p :: q')) := by rw [makedirsAt, hfc]
          rw [hdef] at h
          cases hmk : makedirsAt (.dir .nil) (p :: q') with
          | none => rw [hmk] at h; cases h
          | some e' =>
            rw [hmk] at h
            injection h with h'
            subst h'
            rcases filesOfL_pushChild cs n e' x hx with h' | h'
            · exact h'
            · cases makedirsAt_files (p :: q') (.dir .nil) e' hmk x h'

theorem writeFileAt_files : ∀ (q : Path) (R R' : Entry) (c : Bytes),
    writeFileAt R q c = some R' → ∀ x, x ∈ filesOf R' → x ∈ filesOf R ∨ x = c := by
  intro q
  cases q with
  | nil => intro R R' c h; cases R <;> cases h
  | cons n rest =>
    intro R R' c h x hx
    cases R with
    | file c₀ rd₀ => cases rest <;> cases h
    | dir cs =>
      cases rest with
      | nil =>
        cases hfc : findChild cs n with
        | some e =>
          cases e with
          | dir cs' =>
            have hdef : writeFileAt (.dir cs) [n] c = none := by rw [writeFileAt, hfc]
            rw [hdef] at h
            cases h
          | file c₀ rd₀ =>
            have hdef : writeFileAt (.dir cs) [n] c =
                some (.dir (setChild cs n (.file c true))) := by rw [writeFileAt, hfc]
            rw [hdef] at h
            injection h with h'
            subst h'
            rcases filesOfL_setChild cs n (.file c true) x hx with h' | h'
            · exact Or.inl h'
            · exact Or.inr (List.mem_singleton.1 h')
        | none =>
          have hdef : writeFileAt (.dir cs) [n] c =
              some (.dir (pushChild cs n (.file c true))) := by rw [writeFileAt, hfc]
          rw [hdef] at h
          injection h with h'
          subst h'
          rcases filesOfL_pushChild cs n (.file c true) x hx with h' | h'
          · exact Or.inl h'
          · exact Or.inr (List.mem_singleton.1 h')
      | cons p q' =>
        cases hfc : findChild cs n with
        | some e =>
          have hdef : writeFileAt (.dir cs) (n :: p :: q') c =
              Option.map (fun e' => Entry.dir (setChild cs n e'))
                (writeFileAt e (p :: q') c) := by rw [writeFileAt, hfc]
          rw [hdef] at h
          cases hwr : writeFileAt e (p :: q') c with
          | none => rw [hwr] at h; cases h
          | some e' =>
            rw [hwr] at h
            injection h with h'
            subst h'
            rcases filesOfL_setChild cs n e' x hx with h' | h'
            · exact Or.inl h'
            · rcases writeFileAt_files (p :: q') e e' c hwr x h' with h2 | h2
              · exact Or.inl (findChild_filesOf cs n e hfc x h2)
              · exact Or.inr h2
        | none =>
          have hdef : writeFileAt (.dir cs) (n :: p :: q') c = none := by
            rw [writeFileAt, hfc]
          rw [hdef] at h
          cases h

theorem copy2At_files (rep : Entry) (dst : Path) (base : String) (c : Bytes)
    (rd : Bool) (rep' : Entry) (h : copy2At rep dst base c rd = some rep') :
    ∀ x, x ∈ filesOf rep' → x ∈ filesOf rep ∨ x = c := by
  intro x hx
  rw [copy2At] at h
  by_cases hrd : rd = true
  · rw [if_pos hrd] at h
    cases hlk : lookup rep dst with
    | none =>
      rw [hlk] at h
      exact writeFileAt_files dst rep rep' c h x hx
    | some e =>
      cases e with
      | file c₀ rd₀ =>
        rw [hlk] at h
        exact writeFileAt_files dst rep rep' c h x hx
      | dir cs =>
        rw [hlk] at h
        exact writeFileAt_files (dst ++ [base]) rep rep' c h x hx
  · rw [if_neg hrd] at h
    cases h

theorem syncOneFile_files (sR rR rel : Path) (n : String) (c : Bytes) (rd : Bool)
    (rep : Entry) :
    ∀ x, x ∈ filesOf (syncOneFile sR rR rel n c rd rep).1 →
      x ∈ filesOf rep ∨ x = c := by
  intro x hx
  rw [syncOneFile] at hx
  by_cases hlk : (lookup rep (rel ++ [n])).isSome = true
  · rw [if_pos hlk] at hx
    by_cases heq : (computeMd5 (sR ++ rel ++ [n]) (some (.file c rd))).1 =
        (computeMd5 (rR ++ rel ++ [n]) (lookup rep (rel ++ [n]))).1
    · rw [if_pos heq] at hx
      exact Or.inl hx
    · rw [if_neg heq] at hx
      cases hcp : copy2At rep (rel ++ [n]) n c rd with
      | some rep' =>
        rw [hcp] at hx
        exact copy2At_files rep (rel ++ [n]) n c rd rep' hcp x hx
      | none =>
        rw [hcp] at hx
        exact Or.inl hx
  · rw [if_neg hlk] at hx
    cases hcp : copy2At rep (rel ++ [n]) n c rd with
    | some rep' =>
      rw [hcp] at hx
      exact copy2At_files rep (rel ++ [n]) n c rd rep' hcp x hx
    | none =>
      rw [hcp] at hx
      exact Or.inl hx

theorem syncOneDir_files (rR rel : Path) (n : String) (rep : Entry) :
    ∀ x, x ∈ filesOf (syncOneDir rR rel n rep).1 → x ∈ filesOf rep := by
  intro x hx
  rw [syncOneDir] at hx
  by_cases hlk : (lookup rep (rel ++ [n])).isSome = true
  · rw [if_pos hlk] at hx
    exact hx
  · rw [if_neg hlk] at hx
    cases hmk : makedirsAt rep (rel ++ [n]) with
    | some rep' =>
      rw [hmk] at hx
      exact makedirsAt_files (rel ++ [n]) rep rep' hmk x hx
    | none =>
      rw [hmk] at hx
      exact hx

theorem dirsLevel_files (rR rel : Path) : ∀ (cs : Listing) (rep : Entry),
    ∀ x, x ∈ filesOf (dirsLevel rR rel cs rep).1 → x ∈ filesOf rep := by
  intro cs
  cases cs with
  | nil => intro rep x hx; exact hx
  | cons n e rest =>
    intro rep x hx
    cases e with
    | file c rd => exact dirsLevel_files rR rel rest rep x hx
    | dir cs' =>
      exact syncOneDir_files rR rel n rep x
        (dirsLevel_files rR rel rest (syncOneDir rR rel n rep).1 x hx)

theorem filesLevel_files (sR rR rel : Path) : ∀ (cs : Listing) (rep : Entry),
    ∀ x, x ∈ filesOf (filesLevel sR rR rel cs rep).1 →
      x ∈ filesOf rep ∨ x ∈ filesOfL cs := by
  intro cs
  cases cs with
  | nil => intro rep x hx; exact Or.inl hx
  | cons n e rest =>
    intro rep x hx
    cases e with
    | dir cs' =>
      rcases filesLevel_files sR rR rel rest rep x hx with h | h
      · exact Or.inl h
      · exact Or.inr (List.mem_append_right _ h)
    | file c rd =>
      rcases filesLevel_files sR rR rel rest (syncOneFile sR rR rel n c rd rep).1 x hx
        with h | h
      · rcases syncOneFile_files sR rR rel n c rd rep x h with h' | h'
        · exact Or.inl h'
        · exact Or.inr (List.mem_append_left _ (List.mem_singleton.2 h'))
      · exact Or.inr (List.mem_append_right _ h)

theorem levelOps_files (sR rR rel : Path) (cs : Listing) (rep : Entry) :
    ∀ x, x ∈ filesOf (levelOps sR rR rel cs rep).1 →
      x ∈ filesOf rep ∨ x ∈ filesOfL cs := by
  intro x hx
  rcases filesLevel_files sR rR rel cs (dirsLevel rR rel cs rep).1 x hx with h | h
  · exact Or.inl (dirsLevel_files rR rel cs rep x h)
  · exact Or.inr h

theorem fwdInto_files (sR rR : Path) : ∀ (cs : Listing) (rel : Path) (rep : Entry),
    ∀ x, x ∈ filesOf (fwdInto sR rR rel cs rep).1 →
      x ∈ filesOf rep ∨ x ∈ filesOfL cs := by
  intro cs
  cases cs with
  | nil => intro rel rep x hx; exact Or.inl hx
  | cons n e rest =>
    intro rel rep x hx
    cases e with
    | file c rd =>
      rcases fwdInto_files sR rR rest rel rep x hx with h | h
      · exact Or.inl h
      · exact Or.inr (List.mem_append_right _ h)
    | dir cs' =>
      rcases fwdInto_files sR rR rest rel
          (fwdInto sR rR (rel ++ [n]) cs'
            (levelOps sR rR (rel ++ [n]) cs' rep).1).1 x hx with h | h
      · rcases fwdInto_files sR rR cs' (rel ++ [n])
            (levelOps sR rR (rel ++ [n]) cs' rep).1 x h with h2 | h2
        · rcases levelOps_files sR rR (rel ++ [n]) cs' rep x h2 with h3 | h3
          · exact Or.inl h3
          · exact Or.inr (List.mem_append_left _ h3)
        · exact Or.inr (List.mem_append_left _ h2)
      · exact Or.inr (List.mem_append_right _ h)

theorem fwdPass_files (sR rR : Path) (scs : Listing) (rep : Entry) :
    ∀ x, x ∈ filesOf (fwdPass sR rR (some (.dir scs)) rep).1 →
      x ∈ filesOf rep ∨ x ∈ filesOfL scs := by
  intro x hx
  rcases fwdInto_files sR rR scs [] (levelOps sR rR [] scs rep).1 x hx with h | h
  · exact levelOps_files sR rR [] scs rep x h
  · exact Or.inr h

theorem pruneTree_files (src : Option Entry) : ∀ (rel : Path) (cs : Listing),
    ∀ x, x ∈ filesOfL (pruneTree src rel cs) → x ∈ filesOfL cs := by
  intro rel cs
  cases cs with
  | nil => intro x hx; cases hx
  | cons n e rest =>
    intro x hx
    cases e with
    | file c rd =>
      rw [pruneTree] at hx
      show x ∈ filesOf (Entry.file c rd) ++ filesOfL rest
      by_cases hex : existsIn src (rel ++ [n]) = true
      · rw [if_pos hex] at hx
        have : x ∈ filesOf (Entry.file c rd) ++ filesOfL (pruneTree src rel rest) := hx
        rw [List.mem_append] at this
        rcases this with h | h
        · exact List.mem_append_left _ h
        · exact List.mem_append_right _ (pruneTree_files src rel rest x h)
      · rw [if_neg hex] at hx
        exact List.mem_append_right _ (pruneTree_files src rel rest x hx)
    | dir cs' =>
      rw [pruneTree] at hx
      show x ∈ filesOfL cs' ++ filesOfL rest
      by_cases hex : existsIn src (rel ++ [n]) = true
      · rw [if_pos hex] at hx
        have : x ∈ filesOfL (pruneTree src (rel ++ [n]) cs') ++
            filesOfL (pruneTree src rel rest) := hx
        rw [List.mem_append] at this
        rcases this with h | h
        · exact List.mem_append_left _ (pruneTree_files src (rel ++ [n]) cs' x h)
        · exact List.mem_append_right _ (pruneTree_files src rel rest x h)
      · rw [if_neg hex] at hx
        exact List.mem_append_right _ (pruneTree_files src rel rest x hx)

/-- The end-to-end shape theorem behind C1 and C5: a `sync_folders` run on a
well-formed, kind-conflict-free pair that logs no error line leaves, under
digest-injectivity over the byte strings involved, a replica whose entry at
every relative path has the shape (absent / directory / file content) of the
source's entry there. -/
theorem syncFolders_shape (sR rR : Path) (scs : Listing) (rep₀ rep' : Entry)
    (tr : List Event)
    (hwf : wfL scs = true)
    (hcompat : compat (.dir scs) (some rep₀) = true)
    (hrun : syncFolders true sR rR (some (.dir scs)) (some rep₀) = some (rep', tr))
    (hne : noError tr = true)
    (hcoll : ∀ c, c ∈ filesOfL scs → ∀ c', c' ∈ filesOf rep₀ ++ filesOfL scs →
      md5hex c' = md5hex c → c' = c)
    (p : Path) :
    shape (lookup (.dir scs) p) = shape (lookup rep' p) := by
  have hbase : syncFolders true sR rR (some (.dir scs)) (some rep₀) =
      some ((prunePass rR (some (.dir scs))
          (fwdPass sR rR (some (.dir scs)) rep₀).1).1,
        (fwdPass sR rR (some (.dir scs)) rep₀).2 ++
          (prunePass rR (some (.dir scs))
            (fwdPass sR rR (some (.dir scs)) rep₀).1).2) := rfl
  rw [hbase] at hrun
  injection hrun with hpair
  have hrep : rep' =
      (prunePass rR (some (.dir scs)) (fwdPass sR rR (some (.dir scs)) rep₀).1).1 :=
    (congrArg Prod.fst hpair).symm
  have htr : tr =
      (fwdPass sR rR (some (.dir scs)) rep₀).2 ++
        (prunePass rR (some (.dir scs)) (fwdPass sR rR (some (.dir scs)) rep₀).1).2 :=
    (congrArg Prod.snd hpair).symm
  rw [htr, noError_append, Bool.and_eq_true] at hne
  obtain ⟨rcs', hF1, hokL⟩ := fwdPass_master sR rR scs rep₀ hwf hcompat hne.1
  rw [hF1] at hrep
  have hrep' : rep' = .dir (pruneTree (some (.dir scs)) [] rcs') := hrep
  have conv := conv_master (.dir scs) p scs rcs' [] (lookup_nil _) hokL
  rw [hrep']
  cases hl : lookup (.dir scs) p with
  | none =>
    cases hr : lookup (.dir (pruneTree (some (.dir scs)) [] rcs')) p with
    | none => rfl
    | some e =>
      rw [hl, hr] at conv
      cases e with
      | file c rd => exact conv.elim
      | dir cs => exact conv.elim
  | some e =>
    cases hr : lookup (.dir (pruneTree (some (.dir scs)) [] rcs')) p with
    | none =>
      rw [hl, hr] at conv
      cases e with
      | file c rd => exact conv.elim
      | dir cs => exact conv.elim
    | some e' =>
      rw [hl, hr] at conv
      cases e with
      | dir cs =>
        cases e' with
        | dir cs' => rfl
        | file c' rd' => exact conv.elim
      | file c rd =>
        cases e' with
        | dir cs' => exact conv.elim
        | file c' rd' =>
          obtain ⟨hrd, hrd', hdig⟩ := conv
          have hc : c ∈ filesOfL scs := lookup_filesOf p (.dir scs) c rd hl
          have hcp₀ : c' ∈ filesOfL (pruneTree (some (.dir scs)) [] rcs') :=
            lookup_filesOf p (.dir (pruneTree (some (.dir scs)) [] rcs')) c' rd' hr
          have hcp₁ : c' ∈ filesOfL rcs' :=
            pruneTree_files (some (.dir scs)) [] rcs' c' hcp₀
          have hcp₂ : c' ∈ filesOf (fwdPass sR rR (some (.dir scs)) rep₀).1 := by
            rw [hF1]; exact hcp₁
          have hcp₃ : c' ∈ filesOf rep₀ ++ filesOfL scs :=
            List.mem_append.2 (fwdPass_files sR rR scs rep₀ c' hcp₂)
          have hcc : c' = c := hcoll c hc c' hcp₃ hdig
          show some (some c) = some (some c')
          rw [hcc]

/-- C1 (amended). Convergence: for a well-formed source tree with no
source-directory/replica-file kind conflict against the initial replica, a
`sync_folders` run that completes without logging any error line, under
digest-injectivity over the byte strings involved, leaves the replica with
exactly the source's relative paths, with equal content at every file path. -/
theorem C1_amended_convergence (sR rR : Path) (scs : Listing) (rep₀ rep' : Entry)
    (tr : List Event)
    (hwf : wfL scs = true)
    (hcompat : compat (.dir scs) (some rep₀) = true)
    (hrun : syncFolders true sR rR (some (.dir scs)) (some rep₀) = some (rep', tr))
    (hne : noError tr = true)
    (hcoll : ∀ c, c ∈ filesOfL scs → ∀ c', c' ∈ filesOf rep₀ ++ filesOfL scs →
      md5hex c' = md5hex c → c' = c)
    (p : Path) :
    shape (lookup (.dir scs) p) = shape (lookup rep' p) :=
  syncFolders_shape sR rR scs rep₀ rep' tr hwf hcompat hrun hne hcoll p

/-- Witness for C1: copying `a/b` (content `[104]`) into an empty replica
satisfies every hypothesis concretely, and source and replica then agree at
the file path `["a", "b"]`. -/
theorem C1_amended_convergence_witness :
    shape (lookup (Entry.dir (.cons "a"
        (.dir (.cons "b" (.file [104] true) .nil)) .nil)) ["a", "b"]) =
      shape (lookup (Entry.dir (.cons "a"
        (.dir (.cons "b" (.file [104] true) .nil)) .nil)) ["a", "b"]) :=
  C1_amended_convergence ["s"] ["r"]
    (.cons "a" (.dir (.cons "b" (.file [104] true) .nil)) .nil)
    (.dir .nil)
    (Entry.dir (.cons "a" (.dir (.cons "b" (.file [104] true) .nil)) .nil))
    [.created ["r", "a"], .copied ["s", "a", "b"] ["r", "a", "b"]]
    (by decide) (by decide) (by decide) (by decide) (by decide) ["a", "b"]

/-! ## Idempotence: the pruned mirror is a fixed point of the whole pass -/

theorem prune_FwdOk (S : Entry) :
    ∀ (sub cs rcs : Listing) (rel : Path),
      lookup S rel = some (.dir cs) →
      wfL sub = true →
      (∀ m e, findChild sub m = some e → findChild cs m = some e) →
      FwdOkL sub rcs → FwdOkL sub (pruneTree (some S) rel rcs) := by
  intro sub
  cases sub with
  | nil => intro cs rcs rel _ _ _ _; trivial
  | cons n e rest =>
    intro cs rcs rel hS hwf hincl hok
    obtain ⟨h1, h2⟩ := hok
    rw [wfL, Bool.and_eq_true, Bool.and_eq_true] at hwf
    obtain ⟨⟨hnm, hwfe⟩, hwfr⟩ := hwf
    have hfc : findChild cs n = some e := hincl n e (by rw [findChild, if_pos rfl])
    have hx : existsIn (some S) (rel ++ [n]) = true := by
      rw [existsIn]
      show (lookup S (rel ++ [n])).isSome = true
      rw [lookup_child S rel cs n hS, hfc]
      rfl
    constructor
    · rw [findChild_pruneTree (some S) rel rcs n hx]
      cases e with
      | file c rd =>
        obtain ⟨hrd, c', hnew, hdig⟩ := h1
        rw [hnew]
        exact ⟨hrd, c', rfl, hdig⟩
      | dir cs₀ =>
        obtain ⟨rcs₀, hnew, hokL₀⟩ := h1
        rw [hnew]
        refine ⟨pruneTree (some S) (rel ++ [n]) rcs₀, rfl, ?_⟩
        have hS' : lookup S (rel ++ [n]) = some (.dir cs₀) := by
          rw [lookup_child S rel cs n hS, hfc]
        have hwfe' : wfL cs₀ = true := hwfe
        exact prune_FwdOk S cs₀ cs₀ rcs₀ (rel ++ [n]) hS' hwfe'
          (fun m e' hm => hm) hokL₀
    · refine prune_FwdOk S rest cs rcs rel hS hwfr ?_ h2
      intro m e' hm
      have hmn : m ≠ n := by
        intro hh
        subst hh
        rw [Bool.not_eq_true'] at hnm
        rw [hasName, hm] at hnm
        cases hnm
      refine hincl m e' ?_
      rw [findChild, if_neg (fun hh => hmn hh.symm)]
      exact hm

theorem pruneTree_SubPaths (S : Entry) :
    ∀ (rcs : Listing) (rel : Path), SubPaths S rel (pruneTree (some S) rel rcs) := by
  intro rcs
  cases rcs with
  | nil => intro rel; trivial
  | cons n e rest =>
    intro rel
    cases e with
    | file c rd =>
      rw [pruneTree]
      by_cases hx : existsIn (some S) (rel ++ [n]) = true
      · rw [if_pos hx]
        exact ⟨hx, True.intro, pruneTree_SubPaths S rest rel⟩
      · rw [if_neg hx]
        exact pruneTree_SubPaths S rest rel
    | dir cs' =>
      rw [pruneTree]
      by_cases hx : existsIn (some S) (rel ++ [n]) = true
      · rw [if_pos hx]
        exact ⟨hx, pruneTree_SubPaths S cs' (rel ++ [n]), pruneTree_SubPaths S rest rel⟩
      · rw [if_neg hx]
        exact pruneTree_SubPaths S rest rel

theorem pruneTree_noop (S : Entry) :
    ∀ (cs : Listing) (rel : Path), SubPaths S rel cs →
      pruneTree (some S) rel cs = cs := by
  intro cs
  cases cs with
  | nil => intro rel _; rfl
  | cons n e rest =>
    intro rel hsp
    cases e with
    | file c rd =>
      obtain ⟨hx, _, hrest⟩ := hsp
      rw [pruneTree, if_pos hx, pruneTree_noop S rest rel hrest]
    | dir cs' =>
      obtain ⟨hx, hdeep, hrest⟩ := hsp
      rw [pruneTree, if_pos hx, pruneTree_noop S cs' (rel ++ [n]) hdeep,
        pruneTree_noop S rest rel hrest]

theorem pruneFilesEv_noop (rR : Path) (S : Entry) :
    ∀ (cs : Listing) (rel : Path), SubPaths S rel cs →
      pruneFilesEv rR (some S) rel cs = [] := by
  intro cs
  cases cs with
  | nil => intro rel _; rfl
  | cons n e rest =>
    intro rel hsp
    cases e with
    | file c rd =>
      obtain ⟨hx, _, hrest⟩ := hsp
      rw [pruneFilesEv, if_pos hx]
      exact pruneFilesEv_noop rR S rest rel hrest
    | dir cs' =>
      obtain ⟨_, _, hrest⟩ := hsp
      rw [pruneFilesEv]
      exact pruneFilesEv_noop rR S rest rel hrest

theorem pruneDirsEv_noop (rR : Path) (S : Entry) :
    ∀ (cs : Listing) (rel : Path), SubPaths S rel cs →
      pruneDirsEv rR (some S) rel cs = [] := by
  intro cs
  cases cs with
  | nil => intro rel _; rfl
  | cons n e rest =>
    intro rel hsp
    cases e with
    | file c rd =>
      obtain ⟨_, _, hrest⟩ := hsp
      rw [pruneDirsEv]
      exact pruneDirsEv_noop rR S rest rel hrest
    | dir cs' =>
      obtain ⟨hx, _, hrest⟩ := hsp
      rw [pruneDirsEv, if_pos hx]
      exact pruneDirsEv_noop rR S rest rel hrest

theorem pruneInto_noop (rR : Path) (S : Entry) :
    ∀ (cs : Listing) (rel : Path), SubPaths S rel cs →
      pruneInto rR (some S) rel cs = [] := by
  intro cs
  cases cs with
  | nil => intro rel _; rfl
  | cons n e rest =>
    intro rel hsp
    cases e with
    | file c rd =>
      obtain ⟨_, _, hrest⟩ := hsp
      rw [pruneInto]
      exact pruneInto_noop rR S rest rel hrest
    | dir cs' =>
      obtain ⟨hx, hdeep, hrest⟩ := hsp
      rw [pruneInto, if_pos hx, pruneFilesEv_noop rR S cs' (rel ++ [n]) hdeep,
        pruneDirsEv_noop rR S cs' (rel ++ [n]) hdeep,
        pruneInto_noop rR S cs' (rel ++ [n]) hdeep,
        pruneInto_noop rR S rest rel hrest]
      rfl

theorem dirsLevel_noop (rR : Path) :
    ∀ (cs : Listing) (rel : Path) (R : Entry) (rcs : Listing),
      lookup R rel = some (.dir rcs) → FwdOkL cs rcs →
      dirsLevel rR rel cs R = (R, []) := by
  intro cs
  cases cs with
  | nil => intro rel R rcs _ _; rfl
  | cons n e rest =>
    intro rel R rcs hR hok
    obtain ⟨h1, h2⟩ := hok
    cases e with
    | file c rd =>
      show dirsLevel rR rel rest R = (R, [])
      exact dirsLevel_noop rR rest rel R rcs hR h2
    | dir cs₀ =>
      obtain ⟨rcs₀, hnew, hokL₀⟩ := h1
      have hlk : (lookup R (rel ++ [n])).isSome = true := by
        rw [lookup_child R rel rcs n hR, hnew]
        rfl
      show ((dirsLevel rR rel rest (syncOneDir rR rel n R).1).1,
        (syncOneDir rR rel n R).2 ++
          (dirsLevel rR rel rest (syncOneDir rR rel n R).1).2) = (R, [])
      rw [syncOneDir_exists rR rel n R hlk]
      show ((dirsLevel rR rel rest R).1, [] ++ (dirsLevel rR rel rest R).2) = (R, [])
      rw [dirsLevel_noop rR rest rel R rcs hR h2]
      rfl

theorem filesLevel_noop (sR rR : Path) :
    ∀ (cs : Listing) (rel : Path) (R : Entry) (rcs : Listing),
      lookup R rel = some (.dir rcs) → FwdOkL cs rcs →
      filesLevel sR rR rel cs R = (R, []) := by
  intro cs
  cases cs with
  | nil => intro rel R rcs _ _; rfl
  | cons n e rest =>
    intro rel R rcs hR hok
    obtain ⟨h1, h2⟩ := hok
    cases e with
    | dir cs₀ =>
      show filesLevel sR rR rel rest R = (R, [])
      exact filesLevel_noop sR rR rest rel R rcs hR h2
    | file c rd =>
      obtain ⟨hrd, c', hnew, hdig⟩ := h1
      subst hrd
      have hlkv : lookup R (rel ++ [n]) = some (.file c' true) := by
        rw [lookup_child R rel rcs n hR, hnew]
      have hlk : (lookup R (rel ++ [n])).isSome = true := by rw [hlkv]; rfl
      have heq : (computeMd5 (sR ++ rel ++ [n]) (some (.file c true))).1 =
          (computeMd5 (rR ++ rel ++ [n]) (lookup R (rel ++ [n]))).1 := by
        rw [hlkv]
        show hashFile c = hashFile c'
        rw [hashFile_eq, hashFile_eq, hdig]
      have hs := syncOneFile_skip sR rR rel n c true R hlk heq
      have hs' : syncOneFile sR rR rel n c true R = (R, []) := by
        rw [hs, hlkv]
        rfl
      show ((filesLevel sR rR rel rest (syncOneFile sR rR rel n c true R).1).1,
        (syncOneFile sR rR rel n c true R).2 ++
          (filesLevel sR rR rel rest (syncOneFile sR rR rel n c true R).1).2) = (R, [])
      rw [hs']
      show ((filesLevel sR rR rel rest R).1,
        [] ++ (filesLevel sR rR rel rest R).2) = (R, [])
      rw [filesLevel_noop sR rR rest rel R rcs hR h2]
      rfl

theorem levelOps_noop (sR rR : Path) (cs : Listing) (rel : Path) (R : Entry)
    (rcs : Listing) (hR : lookup R rel = some (.dir rcs)) (hok : FwdOkL cs rcs) :
    levelOps sR rR rel cs R = (R, []) := by
  show ((filesLevel sR rR rel cs (dirsLevel rR rel cs R).1).1,
    (dirsLevel rR rel cs R).2 ++
      (filesLevel sR rR rel cs (dirsLevel rR rel cs R).1).2) = (R, [])
  rw [dirsLevel_noop rR cs rel R rcs hR hok]
  show ((filesLevel sR rR rel cs R).1, [] ++ (filesLevel sR rR rel cs R).2) = (R, [])
  rw [filesLevel_noop sR rR cs rel R rcs hR hok]
  rfl

theorem fwdInto_noop (sR rR : Path) :
    ∀ (cs : Listing) (rel : Path) (R : Entry) (rcs : Listing),
      lookup R rel = some (.dir rcs) → FwdOkL cs rcs →
      fwdInto sR rR rel cs R = (R, []) := by
  intro cs
  cases cs with
  | nil => intro rel R rcs _ _; rfl
  | cons n e rest =>
    intro rel R rcs hR hok
    obtain ⟨h1, h2⟩ := hok
    cases e with
    | file c rd =>
      show fwdInto sR rR rel rest R = (R, [])
      exact fwdInto_noop sR rR rest rel R rcs hR h2
    | dir cs₀ =>
      obtain ⟨rcs₀, hnew, hokL₀⟩ := h1
      have hR' : lookup R (rel ++ [n]) = some (.dir rcs₀) := by
        rw [lookup_child R rel rcs n hR, hnew]
      show ((fwdInto sR rR rel rest (fwdInto sR rR (rel ++ [n]) cs₀
          (levelOps sR rR (rel ++ [n]) cs₀ R).1).1).1,
        (levelOps sR rR (rel ++ [n]) cs₀ R).2 ++
          (fwdInto sR rR (rel ++ [n]) cs₀ (levelOps sR rR (rel ++ [n]) cs₀ R).1).2 ++
          (fwdInto sR rR rel rest (fwdInto sR rR (rel ++ [n]) cs₀
            (levelOps sR rR (rel ++ [n]) cs₀ R).1).1).2) = (R, [])
      rw [levelOps_noop sR rR cs₀ (rel ++ [n]) R rcs₀ hR' hokL₀]
      show ((fwdInto sR rR rel rest (fwdInto sR rR (rel ++ [n]) cs₀ R).1).1,
        [] ++ (fwdInto sR rR (rel ++ [n]) cs₀ R).2 ++
          (fwdInto sR rR rel rest (fwdInto sR rR (rel ++ [n]) cs₀ R).1).2) = (R, [])
      rw [fwdInto_noop sR rR cs₀ (rel ++ [n]) R rcs₀ hR' hokL₀]
      show ((fwdInto sR rR rel rest R).1,
        [] ++ [] ++ (fwdInto sR rR rel rest R).2) = (R, [])
      rw [fwdInto_noop sR rR rest rel R rcs hR h2]
      rfl

theorem fwdPass_noop (sR rR : Path) (scs rcs : Listing) (hok : FwdOkL scs rcs) :
    fwdPass sR rR (some (.dir scs)) (.dir rcs) = (.dir rcs, []) := by
  have hR : lookup (Entry.dir rcs) [] = some (.dir rcs) := lookup_nil _
  show ((fwdInto sR rR [] scs (levelOps sR rR [] scs (.dir rcs)).1).1,
    (levelOps sR rR [] scs (.dir rcs)).2 ++
      (fwdInto sR rR [] scs (levelOps sR rR [] scs (.dir rcs)).1).2) = (.dir rcs, [])
  rw [levelOps_noop sR rR scs [] (.dir rcs) rcs hR hok]
  show ((fwdInto sR rR [] scs (.dir rcs)).1,
    [] ++ (fwdInto sR rR [] scs (.dir rcs)).2) = (.dir rcs, [])
  rw [fwdInto_noop sR rR scs [] (.dir rcs) rcs hR hok]
  rfl

/-- C2. Idempotence: running `sync_folders` a second time immediately after a
pass that logged no error line (on a well-formed, kind-conflict-free pair of
trees) performs zero copy and zero delete operations — in fact it performs no
filesystem operation and emits no log line at all, returning the same
replica. -/
theorem C2_idempotence (sR rR : Path) (scs : Listing) (rep₀ rep₁ : Entry)
    (tr₁ : List Event)
    (hwf : wfL scs = true)
    (hcompat : compat (.dir scs) (some rep₀) = true)
    (hrun : syncFolders true sR rR (some (.dir scs)) (some rep₀) = some (rep₁, tr₁))
    (hne : noError tr₁ = true) :
    syncFolders true sR rR (some (.dir scs)) (some rep₁) = some (rep₁, []) := by
  have hbase : syncFolders true sR rR (some (.dir scs)) (some rep₀) =
      some ((prunePass rR (some (.dir scs))
          (fwdPass sR rR (some (.dir scs)) rep₀).1).1,
        (fwdPass sR rR (some (.dir scs)) rep₀).2 ++
          (prunePass rR (some (.dir scs))
            (fwdPass sR rR (some (.dir scs)) rep₀).1).2) := rfl
  rw [hbase] at hrun
  injection hrun with hpair
  have hrep : rep₁ =
      (prunePass rR (some (.dir scs)) (fwdPass sR rR (some (.dir scs)) rep₀).1).1 :=
    (congrArg Prod.fst hpair).symm
  have htr : tr₁ =
      (fwdPass sR rR (some (.dir scs)) rep₀).2 ++
        (prunePass rR (some (.dir scs)) (fwdPass sR rR (some (.dir scs)) rep₀).1).2 :=
    (congrArg Prod.snd hpair).symm
  rw [htr, noError_append, Bool.and_eq_true] at hne
  obtain ⟨rcs', hF1, hokL⟩ := fwdPass_master sR rR scs rep₀ hwf hcompat hne.1
  rw [hF1] at hrep
  have hrep' : rep₁ = .dir (pruneTree (some (.dir scs)) [] rcs') := hrep
  have hokP : FwdOkL scs (pruneTree (some (.dir scs)) [] rcs') :=
    prune_FwdOk (.dir scs) scs scs rcs' [] (lookup_nil _) hwf (fun m e hm => hm) hokL
  have hsub : SubPaths (.dir scs) [] (pruneTree (some (.dir scs)) [] rcs') :=
    pruneTree_SubPaths (.dir scs) rcs' []
  have hbase₂ : syncFolders true sR rR (some (.dir scs)) (some rep₁) =
      some ((prunePass rR (some (.dir scs))
          (fwdPass sR rR (some (.dir scs)) rep₁).1).1,
        (fwdPass sR rR (some (.dir scs)) rep₁).2 ++
          (prunePass rR (some (.dir scs))
            (fwdPass sR rR (some (.dir scs)) rep₁).1).2) := rfl
  rw [hbase₂, hrep']
  rw [fwdPass_noop sR rR scs (pruneTree (some (.dir scs)) [] rcs') hokP]
  show some ((prunePass rR (some (.dir scs))
      (.dir (pruneTree (some (.dir scs)) [] rcs'))).1,
    [] ++ (prunePass rR (some (.dir scs))
      (.dir (pruneTree (some (.dir scs)) [] rcs'))).2) =
    some (.dir (pruneTree (some (.dir scs)) [] rcs'), [])
  show some (Entry.dir (pruneTree (some (.dir scs)) []
      (pruneTree (some (.dir scs)) [] rcs')),
    [] ++ (pruneFilesEv rR (some (.dir scs)) [] (pruneTree (some (.dir scs)) [] rcs') ++
      pruneDirsEv rR (some (.dir scs)) [] (pruneTree (some (.dir scs)) [] rcs') ++
      pruneInto rR (some (.dir scs)) [] (pruneTree (some (.dir scs)) [] rcs'))) =
    some (.dir (pruneTree (some (.dir scs)) [] rcs'), [])
  rw [pruneTree_noop (.dir scs) (pruneTree (some (.dir scs)) [] rcs') [] hsub,
    pruneFilesEv_noop rR (.dir scs) (pruneTree (some (.dir scs)) [] rcs') [] hsub,
    pruneDirsEv_noop rR (.dir scs) (pruneTree (some (.dir scs)) [] rcs') [] hsub,
    pruneInto_noop rR (.dir scs) (pruneTree (some (.dir scs)) [] rcs') [] hsub]
  rfl

/-- Witness for C2: after the concrete first run of the C1 scenario, a second
run returns the same replica with an empty log. -/
theorem C2_idempotence_witness :
    syncFolders true ["s"] ["r"]
      (some (.dir (.cons "a" (.dir (.cons "b" (.file [104] true) .nil)) .nil)))
      (some (Entry.dir (.cons "a" (.dir (.cons "b" (.file [104] true) .nil)) .nil))) =
    some (Entry.dir (.cons "a" (.dir (.cons "b" (.file [104] true) .nil)) .nil), []) :=
  C2_idempotence ["s"] ["r"]
    (.cons "a" (.dir (.cons "b" (.file [104] true) .nil)) .nil)
    (.dir .nil)
    (Entry.dir (.cons "a" (.dir (.cons "b" (.file [104] true) .nil)) .nil))
    [.created ["r", "a"], .copied ["s", "a", "b"] ["r", "a", "b"]]
    (by decide) (by decide) (by decide) (by decide)

/-! ## Removal from the source: structural lemmas for the deletion frame -/

theorem findChild_dropChild_self : ∀ (cs : Listing) (n : String),
    findChild (dropChild cs n) n = none := by
  intro cs
  cases cs with
  | nil => intro n; rfl
  | cons m e rest =>
    intro n
    rw [dropChild]
    by_cases hmn : m = n
    · rw [if_pos hmn]
      exact findChild_dropChild_self rest n
    · rw [if_neg hmn, findChild, if_neg hmn]
      exact findChild_dropChild_self rest n

theorem findChild_dropChild_other : ∀ (cs : Listing) (n m : String), m ≠ n →
    findChild (dropChild cs n) m = findChild cs m := by
  intro cs
  cases cs with
  | nil => intro n m _; rfl
  | cons k e rest =>
    intro n m hmn
    rw [dropChild]
    by_cases hkn : k = n
    · rw [if_pos hkn]
      have hkm : ¬ k = m := fun hh => hmn (hh ▸ hkn)
      have hr : findChild (.cons k e rest) m = findChild rest m := by
        rw [findChild, if_neg hkm]
      rw [hr]
      exact findChild_dropChild_other rest n m hmn
    · rw [if_neg hkn, findChild, findChild]
      by_cases hkm : k = m
      · rw [if_pos hkm, if_pos hkm]
      · rw [if_neg hkm, if_neg hkm]
        exact findChild_dropChild_other rest n m hmn

theorem hasName_dropChild_le (cs : Listing) (k m : String)
    (h : hasName (dropChild cs k) m = true) : hasName cs m = true := by
  by_cases hmk : m = k
  · subst hmk
    rw [hasName, findChild_dropChild_self cs m] at h
    cases h
  · rw [hasName, findChild_dropChild_other cs k m hmk] at h
    exact h

theorem wfL_dropChild : ∀ (cs : Listing) (k : String), wfL cs = true →
    wfL (dropChild cs k) = true := by
  intro cs
  cases cs with
  | nil => intro k _; rfl
  | cons m e rest =>
    intro k hwf
    rw [wfL, Bool.and_eq_true, Bool.and_eq_true] at hwf
    obtain ⟨⟨hnm, hwfe⟩, hwfr⟩ := hwf
    rw [dropChild]
    by_cases hmk : m = k
    · rw [if_pos hmk]
      exact wfL_dropChild rest k hwfr
    · rw [if_neg hmk, wfL, Bool.and_eq_true, Bool.and_eq_true]
      refine ⟨⟨?_, hwfe⟩, wfL_dropChild rest k hwfr⟩
      rw [Bool.not_eq_true']
      cases hh : hasName (dropChild rest k) m with
      | false => rfl
      | true =>
        rw [Bool.not_eq_true'] at hnm
        rw [hasName_dropChild_le rest k m hh] at hnm
        cases hnm

theorem hasName_setChild : ∀ (cs : Listing) (n : String) (v : Entry) (m : String),
    hasName (setChild cs n v) m = hasName cs m := by
  intro cs
  cases cs with
  | nil => intro n v m; rfl
  | cons k e rest =>
    intro n v m
    rw [setChild]
    by_cases hkn : k = n
    · rw [if_pos hkn, ← hkn, hasName, findChild, hasName, findChild]
      by_cases hkm : k = m
      · rw [if_pos hkm, if_pos hkm]
        rfl
      · rw [if_neg hkm, if_neg hkm]
    · rw [if_neg hkn, hasName, findChild, hasName, findChild]
      by_cases hkm : k = m
      · rw [if_pos hkm, if_pos hkm]
      · rw [if_neg hkm, if_neg hkm]
        exact hasName_setChild rest n v m

theorem wfL_setChild : ∀ (cs : Listing) (n : String) (v : Entry),
    wfL cs = true → wfE v = true → wfL (setChild cs n v) = true := by
  intro cs
  cases cs with
  | nil => intro n v _ _; rfl
  | cons k e rest =>
    intro n v hwf hv
    rw [wfL, Bool.and_eq_true, Bool.and_eq_true] at hwf
    obtain ⟨⟨hnm, hwfe⟩, hwfr⟩ := hwf
    rw [setChild]
    by_cases hkn : k = n
    · rw [if_pos hkn, wfL, Bool.and_eq_true, Bool.and_eq_true]
      exact ⟨⟨hkn ▸ hnm, hv⟩, hwfr⟩
    · rw [if_neg hkn, wfL, Bool.and_eq_true, Bool.and_eq_true]
      refine ⟨⟨?_, hwfe⟩, wfL_setChild rest n v hwfr hv⟩
      rw [hasName_setChild rest n v k]
      exact hnm

theorem wfL_findChild : ∀ (cs : Listing) (m : String) (e : Entry),
    wfL cs = true → findChild cs m = some e → wfE e = true := by
  intro cs
  cases cs with
  | nil => intro m e _ h; cases h
  | cons k e₀ rest =>
    intro m e hwf h
    rw [wfL, Bool.and_eq_true, Bool.and_eq_true] at hwf
    obtain ⟨⟨_, hwfe⟩, hwfr⟩ := hwf
    rw [findChild] at h
    by_cases hkm : k = m
    · rw [if_pos hkm] at h
      injection h with h'
      exact h' ▸ hwfe
    · rw [if_neg hkm] at h
      exact wfL_findChild rest m e hwfr h

theorem wfE_removeAt : ∀ (q : Path) (e : Entry), wfE e = true →
    wfE (removeAt e q) = true := by
  intro q
  cases q with
  | nil =>
    intro e h
    cases e with
    | file c rd => exact h
    | dir cs => exact h
  | cons n rest =>
    intro e h
    cases e with
    | file c rd => exact h
    | dir cs =>
      cases rest with
      | nil =>
        show wfL (dropChild cs n) = true
        exact wfL_dropChild cs n h
      | cons p q' =>
        cases hfc : findChild cs n with
        | some e₀ =>
          have hdef : removeAt (.dir cs) (n :: p :: q') =
              .dir (setChild cs n (removeAt e₀ (p :: q'))) := by rw [removeAt, hfc]
          rw [hdef]
          show wfL (setChild cs n (removeAt e₀ (p :: q'))) = true
          exact wfL_setChild cs n (removeAt e₀ (p :: q')) h
            (wfE_removeAt (p :: q') e₀ (wfL_findChild cs n e₀ h hfc))
        | none =>
          have hdef : removeAt (.dir cs) (n :: p :: q') = .dir cs := by
            rw [removeAt, hfc]
          rw [hdef]
          exact h

theorem findChild_tail_incl (n : String) (e : Entry) (rest cs : Listing)
    (hnm : (!hasName rest n) = true)
    (hincl : ∀ m e', findChild (.cons n e rest) m = some e' → findChild cs m = some e') :
    ∀ m e', findChild rest m = some e' → findChild cs m = some e' := by
  intro m e' hm
  have hmn : m ≠ n := by
    intro hh
    subst hh
    rw [Bool.not_eq_true'] at hnm
    rw [hasName, hm] at hnm
    cases hnm
  refine hincl m e' ?_
  rw [findChild, if_neg (fun hh => hmn hh.symm)]
  exact hm

theorem compatL_self_aux : ∀ (sub cs : Listing), wfL sub = true →
    (∀ m e, findChild sub m = some e → findChild cs m = some e) →
    compatL sub cs = true := by
  intro sub
  cases sub with
  | nil => intro cs _ _; rfl
  | cons n e rest =>
    intro cs hwf hincl
    rw [wfL, Bool.and_eq_true, Bool.and_eq_true] at hwf
    obtain ⟨⟨hnm, hwfe⟩, hwfr⟩ := hwf
    rw [compatL, Bool.and_eq_true]
    refine ⟨?_, compatL_self_aux rest cs hwfr (findChild_tail_incl n e rest cs hnm hincl)⟩
    have hfc : findChild cs n = some e := hincl n e (by rw [findChild, if_pos rfl])
    rw [hfc]
    cases e with
    | file c rd => rfl
    | dir cs₀ =>
      show compatL cs₀ cs₀ = true
      exact compatL_self_aux cs₀ cs₀ hwfe (fun m e' hm => hm)

theorem compat_self (e : Entry) (h : wfE e = true) : compat e (some e) = true := by
  cases e with
  | file c rd => rfl
  | dir cs =>
    show compatL cs cs = true
    exact compatL_self_aux cs cs h (fun m e' hm => hm)

theorem compat_setChild_aux : ∀ (sub cs : Listing) (n : String) (v : Entry),
    wfL sub = true →
    (∀ m e, findChild sub m = some e → findChild cs m = some e) →
    compat v (findChild cs n) = true →
    compatL (setChild sub n v) cs = true := by
  intro sub
  cases sub with
  | nil => intro cs n v _ _ _; rfl
  | cons k e rest =>
    intro cs n v hwf hincl hv
    rw [wfL, Bool.and_eq_true, Bool.and_eq_true] at hwf
    obtain ⟨⟨hnm, hwfe⟩, hwfr⟩ := hwf
    rw [setChild]
    by_cases hkn : k = n
    · rw [if_pos hkn, compatL, Bool.and_eq_true]
      exact ⟨hv, compatL_self_aux rest cs hwfr (findChild_tail_incl k e rest cs hnm hincl)⟩
    · rw [if_neg hkn, compatL, Bool.and_eq_true]
      have hfc : findChild cs k = some e := hincl k e (by rw [findChild, if_pos rfl])
      refine ⟨?_, compat_setChild_aux rest cs n v hwfr
        (findChild_tail_incl k e rest cs hnm hincl) hv⟩
      rw [hfc]
      exact compat_self e hwfe

theorem compat_removeAt : ∀ (q : Path) (e : Entry), wfE e = true →
    compat (removeAt e q) (some e) = true := by
  intro q
  cases q with
  | nil =>
    intro e h
    cases e with
    | file c rd => rfl
    | dir cs => exact compat_self (.dir cs) h
  | cons n rest =>
    intro e h
    cases e with
    | file c rd => rfl
    | dir cs =>
      cases rest with
      | nil =>
        show compatL (dropChild cs n) cs = true
        refine compatL_self_aux (dropChild cs n) cs (wfL_dropChild cs n h) ?_
        intro m e' hm
        by_cases hmn : m = n
        · subst hmn
          rw [findChild_dropChild_self cs m] at hm
          cases hm
        · rw [findChild_dropChild_other cs n m hmn] at hm
          exact hm
      | cons p q' =>
        cases hfc : findChild cs n with
        | some e₀ =>
          have hdef : removeAt (.dir cs) (n :: p :: q') =
              .dir (setChild cs n (removeAt e₀ (p :: q'))) := by rw [removeAt, hfc]
          rw [hdef]
          show compatL (setChild cs n (removeAt e₀ (p :: q'))) cs = true
          refine compat_setChild_aux cs cs n (removeAt e₀ (p :: q')) h
            (fun m e' hm => hm) ?_
          rw [hfc]
          exact compat_removeAt (p :: q') e₀ (wfL_findChild cs n e₀ h hfc)
        | none =>
          have hdef : removeAt (.dir cs) (n :: p :: q') = .dir cs := by
            rw [removeAt, hfc]
          rw [hdef]
          exact compat_self (.dir cs) h

theorem removeAt_lookup_self : ∀ (q : Path) (e : Entry), q ≠ [] →
    lookup (removeAt e q) q = none := by
  intro q
  cases q with
  | nil => intro e h; cases h rfl
  | cons n rest =>
    intro e _
    cases e with
    | file c rd => rfl
    | dir cs =>
      cases rest with
      | nil =>
        show lookup (.dir (dropChild cs n)) [n] = none
        rw [lookup_cons_dir, findChild_dropChild_self cs n]
        rfl
      | cons p q' =>
        cases hfc : findChild cs n with
        | some e₀ =>
          have hdef : removeAt (.dir cs) (n :: p :: q') =
              .dir (setChild cs n (removeAt e₀ (p :: q'))) := by rw [removeAt, hfc]
          rw [hdef, lookup_cons_dir,
            findChild_setChild_self cs n e₀ (removeAt e₀ (p :: q')) hfc]
          show lookup (removeAt e₀ (p :: q')) (p :: q') = none
          exact removeAt_lookup_self (p :: q') e₀ (by intro hh; cases hh)
        | none =>
          have hdef : removeAt (.dir cs) (n :: p :: q') = .dir cs := by
            rw [removeAt, hfc]
          rw [hdef, lookup_cons_dir, hfc]
          rfl

theorem prefix_cons_mono (n : String) (l₁ l₂ : Path) (h : l₁ <+: l₂) :
    (n :: l₁) <+: (n :: l₂) := by
  rcases h with ⟨t, ht⟩
  exact ⟨t, by rw [List.cons_append, ht]⟩

theorem removeAt_lookup_frame : ∀ (q p : Path) (e : Entry),
    ¬ q <+: p → ¬ p <+: q → lookup (removeAt e q) p = lookup e p := by
  intro q
  cases q with
  | nil => intro p e hqp _; exact absurd List.nil_prefix hqp
  | cons n qt =>
    intro p e hqp hpq
    cases p with
    | nil => exact absurd List.nil_prefix hpq
    | cons m pt =>
      cases e with
      | file c rd => rfl
      | dir cs =>
        by_cases hmn : m = n
        · subst hmn
          cases qt with
          | nil => exact absurd ⟨pt, rfl⟩ hqp
          | cons a qt' =>
            cases hfc : findChild cs m with
            | some e₀ =>
              have hdef : removeAt (.dir cs) (m :: a :: qt') =
                  .dir (setChild cs m (removeAt e₀ (a :: qt'))) := by rw [removeAt, hfc]
              rw [hdef, lookup_cons_dir,
                findChild_setChild_self cs m e₀ (removeAt e₀ (a :: qt')) hfc,
                lookup_cons_dir, hfc]
              show lookup (removeAt e₀ (a :: qt')) pt = lookup e₀ pt
              refine removeAt_lookup_frame (a :: qt') pt e₀ ?_ ?_
              · intro hh
                exact hqp (prefix_cons_mono m (a :: qt') pt hh)
              · intro hh
                exact hpq (prefix_cons_mono m pt (a :: qt') hh)
            | none =>
              have hdef : removeAt (.dir cs) (m :: a :: qt') = .dir cs := by
                rw [removeAt, hfc]
              rw [hdef]
        · cases qt with
          | nil =>
            show lookup (.dir (dropChild cs n)) (m :: pt) = lookup (.dir cs) (m :: pt)
            rw [lookup_cons_dir, findChild_dropChild_other cs n m hmn, lookup_cons_dir]
          | cons a qt' =>
            cases hfc : findChild cs n with
            | some e₀ =>
              have hdef : removeAt (.dir cs) (n :: a :: qt') =
                  .dir (setChild cs n (removeAt e₀ (a :: qt'))) := by rw [removeAt, hfc]
              rw [hdef, lookup_cons_dir,
                findChild_setChild_other cs n m (removeAt e₀ (a :: qt')) hmn,
                lookup_cons_dir]
            | none =>
              have hdef : removeAt (.dir cs) (n :: a :: qt') = .dir cs := by
                rw [removeAt, hfc]
              rw [hdef]

theorem removeAt_dir_is_dir (q : Path) (cs : Listing) :
    ∃ cs₂, removeAt (.dir cs) q = .dir cs₂ := by
  cases q with
  | nil => exact ⟨cs, rfl⟩
  | cons n rest =>
    cases rest with
    | nil => exact ⟨dropChild cs n, rfl⟩
    | cons p q' =>
      cases hfc : findChild cs n with
      | some e₀ =>
        exact ⟨setChild cs n (removeAt e₀ (p :: q')), by rw [removeAt, hfc]⟩
      | none => exact ⟨cs, by rw [removeAt, hfc]⟩

theorem removeAt_ancestor_dir : ∀ (p q : Path) (e : Entry) (cs₁ : Listing),
    p <+: q → p ≠ q → lookup e p = some (.dir cs₁) →
    ∃ cs₂, lookup (removeAt e q) p = some (.dir cs₂) := by
  intro p
  cases p with
  | nil =>
    intro q e cs₁ _ hne hl
    rw [lookup_nil] at hl
    injection hl with hl'
    subst hl'
    obtain ⟨cs₂, hq⟩ := removeAt_dir_is_dir q cs₁
    exact ⟨cs₂, by rw [hq, lookup_nil]⟩
  | cons m pt =>
    intro q e cs₁ hpq hne hl
    cases e with
    | file c rd => rw [lookup] at hl; cases hl
    | dir cs =>
      rw [lookup_cons_dir] at hl
      cases hfc : findChild cs m with
      | none => rw [hfc] at hl; cases hl
      | some e₀ =>
        rw [hfc] at hl
        rcases hpq with ⟨t, ht⟩
        rw [List.cons_append] at ht
        subst ht
        cases hqt : pt ++ t with
        | nil =>
          rcases List.append_eq_nil.mp hqt with ⟨h1, h2⟩
          subst h1
          subst h2
          exact absurd rfl hne
        | cons a qt' =>
          have hdef : removeAt (.dir cs) (m :: a :: qt') =
              .dir (setChild cs m (removeAt e₀ (a :: qt'))) := by rw [removeAt, hfc]
          rw [hdef, lookup_cons_dir,
            findChild_setChild_self cs m e₀ (removeAt e₀ (a :: qt')) hfc]
          show ∃ cs₂, lookup (removeAt e₀ (a :: qt')) pt = some (.dir cs₂)
          refine removeAt_ancestor_dir pt (a :: qt') e₀ cs₁ ⟨t, hqt⟩ ?_ hl
          intro hh
          exact hne (congrArg (fun l => m :: l) (hh.trans hqt.symm))

theorem lookup_none_prefix (e : Entry) (q p : Path) (h : lookup e q = none)
    (hqp : q <+: p) : lookup e p = none := by
  rcases hqp with ⟨t, ht⟩
  subst ht
  rw [lookup_append, h]
  rfl

/-- C5. Deletion with a frame condition: remove exactly one entry (the one at
relative path `q`, a file or a directory with its subtree) from a well-formed
source and re-run `sync_folders` against the previously converged replica
(equal to the old source). If the run logs no error line then, under
digest-injectivity over the byte strings involved, exactly `q` and the paths
below it disappear from the replica, and every other replica path keeps its
shape and file content. -/
theorem C5_deletion_frame (sR rR : Path) (scs scs'' : Listing) (q : Path)
    (e_q : Entry) (rep' : Entry) (tr : List Event)
    (hwf : wfL scs = true)
    (hq : q ≠ [])
    (hlq : lookup (.dir scs) q = some e_q)
    (hrm : removeAt (.dir scs) q = .dir scs'')
    (hrun : syncFolders true sR rR (some (.dir scs'')) (some (.dir scs)) =
      some (rep', tr))
    (hne : noError tr = true)
    (hcoll : ∀ c, c ∈ filesOfL scs'' → ∀ c', c' ∈ filesOf (.dir scs) ++ filesOfL scs'' →
      md5hex c' = md5hex c → c' = c) :
    shape (lookup rep' q) = none ∧
    (∀ p, q <+: p → shape (lookup rep' p) = none) ∧
    (∀ p, ¬ q <+: p → shape (lookup rep' p) = shape (lookup (.dir scs) p)) := by
  have hwf'' : wfL scs'' = true := by
    have h := wfE_removeAt q (.dir scs) hwf
    rw [hrm] at h
    exact h
  have hcompat : compat (.dir scs'') (some (.dir scs)) = true := by
    have h := compat_removeAt q (.dir scs) hwf
    rw [hrm] at h
    exact h
  have hshape : ∀ p, shape (lookup (.dir scs'') p) = shape (lookup rep' p) :=
    fun p => syncFolders_shape sR rR scs'' (.dir scs) rep' tr hwf'' hcompat hrun hne hcoll p
  refine ⟨?_, ?_, ?_⟩
  · rw [← hshape q, ← hrm, removeAt_lookup_self q (.dir scs) hq]
    rfl
  · intro p hp
    rw [← hshape p, ← hrm,
      lookup_none_prefix (removeAt (.dir scs) q) q p (removeAt_lookup_self q (.dir scs) hq) hp]
    rfl
  · intro p hnqp
    by_cases hpq : p <+: q
    · have hpne : p ≠ q := by
        intro hh
        exact hnqp (by rw [hh])
      rcases hpq with ⟨t, ht⟩
      cases t with
      | nil =>
        rw [List.append_nil] at ht
        exact absurd ht hpne
      | cons k t' =>
        have hlq' : lookup (.dir scs) (p ++ k :: t') = some e_q := by rw [ht]; exact hlq
        obtain ⟨cs₁, hp₁⟩ := lookup_prefix_dir (.dir scs) p k t' e_q hlq'
        obtain ⟨cs₂, hp₂⟩ := removeAt_ancestor_dir p q (.dir scs) cs₁ ⟨k :: t', ht⟩ hpne hp₁
        rw [← hshape p, ← hrm, hp₂, hp₁]
        rfl
    · rw [← hshape p, ← hrm, removeAt_lookup_frame q p (.dir scs) hnqp hpq]

/-- Witness for C5: removing the file `a` from a two-file source and re-running
deletes exactly `a` from the replica; every hypothesis holds concretely. -/
theorem C5_deletion_frame_witness :
    shape (lookup (Entry.dir (.cons "b" (.file [105] true) .nil)) ["a"]) = none :=
  (C5_deletion_frame ["s"] ["r"]
    (.cons "a" (.file [104] true) (.cons "b" (.file [105] true) .nil))
    (.cons "b" (.file [105] true) .nil)
    ["a"] (.file [104] true)
    (Entry.dir (.cons "b" (.file [105] true) .nil))
    [.removed ["r", "a"]]
    (by decide) (by decide) (by decide) (by decide) (by decide) (by decide)
    (by decide)).1

end Sync
